import Mathlib

/-!
# task-archive-hook: the Task JSON codec of `main.go`

A shallow embedding of `Task.UnmarshalJSON`, `Task.MarshalJSON`, `formatTime`,
`mustParseTask` and `main`, together with the parts of Go's `time` and
`encoding/json` packages those functions call.

Modelling boundaries.
* JSON text is taken after lexing: a document is a `Json` tree whose objects keep
  their members in document order (duplicates included).
* A `time.Time` value is an instant (seconds since 0001-01-01T00:00:00Z and a nanosecond
  part) together with the offset from UTC its Location has at that instant. The program
  itself only creates UTC values (with `time.Parse`, or as the zero value); a Task handed to
  `MarshalJSON` may hold any.
* `json.Unmarshal` first runs the scanner over the whole document (`checkValid`); on a lexed
  document what is left of that is the nesting limit of 10000.
* A JSON number literal is given by what `strconv.ParseInt` and `strconv.ParseFloat`
  read from it; decimal-to-binary conversion itself is not modelled.
-/

namespace TaskArchive

/-! ## Package `time` -/

/-- Go `time.Time`: the instant, as whole seconds since 0001-01-01T00:00:00Z and nanoseconds,
and `offset`, the seconds east of UTC that the value's Location has at that instant (0 for
`time.UTC`). -/
structure Time where
  sec : Int
  nsec : Nat
  offset : Int
deriving DecidableEq, Repr

/-- The zero value of `time.Time`: January 1, year 1, 00:00:00 UTC. -/
def Time.zero : Time := ⟨0, 0, 0⟩

instance : Inhabited Time := ⟨Time.zero⟩

/-- Go `Time.IsZero`: a test on the instant, whatever the Location. -/
def Time.IsZero (t : Time) : Bool := t.sec == 0 && t.nsec == 0

/-- Go `time.isLeap`. -/
def isLeap (year : Int) : Bool :=
  year % 4 == 0 && (year % 100 != 0 || year % 400 == 0)

/-- Go `time.daysBefore`: days in a non-leap year before month `m + 1` starts. -/
def daysBefore (m : Nat) : Nat :=
  match m with
  | 0 => 0
  | 1 => 31
  | 2 => 59
  | 3 => 90
  | 4 => 120
  | 5 => 151
  | 6 => 181
  | 7 => 212
  | 8 => 243
  | 9 => 273
  | 10 => 304
  | 11 => 334
  | _ => 365

/-- Go `time.daysIn`, with the leap flag of the year passed in. -/
def daysIn (month : Nat) (leap : Bool) : Nat :=
  if month == 2 && leap then 29 else daysBefore month - daysBefore (month - 1)

/-- Days from 0001-01-01 to January 1 of `year` (Go `daysSinceEpoch`, re-based to year 1). -/
def daysSinceEpoch (year : Int) : Int :=
  let y := year - 1
  let n400 := y / 400
  let y1 := y % 400
  let n100 := y1 / 100
  let y2 := y1 % 100
  let n4 := y2 / 4
  let n1 := y2 % 4
  146097 * n400 + 36524 * n100 + 1461 * n4 + 365 * n1

/-- Day of the year (0-based) of `month`/`day`, as computed inside Go `time.Date`. -/
def yearDay (leap : Bool) (month day : Nat) : Nat :=
  daysBefore (month - 1) + (if leap && month ≥ 3 then 1 else 0) + (day - 1)

/-- Go `time.Date(year, month, day, hour, min, sec, nsec, time.UTC)` for arguments that are
already in range, which is how `time.Parse` calls it (no normalisation takes place). -/
def Date (year : Int) (month day hour min sec nsec : Nat) : Time :=
  let d : Int := daysSinceEpoch year + (yearDay (isLeap year) month day : Nat)
  ⟨d * 86400 + (hour * 3600 + min * 60 + sec : Nat), nsec, 0⟩

/-- Go `absDate` year part: the year holding day `d` (days since 0001-01-01) and the 0-based
day within that year. -/
def absYear (d : Int) : Int × Nat :=
  let n400 := d / 146097
  let d1 := d % 146097
  let n100 := d1 / 36524
  let n100 := n100 - n100 / 4
  let d2 := d1 - 36524 * n100
  let n4 := d2 / 1461
  let d3 := d2 - 1461 * n4
  let n1 := d3 / 365
  let n1 := n1 - n1 / 4
  let d4 := d3 - 365 * n1
  (1 + 400 * n400 + 100 * n100 + 4 * n4 + n1, d4.toNat)

/-- Go `absDate` month part: month (1-based) and day of month (1-based) of a 0-based year day. -/
def monthDay (leap : Bool) (yday : Nat) : Nat × Nat :=
  if leap && yday == 59 then (2, 29)
  else
    let day := if leap && yday > 59 then yday - 1 else yday
    let month := day / 31
    let e := daysBefore (month + 1)
    if day ≥ e then (month + 2, day - e + 1) else (month + 1, day - daysBefore month + 1)

/-- Broken-down time, the result of Go `Time.Date` and `Time.Clock`. -/
structure Civil where
  year : Int
  month : Nat
  day : Nat
  hour : Nat
  min : Nat
  sec : Nat
deriving DecidableEq, Repr

/-- Go `Time.Date` and `Time.Clock`: the date and clock in the value's own Location, read
from `t.abs()`, the seconds of the instant shifted by the zone offset. -/
def Time.civil (t : Time) : Civil :=
  let abs := t.sec + t.offset
  let yd := absYear (abs / 86400)
  let md := monthDay (isLeap yd.1) yd.2
  let s := (abs % 86400).toNat
  ⟨yd.1, md.1, md.2, s / 3600, s % 3600 / 60, s % 60⟩

/-- The decimal digit character of `d` (for `d < 10`). -/
def digitChar (d : Nat) : Char :=
  match d with
  | 0 => '0'
  | 1 => '1'
  | 2 => '2'
  | 3 => '3'
  | 4 => '4'
  | 5 => '5'
  | 6 => '6'
  | 7 => '7'
  | 8 => '8'
  | _ => '9'

/-- Decimal digits of `n`, most significant first; `fuel` bounds the number of divisions. -/
def natDigitsAux (fuel n : Nat) : List Char :=
  match fuel with
  | 0 => [digitChar n]
  | fuel + 1 => if n < 10 then [digitChar n] else natDigitsAux fuel (n / 10) ++ [digitChar (n % 10)]

/-- Decimal digits of a natural number, most significant first. -/
def natDigits (n : Nat) : List Char := natDigitsAux n n

/-- Go `time.appendInt`: sign, then the decimal digits zero-padded to `width`. -/
def appendInt (x : Int) (width : Nat) : List Char :=
  let ds := natDigits x.natAbs
  (if x < 0 then ['-'] else []) ++ List.replicate (width - ds.length) '0' ++ ds

/-- Go `Time.Format("20060102T150405Z")`: year, month, day, `T`, hour, minute and second of
the value in its own Location, then the letter `Z`, which in this layout is plain text. -/
def formatChars (t : Time) : List Char :=
  let c := t.civil
  appendInt c.year 4 ++ appendInt c.month 2 ++ appendInt c.day 2 ++ ['T'] ++
    appendInt c.hour 2 ++ appendInt c.min 2 ++ appendInt c.sec 2 ++ ['Z']

/-- Go `Time.Format(layout)` with `layout = "20060102T150405Z"`. -/
def Time.Format (t : Time) : String := String.mk (formatChars t)

/-- The test `'0' <= c && c <= '9'` on one character. -/
def isDigitChar (c : Char) : Bool := decide ('0' ≤ c) && decide (c ≤ '9')

/-- Go `time.isDigit(s, i)`. -/
def isDigit (s : List Char) (i : Nat) : Bool :=
  match s.get? i with
  | some c => isDigitChar c
  | none => false

/-- Numeric value of a decimal digit character. -/
def digitVal (c : Char) : Nat := c.toNat - 48

/-- Go `time.getnum(s, fixed)`: a one- or two-digit number (exactly two when `fixed`) and the
rest of the input. -/
def getnum (s : List Char) (fixed : Bool) : Option (Nat × List Char) :=
  if !isDigit s 0 then none
  else if !isDigit s 1 then
    if fixed then none else
      match s with
      | c :: rest => some (digitVal c, rest)
      | [] => none
  else
    match s with
    | c0 :: c1 :: rest => some (digitVal c0 * 10 + digitVal c1, rest)
    | _ => none

/-- Go `time.atoi` on input that starts with a digit: every character must be a digit. -/
def atoi (s : List Char) : Option Nat :=
  if s.all isDigitChar then
    some (s.foldl (fun acc c => acc * 10 + digitVal c) 0)
  else none

/-- Go `time.skip(value, lit)` for a literal without spaces. -/
def skip (value : List Char) (lit : Char) : Option (List Char) :=
  match value with
  | c :: rest => if c == lit then some rest else none
  | [] => none

/-- Go `time.commaOrPeriod`. -/
def commaOrPeriod (c : Char) : Bool := c == '.' || c == ','

/-- Go `time.parseNanoseconds(value, nbytes)`: `value` starts with the separator and its
first `nbytes` characters are the separator and digits; at most nine digits are used. -/
def parseNanoseconds (value : List Char) (nbytes : Nat) : Option Nat :=
  let nb := if nbytes > 10 then 10 else nbytes
  match atoi ((value.take nb).drop 1) with
  | some ns => some (ns * 10 ^ (10 - nb))
  | none => none

/-- The fractional-second special case of `time.Parse` after a seconds field whose layout has
no fraction: a separator followed by at least one digit is consumed as nanoseconds. -/
def parseFraction (value : List Char) : Option (Nat × List Char) :=
  match value with
  | c :: _ =>
    if value.length ≥ 2 && commaOrPeriod c && isDigit value 1 then
      let n := 1 + ((value.drop 1).takeWhile isDigitChar).length
      match parseNanoseconds value n with
      | some ns => some (ns, value.drop n)
      | none => none
    else some (0, value)
  | [] => some (0, value)

/-- Go `time.Parse("20060102T150405Z", value)` on the characters of `value`; `none` stands
for a non-nil error. -/
def parseChars (value : List Char) : Option Time :=
  -- stdLongYear
  if value.length < 4 || !isDigit value 0 then none else
  match atoi (value.take 4) with
  | none => none
  | some year =>
  -- stdZeroMonth
  match getnum (value.drop 4) true with
  | none => none
  | some (month, v) =>
  if month == 0 || 12 < month then none else
  -- stdZeroDay
  match getnum v true with
  | none => none
  | some (day, v) =>
  match skip v 'T' with
  | none => none
  | some v =>
  -- stdHour
  match getnum v false with
  | none => none
  | some (hour, v) =>
  if 24 ≤ hour then none else
  -- stdZeroMinute
  match getnum v true with
  | none => none
  | some (min, v) =>
  if 60 ≤ min then none else
  -- stdZeroSecond
  match getnum v true with
  | none => none
  | some (sec, v) =>
  if 60 ≤ sec then none else
  match parseFraction v with
  | none => none
  | some (nsec, v) =>
  match skip v 'Z' with
  | none => none
  | some v =>
  if v.length != 0 then none else
  if day < 1 || day > daysIn month (isLeap year) then none else
  some (Date year month day hour min sec nsec)

/-- Go `time.Parse(layout, value)` with `layout = "20060102T150405Z"`. -/
def timeParse (value : String) : Option Time := parseChars value.data

/-! ## Package `encoding/json` -/

/-- Go `float64`: a finite value `± mant * 2 ^ exp`, an infinity, or NaN. -/
inductive Float64 where
  | finite (neg : Bool) (mant : Nat) (exp : Int)
  | inf (neg : Bool)
  | nan
deriving DecidableEq

/-- The float64 `+0`, the zero value of the type. -/
def Float64.zero : Float64 := .finite false 0 0

instance : Inhabited Float64 := ⟨Float64.zero⟩

/-- Go `f == 0` (true of both signed zeros). -/
def Float64.isZero (f : Float64) : Bool :=
  match f with
  | .finite _ m _ => m == 0
  | _ => false

/-- Go `math.IsInf(f, 0) || math.IsNaN(f)`, negated. -/
def Float64.isFinite (f : Float64) : Bool :=
  match f with
  | .finite _ _ _ => true
  | _ => false

/-- The least `k' ≥ k` (within `fuel` steps) with `n / 2 ^ k' < 2 ^ 53`. -/
def roundShift (fuel n k : Nat) : Nat :=
  match fuel with
  | 0 => k
  | fuel + 1 => if n / 2 ^ k < 2 ^ 53 then k else roundShift fuel n (k + 1)

/-- Go `float64(i)`: the nearest float64, ties to even (53-bit mantissa). -/
def Float64.ofInt (i : Int) : Float64 :=
  let n := i.natAbs
  let k := roundShift n n 0
  if k == 0 then .finite (decide (i < 0)) n 0
  else
    let q := n / 2 ^ k
    let r := n % 2 ^ k
    let half := 2 ^ (k - 1)
    let q := if r > half || (r == half && q % 2 == 1) then q + 1 else q
    .finite (decide (i < 0)) q k

/-- The integer a finite float64 equals, when it is one. -/
def Float64.toInt? (f : Float64) : Option Int :=
  match f with
  | .finite neg m (.ofNat e) => some (if neg then -((m * 2 ^ e : Nat) : Int) else ((m * 2 ^ e : Nat) : Int))
  | .finite neg m (.negSucc e) =>
    if m % 2 ^ (e + 1) == 0 then
      some (if neg then -((m / 2 ^ (e + 1) : Nat) : Int) else ((m / 2 ^ (e + 1) : Nat) : Int))
    else none
  | _ => none

/-- Go `int` on a 64-bit platform: the range test of `strconv.ParseInt(s, 10, 64)`. -/
def inInt64 (i : Int) : Bool := decide (-(2 : Int) ^ 63 ≤ i) && decide (i < (2 : Int) ^ 63)

/-- A JSON number literal, given by what Go reads from it: `asInt` is the result of
`strconv.ParseInt(lit, 10, 64)` and `asFloat` that of `strconv.ParseFloat(lit, 64)`, each
`none` when the call returns an error (not integer syntax, or out of range). -/
structure Number where
  asInt : Option Int
  asFloat : Option Float64
deriving DecidableEq

/-- The literal `json.Marshal` writes for an `int`. -/
def Number.ofInt (i : Int) : Number := ⟨some i, some (Float64.ofInt i)⟩

/-- The literal `json.Marshal` writes for a finite `float64`: the shortest decimal that reads
back as the same float64, in integer syntax exactly when the value is an integer below 1e21. -/
def Number.ofFloat (f : Float64) : Number :=
  ⟨(f.toInt?).bind (fun i => if inInt64 i then some i else none), some f⟩

/-- A lexed JSON document; object members are in document order. -/
inductive Json where
  | null
  | bool (b : Bool)
  | num (n : Number)
  | str (s : String)
  | arr (xs : List Json)
  | obj (kvs : List (String × Json))

instance : Inhabited Json := ⟨Json.null⟩

/-- Go `json.maxNestingDepth`: how many arrays and objects the scanner lets be open at once. -/
def maxNestingDepth : Nat := 10000

mutual
/-- The largest number of arrays and objects open at once in a document: the height the
scanner's `parseState` stack reaches (`pushParseState` at every opening bracket and
brace). -/
def Json.depth : Json → Nat
  | .arr xs => 1 + depthElems xs
  | .obj kvs => 1 + depthMembers kvs
  | _ => 0
/-- The largest `Json.depth` among the elements of an array. -/
def depthElems : List Json → Nat
  | [] => 0
  | x :: xs => max x.depth (depthElems xs)
/-- The largest `Json.depth` among the member values of an object. -/
def depthMembers : List (String × Json) → Nat
  | [] => 0
  | (_, v) :: kvs => max v.depth (depthMembers kvs)
end

/-- Go `json.checkValid(data, &d.scan)`, the scan `json.Unmarshal` makes of the whole document
before it decodes anything. The document is already lexed, so what is left of the scan is the
test in `pushParseState`: it fails with the SyntaxError `exceeded max depth` when the stack
grows beyond `maxNestingDepth`. -/
def checkValid (data : Json) : Bool := decide (data.depth ≤ maxNestingDepth)

/-- The errors the program can meet. -/
inductive Err where
  /-- Go `*json.SyntaxError`: the text is not JSON, or it nests beyond `maxNestingDepth`. -/
  | jsonSyntax
  /-- Go `*json.UnmarshalTypeError`: a JSON value does not fit the Go field. -/
  | unmarshalType
  /-- Go `*time.ParseError`. -/
  | timeParse
  /-- Go `*json.UnsupportedValueError`: NaN or an infinity. -/
  | unsupportedValue
deriving DecidableEq, Repr

/-- What a Go call does: return a value, return a non-nil error, or panic. -/
inductive Outcome (α : Type) where
  | ok (v : α)
  | error (e : Err)
  | panic
deriving DecidableEq

/-- Case folding of one character of an object key, as `encoding/json` matches keys with
field names (`bytes.EqualFold`): ASCII case, the long s and the Kelvin sign. -/
def foldRune (c : Char) : Char :=
  if 'A' ≤ c ∧ c ≤ 'Z' then Char.ofNat (c.toNat + 32)
  else if c = Char.ofNat 0x17F then 's'
  else if c = Char.ofNat 0x212A then 'k'
  else c

/-- Go `json.foldName`: the key under which a member is matched with a field name. -/
def foldName (k : String) : String := String.mk (k.data.map foldRune)

/-! ## The data model of `main.go` -/

/-- Go `Annotation`. -/
structure Annotation where
  Entry : Time
  Description : String
deriving DecidableEq

/-- Go `Task`. -/
structure Task where
  ID : Int
  Description : String
  Due : Time
  Entry : Time
  Imask : Float64
  Modified : Time
  Parent : String
  Project : String
  Recur : String
  Reviewed : Time
  Rtype : String
  Status : String
  Until : Time
  UUID : String
  Wait : Time
  Annotations : List Annotation
  Tags : List String
  Urgency : Float64
deriving DecidableEq

/-- The zero value of `Task` (`var task Task`). -/
def Task.zero : Task :=
  { ID := 0, Description := "", Due := Time.zero, Entry := Time.zero, Imask := Float64.zero,
    Modified := Time.zero, Parent := "", Project := "", Recur := "", Reviewed := Time.zero,
    Rtype := "", Status := "", Until := Time.zero, UUID := "", Wait := Time.zero,
    Annotations := [], Tags := [], Urgency := Float64.zero }

/-- The element type of `aux.Annotations` in both codec methods:
`struct { Entry string }` with tag `json:"entry,omitempty"`. -/
structure AuxEntry where
  Entry : String
deriving DecidableEq

/-- The anonymous struct `aux` of `UnmarshalJSON`.  The six strings and `Annotations` sit at
depth 0 and hide the like-named fields of the embedded `*Alias`, which points to the receiver.
`annSpare` and `tagsSpare` are the elements of the two slices' backing arrays past their
length, which a later array for the same key decodes into. -/
structure Aux where
  Due : String
  Entry : String
  Modified : String
  Reviewed : String
  Until : String
  Wait : String
  Annotations : List AuxEntry
  annSpare : List AuxEntry
  Alias : Task
  tagsSpare : List String

/-! ## `json.Unmarshal` into the struct `aux` -/

/-- Decoding a JSON value into a Go `string`: a string is stored, `null` leaves the field as
it is, anything else is an `UnmarshalTypeError`. -/
def decodeString (old : String) (v : Json) : Option String :=
  match v with
  | .str s => some s
  | .null => some old
  | _ => none

/-- Decoding a JSON value into a Go `int`. -/
def decodeInt (old : Int) (v : Json) : Option Int :=
  match v with
  | .num n =>
    match n.asInt with
    | some i => if inInt64 i then some i else none
    | none => none
  | .null => some old
  | _ => none

/-- Decoding a JSON value into a Go `float64`; `strconv.ParseFloat` returns an error with
every infinity it yields, and never NaN for a JSON literal. -/
def decodeFloat (old : Float64) (v : Json) : Option Float64 :=
  match v with
  | .num n =>
    match n.asFloat with
    | some f => if f.isFinite then some f else none
    | none => none
  | .null => some old
  | _ => none

/-- The element loop of the decoder's `array`: element `i` is decoded into slot `i` of the
backing array when there is one (keeping what the slot held), else into a zero element. -/
def decodeElems {α : Type} (elem : α → Json → Option α) (zero : α) (slots : List α)
    (xs : List Json) : Option (List α) :=
  match xs with
  | [] => some []
  | x :: rest =>
    match elem (slots.headD zero) x with
    | none => none
    | some y =>
      match decodeElems elem zero slots.tail rest with
      | none => none
      | some ys => some (y :: ys)

/-- Decoding a JSON value into a Go slice with elements `vis` and spare backing elements
`spare`: `null` and `[]` give a fresh empty slice, an array is decoded slot by slot and the
slots it does not reach stay in the backing array. -/
def decodeSlice {α : Type} (elem : α → Json → Option α) (zero : α) (vis spare : List α)
    (v : Json) : Option (List α × List α) :=
  match v with
  | .null => some ([], [])
  | .arr [] => some ([], [])
  | .arr xs =>
    match decodeElems elem zero (vis ++ spare) xs with
    | none => none
    | some ys => some (ys, (vis ++ spare).drop xs.length)
  | _ => none

/-- The members of one annotation object, in order, into `struct { Entry string }`. -/
def decodeAnnMembers (old : AuxEntry) (kvs : List (String × Json)) : Option AuxEntry :=
  match kvs with
  | [] => some old
  | (k, v) :: rest =>
    if foldName k = "entry" then
      match decodeString old.Entry v with
      | none => none
      | some s => decodeAnnMembers ⟨s⟩ rest
    else decodeAnnMembers old rest

/-- Decoding one element of the `annotations` array into `struct { Entry string }`. -/
def decodeAuxEntry (old : AuxEntry) (v : Json) : Option AuxEntry :=
  match v with
  | .obj kvs => decodeAnnMembers old kvs
  | .null => some old
  | _ => none

/-- The six temporal fields of a Task. -/
inductive TimeField where
  | Due
  | Entry
  | Modified
  | Reviewed
  | Until
  | Wait
deriving DecidableEq, Repr

/-- The JSON name of a temporal field. -/
def TimeField.key (f : TimeField) : String :=
  match f with
  | .Due => "due"
  | .Entry => "entry"
  | .Modified => "modified"
  | .Reviewed => "reviewed"
  | .Until => "until"
  | .Wait => "wait"

/-- The value of a temporal field in a Task. -/
def TimeField.get (f : TimeField) (t : Task) : Time :=
  match f with
  | .Due => t.Due
  | .Entry => t.Entry
  | .Modified => t.Modified
  | .Reviewed => t.Reviewed
  | .Until => t.Until
  | .Wait => t.Wait

/-- The string `json.Unmarshal` left in `aux` for a temporal field. -/
def TimeField.raw (f : TimeField) (a : Aux) : String :=
  match f with
  | .Due => a.Due
  | .Entry => a.Entry
  | .Modified => a.Modified
  | .Reviewed => a.Reviewed
  | .Until => a.Until
  | .Wait => a.Wait

/-- Writing the string `json.Unmarshal` holds for a temporal field in `aux`. -/
def TimeField.setRaw (f : TimeField) (a : Aux) (s : String) : Aux :=
  match f with
  | .Due => { a with Due := s }
  | .Entry => { a with Entry := s }
  | .Modified => { a with Modified := s }
  | .Reviewed => { a with Reviewed := s }
  | .Until => { a with Until := s }
  | .Wait => { a with Wait := s }

/-- The string fields of a Task. -/
inductive StrField where
  | Description
  | Parent
  | Project
  | Recur
  | Rtype
  | Status
  | UUID
deriving DecidableEq, Repr

/-- The JSON name of a string field. -/
def StrField.key (f : StrField) : String :=
  match f with
  | .Description => "description"
  | .Parent => "parent"
  | .Project => "project"
  | .Recur => "recur"
  | .Rtype => "rtype"
  | .Status => "status"
  | .UUID => "uuid"

/-- The value of a string field in a Task. -/
def StrField.get (f : StrField) (t : Task) : String :=
  match f with
  | .Description => t.Description
  | .Parent => t.Parent
  | .Project => t.Project
  | .Recur => t.Recur
  | .Rtype => t.Rtype
  | .Status => t.Status
  | .UUID => t.UUID

/-- Storing into a string field of a Task. -/
def StrField.set (f : StrField) (t : Task) (s : String) : Task :=
  match f with
  | .Description => { t with Description := s }
  | .Parent => { t with Parent := s }
  | .Project => { t with Project := s }
  | .Recur => { t with Recur := s }
  | .Rtype => { t with Rtype := s }
  | .Status => { t with Status := s }
  | .UUID => { t with UUID := s }

/-- The float64 fields of a Task. -/
inductive FloatField where
  | Imask
  | Urgency
deriving DecidableEq, Repr

/-- The JSON name of a float64 field. -/
def FloatField.key (f : FloatField) : String :=
  match f with
  | .Imask => "imask"
  | .Urgency => "urgency"

/-- The value of a float64 field in a Task. -/
def FloatField.get (f : FloatField) (t : Task) : Float64 :=
  match f with
  | .Imask => t.Imask
  | .Urgency => t.Urgency

/-- Storing into a float64 field of a Task. -/
def FloatField.set (f : FloatField) (t : Task) (x : Float64) : Task :=
  match f with
  | .Imask => { t with Imask := x }
  | .Urgency => { t with Urgency := x }

/-- The fields of `aux` that `json.Unmarshal` can reach: the six strings and `Annotations`
at depth 0, and through `*Alias` the fields of `Task` whose names those do not hide. -/
inductive Field where
  | time (f : TimeField)
  | annotations
  | id
  | str (f : StrField)
  | float (f : FloatField)
  | tags
deriving DecidableEq, Repr

/-- The JSON name of a field of `aux`. -/
def Field.key (f : Field) : String :=
  match f with
  | .time g => g.key
  | .annotations => "annotations"
  | .id => "id"
  | .str g => g.key
  | .float g => g.key
  | .tags => "tags"

/-- All fields of `aux`, in the order `encoding/json` lists them. -/
def Field.all : List Field :=
  [.time .Due, .time .Entry, .time .Modified, .time .Reviewed, .time .Until, .time .Wait,
    .annotations, .id, .str .Description, .float .Imask, .str .Parent, .str .Project,
    .str .Recur, .str .Rtype, .str .Status, .str .UUID, .tags, .float .Urgency]

/-- The field an object key names: keys are compared with field names ignoring case. -/
def fieldOfKey (k : String) : Option Field :=
  Field.all.find? (fun f => f.key == foldName k)

/-- Decoding the JSON value `v` into field `fld` of `aux`. -/
def decodeField (a : Aux) (fld : Field) (v : Json) : Option Aux :=
  match fld with
  | .time f => (decodeString (f.raw a) v).map (fun s => f.setRaw a s)
  | .annotations =>
    (decodeSlice decodeAuxEntry ⟨""⟩ a.Annotations a.annSpare v).map
      (fun r => { a with Annotations := r.1, annSpare := r.2 })
  | .id => (decodeInt a.Alias.ID v).map (fun i => { a with Alias := { a.Alias with ID := i } })
  | .str f => (decodeString (f.get a.Alias) v).map (fun s => { a with Alias := f.set a.Alias s })
  | .float f => (decodeFloat (f.get a.Alias) v).map (fun x => { a with Alias := f.set a.Alias x })
  | .tags =>
    (decodeSlice decodeString "" a.Alias.Tags a.tagsSpare v).map
      (fun r => { a with Alias := { a.Alias with Tags := r.1 }, tagsSpare := r.2 })

/-- One member `k : v` of the top-level object, stored into the field of `aux` that `k`
names; a key that names no field is skipped. -/
def decodeMember (a : Aux) (k : String) (v : Json) : Option Aux :=
  match fieldOfKey k with
  | some fld => decodeField a fld v
  | none => some a

/-- The members of the top-level object, in document order. -/
def decodeMembers (a : Aux) (kvs : List (String × Json)) : Option Aux :=
  match kvs with
  | [] => some a
  | (k, v) :: rest =>
    match decodeMember a k v with
    | none => none
    | some a1 => decodeMembers a1 rest

/-- The value of `aux` when `json.Unmarshal` is called: the six strings empty, `Annotations`
nil, and `Alias` pointing to the receiver `t`. -/
def Aux.init (t : Task) : Aux :=
  { Due := "", Entry := "", Modified := "", Reviewed := "", Until := "", Wait := "",
    Annotations := [], annSpare := [], Alias := t, tagsSpare := [] }

/-- Go `d.unmarshal(&aux)`, the decoding phase of `json.Unmarshal(data, &aux)`, `aux` being a
pointer to the struct: `some (some a)` leaves `aux` pointing to `a`, `some none` leaves `aux`
nil (the document `null`), `none` is an `UnmarshalTypeError`. -/
def decodeAux (t : Task) (data : Json) : Option (Option Aux) :=
  match data with
  | .obj kvs => (decodeMembers (Aux.init t) kvs).map some
  | .null => some none
  | _ => none

/-- Go `json.Unmarshal(data, &aux)` in `UnmarshalJSON`: `checkValid` over the whole document,
then the decoding phase. `.ok (some a)` is a nil error with `aux` pointing to `a`, `.ok none`
a nil error with `aux` set to nil. -/
def unmarshalAux (t : Task) (data : Json) : Except Err (Option Aux) :=
  if checkValid data then
    match decodeAux t data with
    | none => .error .unmarshalType
    | some aux => .ok aux
  else .error .jsonSyntax

/-! ## `Task.UnmarshalJSON` -/

/-- One block `if len(s) > 0 { v, err := time.Parse(layout, s); if err != nil { return err };
field = v }` of `UnmarshalJSON`: the new value of the field, or `none` for the early return. -/
def parseInto (s : String) (old : Time) : Option Time :=
  if s.length > 0 then timeParse s else some old

/-- The six blocks of `UnmarshalJSON` that parse `aux.Due` ... `aux.Wait` into the receiver,
in source order; `none` is the first early `return err`. -/
def parseTimes (aux : Aux) (t : Task) : Option Task := do
  let due ← parseInto aux.Due t.Due
  let t := { t with Due := due }
  let entry ← parseInto aux.Entry t.Entry
  let t := { t with Entry := entry }
  let modified ← parseInto aux.Modified t.Modified
  let t := { t with Modified := modified }
  let reviewed ← parseInto aux.Reviewed t.Reviewed
  let t := { t with Reviewed := reviewed }
  let until_ ← parseInto aux.Until t.Until
  let t := { t with Until := until_ }
  let wait ← parseInto aux.Wait t.Wait
  some { t with Wait := wait }

/-- The loop `for _, annotation := range aux.Annotations` of `UnmarshalJSON`: an element with
a non-empty `Entry` is parsed and appended as `Annotation{Entry: entryTime}`, an element with
an empty `Entry` is passed over; `none` is the early `return err`. -/
def appendAnnotations (acc : List Annotation) (xs : List AuxEntry) :
    Option (List Annotation) :=
  match xs with
  | [] => some acc
  | annotation :: rest =>
    if annotation.Entry.length > 0 then
      match timeParse annotation.Entry with
      | none => none
      | some entryTime => appendAnnotations (acc ++ [{ Entry := entryTime, Description := "" }]) rest
    else appendAnnotations acc rest

/-- Go `(t *Task) UnmarshalJSON(data)`: the receiver after the call when it returns nil. -/
def UnmarshalJSON (t : Task) (data : Json) : Outcome Task :=
  match unmarshalAux t data with
  | .error err => .error err
  | .ok none => .panic
  | .ok (some aux) =>
    match parseTimes aux aux.Alias with
    | none => .error .timeParse
    | some t1 =>
      match appendAnnotations t1.Annotations aux.Annotations with
      | none => .error .timeParse
      | some anns => .ok { t1 with Annotations := anns }

/-- Decoding into a fresh Task, as `mustParseTask` does (`var task Task`). -/
def decode (data : Json) : Outcome Task := UnmarshalJSON Task.zero data

/-! ## `Task.MarshalJSON` -/

/-- Go `formatTime(t, layout)`: nil for the zero time, else a pointer to the formatted text. -/
def formatTime (t : Time) : Option String :=
  if t.IsZero then none else some t.Format

/-- A `*string` field tagged `omitempty`: left out when nil. -/
def encPtr (key : String) (p : Option String) : List (String × Json) :=
  match p with
  | none => []
  | some s => [(key, .str s)]

/-- A `string` field tagged `omitempty`: left out when empty. -/
def encStr (key : String) (s : String) : List (String × Json) :=
  if s.length == 0 then [] else [(key, .str s)]

/-- A `float64` field tagged `omitempty`: left out when `== 0`; `none` when the value is NaN
or an infinity (`UnsupportedValueError`). -/
def encFloat (key : String) (f : Float64) : Option (List (String × Json)) :=
  if f.isZero then some []
  else if f.isFinite then some [(key, .num (Number.ofFloat f))]
  else none

/-- One element of the encoded `annotations` list: `struct { Entry string }` with `omitempty`. -/
def encAuxEntry (a : AuxEntry) : Json := .obj (encStr "entry" a.Entry)

/-- Go `(t Task) MarshalJSON()`: the document written, or the error of `json.Marshal`.
Members come in the field order of the anonymous struct: its own seven fields, then the
fields of `*Alias` they do not hide. -/
def MarshalJSON (t : Task) : Outcome Json :=
  let annotations : List AuxEntry := t.Annotations.map (fun annotation => ⟨ annotation.Entry.Format⟩)
  match encFloat "imask" t.Imask, encFloat "urgency" t.Urgency with
  | some imask, some urgency =>
    .ok (.obj (
      encPtr "due" (formatTime t.Due) ++
      encPtr "entry" (formatTime t.Entry) ++
      encPtr "modified" (formatTime t.Modified) ++
      encPtr "reviewed" (formatTime t.Reviewed) ++
      encPtr "until" (formatTime t.Until) ++
      encPtr "wait" (formatTime t.Wait) ++
      (if annotations.length == 0 then [] else [("annotations", .arr (annotations.map encAuxEntry))]) ++
      (if t.ID == 0 then [] else [("id", .num (Number.ofInt t.ID))]) ++
      [("description", .str t.Description)] ++
      imask ++
      encStr "parent" t.Parent ++
      encStr "project" t.Project ++
      encStr "recur" t.Recur ++
      encStr "rtype" t.Rtype ++
      encStr "status" t.Status ++
      encStr "uuid" t.UUID ++
      (if t.Tags.length == 0 then [] else [("tags", .arr (t.Tags.map Json.str))]) ++
      urgency))
  | _, _ => .error .unsupportedValue

/-- The value of the first member named `key` in a JSON object, if any. -/
def Json.member? (j : Json) (key : String) : Option Json :=
  match j with
  | .obj kvs => (kvs.find? (fun kv => kv.1 == key)).map (fun kv => kv.2)
  | _ => none

/-- The list of member names of a JSON object. -/
def Json.keys (j : Json) : List String :=
  match j with
  | .obj kvs => kvs.map (fun kv => kv.1)
  | _ => []

/-! ## `mustParseTask` and `main` -/

/-- One line of standard input as `bufio.Scanner` hands it over: `none` when the text is not
valid JSON, else the document.  Standard input is taken to be read without I/O error and
with every line within the Scanner's buffer, so that `Scan` fails only at the end of the
input and `scanner.Err()` is nil. -/
abbrev Line := Option Json

/-- What the program writes to standard output, line by line. -/
inductive Printed where
  /-- The message `Error reading standard input:`. -/
  | errReading
  /-- The message `Error decoding JSON:` and the error. -/
  | errDecoding (e : Err)
  /-- The message `Error marshalling JSON:` and the error. -/
  | errMarshalling (e : Err)
  /-- The encoded task document, `fmt.Println(string(result))`. -/
  | document (j : Json)
  /-- The notice `Task archived from <status> to <status>`. -/
  | archived (original modified : String)

/-- How the process ends: `os.Exit(code)`, or a run-time panic (exit status 2, nothing more
on standard output). -/
inductive Termination where
  | exit (code : Nat)
  | panic
deriving DecidableEq, Repr

/-- A run of the program: what it printed and how it ended. -/
structure Run where
  stdout : List Printed
  term : Termination

/-- Go `json.Unmarshal([]byte(line), &task)` with `var task Task`: a syntax error for text
that is not JSON, else the call of `task.UnmarshalJSON` on the document. The scan this outer
call makes first is the one `json.Unmarshal` repeats inside `UnmarshalJSON` on the same
document, where `checkValid` models it: a document nested too deep is a syntax error. -/
def jsonUnmarshalTask (line : Line) : Outcome Task :=
  match line with
  | none => .error .jsonSyntax
  | some data => UnmarshalJSON Task.zero data

/-- Go `mustParseTask(line)`: the task, or the run that ends the process (the error message
and `os.Exit(1)`, or the panic). -/
def mustParseTask (line : Line) : Except Run Task :=
  match jsonUnmarshalTask line with
  | .ok task => .ok task
  | .error err => .error ⟨[.errDecoding err], .exit 1⟩
  | .panic => .error ⟨[], .panic⟩

/-- The test of `main` that decides on the archive notice. -/
def archiveWorthy (originalTask modifiedTask : Task) : Bool :=
  originalTask.Status == "pending"
    && (modifiedTask.Status == "completed" || modifiedTask.Status == "deleted")

/-- Go `main` on the lines of standard input. -/
def main (stdin : List Line) : Run :=
  match stdin with
  | [] => ⟨[.errReading], .exit 1⟩
  | line :: rest =>
    match mustParseTask line with
    | .error run => run
    | .ok originalTask =>
      match rest with
      | [] => ⟨[.errReading], .exit 1⟩
      | line2 :: _ =>
        match mustParseTask line2 with
        | .error run => run
        | .ok modifiedTask =>
          match MarshalJSON modifiedTask with
          | .error err => ⟨[.errMarshalling err], .exit 1⟩
          | .panic => ⟨[], .panic⟩
          | .ok result =>
            ⟨[.document result] ++
              (if archiveWorthy originalTask modifiedTask then
                [.archived originalTask.Status modifiedTask.Status]
              else []),
              .exit 0⟩

/-- Whether a run printed an encoded task document. -/
def Run.printedDocument (r : Run) : Bool :=
  r.stdout.any (fun p =>
    match p with
    | .document _ => true
    | _ => false)

/-- Whether a run printed the archive notice. -/
def Run.printedArchived (r : Run) : Bool :=
  r.stdout.any (fun p =>
    match p with
    | .archived _ _ => true
    | _ => false)

/-! ## Auxiliary definitions for the statements -/

/-- Length of a year in days. -/
def yearLen (y : Int) : Nat := if isLeap y then 366 else 365

/-- A month and a day of that month. -/
def validMD (leap : Bool) (month day : Nat) : Bool :=
  decide (1 ≤ month) && decide (month ≤ 12) && decide (1 ≤ day) && decide (day ≤ daysIn month leap)

/-- Two decimal digits of a number below 100. -/
def twoDigits (n : Nat) : List Char := [digitChar (n / 10), digitChar (n % 10)]

/-- Four decimal digits of a number below 10000. -/
def fourDigits (n : Nat) : List Char :=
  [digitChar (n / 1000), digitChar (n / 100 % 10), digitChar (n / 10 % 10), digitChar (n % 10)]

/-- The text `YYYYMMDDThhmmss` that spells a broken-down time, without the final `Z`. -/
def spellBody (c : Civil) : List Char :=
  fourDigits c.year.toNat ++ twoDigits c.month ++ twoDigits c.day ++ ['T'] ++
    twoDigits c.hour ++ twoDigits c.min ++ twoDigits c.sec

/-- The text `YYYYMMDDThhmmssZ` that spells a broken-down time. -/
def spell (c : Civil) : List Char := spellBody c ++ ['Z']

/-- A fractional-second part as `time.Parse` accepts it after the seconds: nothing, or a
period or comma followed by one or more digits. -/
def isFraction (f : List Char) : Bool :=
  match f with
  | [] => true
  | sep :: ds => commaOrPeriod sep && !ds.isEmpty && ds.all isDigitChar

/-- A real calendar date and clock time in the years 0000 to 9999. -/
def Civil.valid (c : Civil) : Bool :=
  decide (0 ≤ c.year) && decide (c.year ≤ 9999) && validMD (isLeap c.year) c.month c.day &&
    decide (c.hour < 24) && decide (c.min < 60) && decide (c.sec < 60)

/-! ## Reading an object by field name -/

/-- The string a JSON value gives to a Go `string`, when it is a string. -/
def readStr (v : Json) : Option String :=
  match v with
  | .str s => some s
  | _ => none

/-- The value an object holds for the field `name`: what `read` yields on the last member
whose key equals `name` ignoring case and that `read` accepts; `zero` when there is none. -/
def pickLast {α : Type} (name : String) (read : Json → Option α) (zero : α)
    (kvs : List (String × Json)) : α :=
  kvs.foldl (fun acc kv => if foldName kv.1 = name then (read kv.2).getD acc else acc) zero

/-- The string an object holds under `name`: the last string-valued member whose key equals
`name` ignoring case; empty when there is none. -/
def heldString (name : String) (kvs : List (String × Json)) : String :=
  pickLast name readStr "" kvs

/-- The grammar `YYYYMMDDThhmmssZ`: 16 characters, 8 digits, `T`, 6 digits, `Z`. -/
def matchesGrammar (s : List Char) : Bool :=
  s.length == 16 && (s.take 8).all isDigitChar && s.get? 8 == some 'T'
    && ((s.drop 9).take 6).all isDigitChar && s.get? 15 == some 'Z'

/-- The grammar `time.Parse` goes by: `YYYYMMDDThhmmss`, an optional fractional second (a
period or comma and one or more digits), `Z`. -/
def matchesLenient (s : List Char) : Bool :=
  (s.take 8).all isDigitChar && s.get? 8 == some 'T' && ((s.drop 9).take 6).all isDigitChar
    && decide (16 ≤ s.length) && s.getLast? == some 'Z' && isFraction ((s.drop 15).dropLast)

/-- The `entry` an element of the `annotations` array gives: the string an object holds
under `entry`, empty for an element that is not an object. -/
def entryOf (e : Json) : String :=
  match e with
  | .obj m => heldString "entry" m
  | _ => ""

/-- The invariant of a temporal value: a value in UTC, with a real date and time in the years
0000 to 9999, whose format is the 16 characters spelling it, and whose format parses back to
it with the sub-second part cleared. -/
def roundTrips (t : Time) : Prop :=
  t.offset = 0 ∧ t.civil.valid = true ∧ t.Format.length = 16 ∧ t.Format.data = spell t.civil
    ∧ timeParse t.Format = some { t with nsec := 0 }

instance (t : Time) : Decidable (roundTrips t) := by
  unfold roundTrips
  infer_instance

/-! ## The reference reading of a well-formed object -/

/-- The last member of an object whose key equals `name` ignoring case, if any. -/
def lastMember (name : String) (kvs : List (String × Json)) : Option Json :=
  pickLast name (fun v => some (some v)) none kvs

/-- The number a run of decimal digits writes. -/
def numOf (s : List Char) : Nat := s.foldl (fun acc c => acc * 10 + digitVal c) 0

/-- The year, month, day, hour, minute and second written in a text `YYYYMMDDThhmmssZ`. -/
def readCivil (s : List Char) : Civil :=
  { year := numOf (s.take 4), month := numOf ((s.drop 4).take 2),
    day := numOf ((s.drop 6).take 2), hour := numOf ((s.drop 9).take 2),
    min := numOf ((s.drop 11).take 2), sec := numOf ((s.drop 13).take 2) }

/-- A string in the grammar `YYYYMMDDThhmmssZ` that denotes a real calendar date and time. -/
def validStamp (s : String) : Bool := matchesGrammar s.data && (readCivil s.data).valid

/-- The UTC instant with exactly the year, month, day, hour, minute and second written in a
timestamp string, and no fraction of a second. -/
def writtenInstant (s : String) : Time :=
  Date (readCivil s.data).year (readCivil s.data).month (readCivil s.data).day
    (readCivil s.data).hour (readCivil s.data).min (readCivil s.data).sec 0

/-- The integer a JSON value gives to a Go `int`, when it is an integer literal in range. -/
def readInt (v : Json) : Option Int :=
  match v with
  | .num n =>
    match n.asInt with
    | some i => if inInt64 i then some i else none
    | none => none
  | _ => none

/-- The float64 a JSON value gives, when it is a number literal in range. -/
def readFloat (v : Json) : Option Float64 :=
  match v with
  | .num n =>
    match n.asFloat with
    | some f => if f.isFinite then some f else none
    | none => none
  | _ => none

/-- The list of strings a JSON value gives, when it is an array of strings. -/
def readTags (v : Json) : Option (List String) :=
  match v with
  | .arr xs =>
    if xs.all (fun e => (readStr e).isSome) then some (xs.map (fun e => (readStr e).getD ""))
    else none
  | _ => none

/-- A member of an annotation object is well typed when it is not the entry, or is a
timestamp string. -/
def wellTypedAnnMember (kv : String × Json) : Bool :=
  if foldName kv.1 = "entry" then
    match kv.2 with
    | .str s => validStamp s
    | _ => false
  else true

/-- A JSON value is well typed for a field: a string for a string field, an integer literal
in range for `id`, a number literal in range for a float64 field, an array of strings for
`tags`, a timestamp string for a temporal field, and for `annotations` an array of objects
whose entries are timestamp strings. -/
def wellTyped (fld : Field) (v : Json) : Bool :=
  match fld with
  | .time _ =>
    match v with
    | .str s => validStamp s
    | _ => false
  | .annotations =>
    match v with
    | .arr elems =>
      elems.all (fun e =>
        match e with
        | .obj m => m.all wellTypedAnnMember
        | _ => false)
    | _ => false
  | .id => (readInt v).isSome
  | .str _ => (readStr v).isSome
  | .float _ => (readFloat v).isSome
  | .tags => (readTags v).isSome

/-- An object is well formed when every member whose key names a field (ignoring case) is
well typed for that field. -/
def wellFormed (kvs : List (String × Json)) : Bool :=
  kvs.all (fun kv =>
    match fieldOfKey kv.1 with
    | some fld => wellTyped fld kv.2
    | none => true)

/-- The instant a JSON value gives to a temporal field: the written instant of a string, the
zero instant otherwise. -/
def timeOf (v : Json) : Time :=
  match v with
  | .str s => writtenInstant s
  | _ => Time.zero

/-- An `Entry` string that the parsing phase accepts: empty, or a timestamp string. -/
def okEntry (s : String) : Prop := s = "" ∨ validStamp s = true

/-- Two values of `aux` that agree in everything but the Task behind `Alias` and the spare
elements of its tags: the six strings and the `Annotations` slice with its backing array. -/
def sameRaw (a b : Aux) : Prop :=
  (∀ f : TimeField, f.raw a = f.raw b) ∧ a.Annotations = b.Annotations
    ∧ a.annSpare = b.annSpare

/-- An instant with its sub-second part cleared. -/
def Time.truncate (t : Time) : Time := { t with nsec := 0 }

/-- A float64 with a zero replaced by `+0`; as numbers the two are equal. -/
def Float64.normZero (f : Float64) : Float64 := if f.isZero then Float64.zero else f

/-- A Task as it reads back from its own encoding: every instant with its sub-second part
cleared and every zero float as `+0`. -/
def Task.reread (t : Task) : Task :=
  { t with
    Due := t.Due.truncate, Entry := t.Entry.truncate, Modified := t.Modified.truncate,
    Reviewed := t.Reviewed.truncate, Until := t.Until.truncate, Wait := t.Wait.truncate,
    Imask := t.Imask.normZero, Urgency := t.Urgency.normZero,
    Annotations := t.Annotations.map (fun a => { a with Entry := a.Entry.truncate }) }

/-! ## Sample values -/

/-- A Task with `entry` set and nothing else. -/
def sampleEntryOnly : Task := { Task.zero with Entry := Date 2024 1 1 0 0 0 0 }

/-- The document `MarshalJSON` writes for `sampleEntryOnly`. -/
def sampleEntryOnlyOut : Json :=
  .obj [("entry", .str "20240101T000000Z"), ("description", .str "")]

/-- A Task whose `modified` is 2024-01-02 12:00:00 UTC, with a status and a uuid. -/
def sampleModified : Task :=
  { Task.zero with
    Status := "completed", UUID := "abc", Entry := Date 2024 1 1 0 0 0 0,
    Modified := Date 2024 1 2 12 0 0 0 }

/-- The document `MarshalJSON` writes for `sampleModified`. -/
def sampleModifiedOut : Json :=
  .obj [("entry", .str "20240101T000000Z"), ("modified", .str "20240102T120000Z"),
    ("description", .str ""), ("status", .str "completed"), ("uuid", .str "abc")]

/-- The two annotations of the specification's example: the first has only a description,
the second an entry and a description. -/
def sampleAnnotationElems : List Json :=
  [.obj [("description", .str "x")],
   .obj [("entry", .str "20240101T000000Z"), ("description", .str "y")]]

/-- The specification's example document `{"annotations":[...]}`. -/
def sampleAnnotationsDoc : Json := .obj [("annotations", .arr sampleAnnotationElems)]

/-- A Task with one annotation that has an entry and a description. -/
def sampleAnnotated : Task :=
  { Task.zero with
    Annotations := [{ Entry := Date 2024 1 1 0 0 0 0, Description := "y" }] }

/-- The document `MarshalJSON` writes for `sampleAnnotated`. -/
def sampleAnnotatedOut : Json :=
  .obj [("annotations", .arr [.obj [("entry", .str "20240101T000000Z")]]),
    ("description", .str "")]

/-- The document `{"DUE":"20240101T000000Z"}`: it has no key `due`. -/
def sampleUpperDue : List (String × Json) := [("DUE", .str "20240101T000000Z")]

/-- A well-formed document with a status, an id, tags and a `modified` timestamp. -/
def sampleWellFormed : List (String × Json) :=
  [("status", .str "pending"), ("id", .num (Number.ofInt 7)),
    ("tags", .arr [.str "home", .str "urgent"]), ("modified", .str "20240102T120000Z")]

/-- A Task whose urgency is NaN. -/
def sampleNaN : Task := { Task.zero with Urgency := .nan }

/-- The specification's first input line: a pending task. -/
def samplePendingLine : Line :=
  some (.obj [("status", .str "pending"), ("uuid", .str "abc"),
    ("entry", .str "20240101T000000Z")])

/-- The specification's second input line: the same task, completed. -/
def sampleCompletedLine : Line :=
  some (.obj [("status", .str "completed"), ("uuid", .str "abc"),
    ("entry", .str "20240101T000000Z"), ("modified", .str "20240102T120000Z")])

/-- The task `sampleCompletedLine` decodes to. -/
def sampleCompleted : Task :=
  { Task.zero with
    Status := "completed", UUID := "abc", Entry := Date 2024 1 1 0 0 0 0,
    Modified := Date 2024 1 2 12 0 0 0 }

/-- The task `samplePendingLine` decodes to. -/
def samplePending : Task :=
  { Task.zero with Status := "pending", UUID := "abc", Entry := Date 2024 1 1 0 0 0 0 }

/-- The JSON names of the fields, in the order `MarshalJSON` writes them. -/
def keyOrder : List String := Field.all.map Field.key

/-- A document of `n` arrays nested in one another: `[[...[null]...]]`. -/
def nestedArrays (n : Nat) : Json :=
  match n with
  | 0 => .null
  | n + 1 => .arr [nestedArrays n]

/-- A Task left by an earlier decode of the specification's annotation example. -/
def sampleDecodedOnce : Task :=
  { Task.zero with
    Annotations := [{ Entry := Date 2024 1 1 0 0 0 0, Description := "" }] }

/-- A document whose `entry` carries a fractional second. -/
def sampleFractionDoc : Json := .obj [("entry", .str "20240101T000000.5Z")]

/-- The Task `sampleFractionDoc` decodes into: 2024-01-01 00:00:00.5 UTC. -/
def sampleFraction : Task := { Task.zero with Entry := ⟨63839664000, 500000000, 0⟩ }

/-! # Theorems -/

/-! ## Calendar arithmetic -/

theorem isLeap_iff (y : Int) :
    isLeap y = true ↔ (y % 4 = 0 ∧ (y % 100 ≠ 0 ∨ y % 400 = 0)) := by
  simp [isLeap]

theorem absYear_cycles (a b c e : Int) (yd : Nat)
    (hb : 0 ≤ b ∧ b ≤ 3) (hc : 0 ≤ c ∧ c ≤ 24) (he : 0 ≤ e ∧ e ≤ 3)
    (hyd : (yd : Int) < 365 ∨ ((yd : Int) = 365 ∧ e = 3 ∧ (c ≠ 24 ∨ b = 3))) :
    absYear (146097 * a + 36524 * b + 1461 * c + 365 * e + yd)
      = (1 + 400 * a + 100 * b + 4 * c + e, yd) := by
  obtain ⟨hb0, hb3⟩ := hb
  obtain ⟨hc0, hc24⟩ := hc
  obtain ⟨he0, he3⟩ := he
  have hb4 : b = 0 ∨ b = 1 ∨ b = 2 ∨ b = 3 := by omega
  have he4 : e = 0 ∨ e = 1 ∨ e = 2 ∨ e = 3 := by omega
  have h1 : (146097 * a + 36524 * b + 1461 * c + 365 * e + yd) / 146097 = a := by omega
  have h2 : (146097 * a + 36524 * b + 1461 * c + 365 * e + yd) % 146097
      = 36524 * b + 1461 * c + 365 * e + yd := by omega
  have h3 : (36524 * b + 1461 * c + 365 * e + (yd : Int)) / 36524
      - (36524 * b + 1461 * c + 365 * e + (yd : Int)) / 36524 / 4 = b := by
    rcases hb4 with rfl | rfl | rfl | rfl <;> rcases he4 with rfl | rfl | rfl | rfl <;> omega
  have h4 : (1461 * c + 365 * e + (yd : Int)) / 1461 = c := by omega
  have h5 : (365 * e + (yd : Int)) / 365 - (365 * e + (yd : Int)) / 365 / 4 = e := by
    rcases he4 with rfl | rfl | rfl | rfl <;> omega
  simp only [absYear, h1, h2, h3]
  have e1 : 36524 * b + 1461 * c + 365 * e + (yd : Int) - 36524 * b
      = 1461 * c + 365 * e + yd := by ring
  simp only [e1, h4]
  have e2 : 1461 * c + 365 * e + (yd : Int) - 1461 * c = 365 * e + yd := by ring
  simp only [e2, h5]
  have e3 : 365 * e + (yd : Int) - 365 * e = yd := by ring
  simp only [e3, Int.toNat_ofNat]

/-- The year part of `absDate` inverts `daysSinceEpoch`. -/
theorem absYear_daysSinceEpoch (y : Int) (yd : Nat) (h : yd < yearLen y) :
    absYear (daysSinceEpoch y + yd) = (y, yd) := by
  have hl := isLeap_iff y
  have key := absYear_cycles ((y - 1) / 400) ((y - 1) % 400 / 100) ((y - 1) % 400 % 100 / 4)
    ((y - 1) % 400 % 100 % 4) yd (by omega) (by omega) (by omega) (by
      unfold yearLen at h
      split at h <;> rename_i hh
      · have := hl.1 hh
        omega
      · left; omega)
  simp only [daysSinceEpoch]
  rw [key]
  apply Prod.ext
  · simp only; omega
  · rfl

theorem monthDay_yearDay_aux :
    ∀ leap : Bool, ∀ month, month < 13 → ∀ day, day < 32 → validMD leap month day = true →
      monthDay leap (yearDay leap month day) = (month, day)
        ∧ yearDay leap month day < (if leap then 366 else 365) := by
  decide

/-- The month part of `absDate` inverts the day-of-year sum of `Date`. -/
theorem monthDay_yearDay (leap : Bool) (month day : Nat) (h : validMD leap month day = true) :
    monthDay leap (yearDay leap month day) = (month, day)
      ∧ yearDay leap month day < (if leap then 366 else 365) := by
  have h0 := h
  simp only [validMD, Bool.and_eq_true, decide_eq_true_eq] at h
  obtain ⟨⟨⟨h1, h2⟩, h3⟩, h4⟩ := h
  have hd : day < 32 := by
    have : daysIn month leap ≤ 31 := by
      have : ∀ l : Bool, ∀ m, m < 13 → daysIn m l ≤ 31 := by decide
      exact this leap month (by omega)
    omega
  exact monthDay_yearDay_aux leap month (by omega) day hd h0

/-- `Time.civil` inverts `Date` on every real calendar date and clock time. -/
theorem civil_Date (y : Int) (mo d h mi se ns : Nat) (hv : validMD (isLeap y) mo d = true)
    (hh : h < 24) (hmi : mi < 60) (hse : se < 60) :
    (Date y mo d h mi se ns).civil = ⟨y, mo, d, h, mi, se⟩ := by
  obtain ⟨hmd, hyd⟩ := monthDay_yearDay (isLeap y) mo d hv
  have hyd2 : yearDay (isLeap y) mo d < yearLen y := by
    unfold yearLen
    cases hl : isLeap y <;> simp only [hl] at hyd ⊢ <;> simpa using hyd
  have hy := absYear_daysSinceEpoch y (yearDay (isLeap y) mo d) hyd2
  have hs : ((h * 3600 + mi * 60 + se : Nat) : Int) < 86400 := by omega
  have hs0 : (0 : Int) ≤ ((h * 3600 + mi * 60 + se : Nat) : Int) := by omega
  have q1 : ((daysSinceEpoch y + (yearDay (isLeap y) mo d : Nat)) * 86400
      + ((h * 3600 + mi * 60 + se : Nat) : Int)) / 86400
      = daysSinceEpoch y + (yearDay (isLeap y) mo d : Nat) := by omega
  have q2 : ((daysSinceEpoch y + (yearDay (isLeap y) mo d : Nat)) * 86400
      + ((h * 3600 + mi * 60 + se : Nat) : Int)) % 86400
      = ((h * 3600 + mi * 60 + se : Nat) : Int) := by omega
  simp only [Time.civil, Date, Int.add_zero, q1, q2, hy, hmd, Int.toNat_ofNat]
  have c1 : (h * 3600 + mi * 60 + se) / 3600 = h := by omega
  have c2 : (h * 3600 + mi * 60 + se) % 3600 / 60 = mi := by omega
  have c3 : (h * 3600 + mi * 60 + se) % 60 = se := by omega
  rw [c1, c2, c3]

/-! ## Decimal digits -/

theorem natDigitsAux_small (f n : Nat) (h : n < 10) : natDigitsAux f n = [digitChar n] := by
  cases f <;> simp [natDigitsAux, h]

theorem natDigitsAux_step (f n : Nat) (h : 10 ≤ n) :
    natDigitsAux (f + 1) n = natDigitsAux f (n / 10) ++ [digitChar (n % 10)] := by
  have : ¬ n < 10 := by omega
  simp [natDigitsAux, this]

theorem natDigits_lt10 (n : Nat) (h : n < 10) : natDigits n = [digitChar n] :=
  natDigitsAux_small n n h

theorem natDigits_lt100 (n : Nat) (h1 : 10 ≤ n) (h2 : n < 100) :
    natDigits n = [digitChar (n / 10), digitChar (n % 10)] := by
  obtain ⟨f, hf⟩ : ∃ f, n = f + 1 := ⟨n - 1, by omega⟩
  unfold natDigits
  conv => lhs; arg 1; rw [hf]
  rw [natDigitsAux_step f n h1, natDigitsAux_small f (n / 10) (by omega)]
  rfl

theorem natDigits_lt1000 (n : Nat) (h1 : 100 ≤ n) (h2 : n < 1000) :
    natDigits n = [digitChar (n / 100), digitChar (n / 10 % 10), digitChar (n % 10)] := by
  obtain ⟨f, hf⟩ : ∃ f, n = f + 2 := ⟨n - 2, by omega⟩
  unfold natDigits
  conv => lhs; arg 1; rw [hf]
  rw [natDigitsAux_step (f + 1) n (by omega), natDigitsAux_step f (n / 10) (by omega),
    natDigitsAux_small f (n / 10 / 10) (by omega)]
  have : n / 10 / 10 = n / 100 := by omega
  rw [this]
  rfl

theorem natDigits_lt10000 (n : Nat) (h1 : 1000 ≤ n) (h2 : n < 10000) :
    natDigits n = fourDigits n := by
  obtain ⟨f, hf⟩ : ∃ f, n = f + 3 := ⟨n - 3, by omega⟩
  unfold natDigits
  conv => lhs; arg 1; rw [hf]
  rw [natDigitsAux_step (f + 2) n (by omega), natDigitsAux_step (f + 1) (n / 10) (by omega),
    natDigitsAux_step f (n / 10 / 10) (by omega),
    natDigitsAux_small f (n / 10 / 10 / 10) (by omega)]
  have e1 : n / 10 / 10 / 10 = n / 1000 := by omega
  have e2 : n / 10 / 10 % 10 = n / 100 % 10 := by omega
  rw [e1, e2]
  rfl

theorem appendInt_two (n : Nat) (h : n < 100) : appendInt (n : Int) 2 = twoDigits n := by
  have : ∀ n : Nat, n < 100 → appendInt (Int.ofNat n) 2 = twoDigits n := by decide
  exact this n h

theorem appendInt_four (n : Nat) (h : n < 10000) : appendInt (n : Int) 4 = fourDigits n := by
  have hneg : ¬ ((n : Int) < 0) := by omega
  simp only [appendInt, hneg, if_false, Int.natAbs_ofNat, List.nil_append]
  by_cases h1 : n < 10
  · rw [natDigits_lt10 n h1]
    have e1 : n / 1000 = 0 := by omega
    have e2 : n / 100 % 10 = 0 := by omega
    have e3 : n / 10 % 10 = 0 := by omega
    have e4 : n % 10 = n := by omega
    simp [fourDigits, e1, e2, e3, e4, digitChar, List.replicate]
  · by_cases h2 : n < 100
    · rw [natDigits_lt100 n (by omega) h2]
      have e1 : n / 1000 = 0 := by omega
      have e2 : n / 100 % 10 = 0 := by omega
      have e3 : n / 10 % 10 = n / 10 := by omega
      simp [fourDigits, e1, e2, e3, digitChar, List.replicate]
    · by_cases h3 : n < 1000
      · rw [natDigits_lt1000 n (by omega) h3]
        have e1 : n / 1000 = 0 := by omega
        have e2 : n / 100 % 10 = n / 100 := by omega
        simp [fourDigits, e1, e2, digitChar, List.replicate]
      · rw [natDigits_lt10000 n (by omega) h]
        simp [fourDigits]

/-! ## Every instant has a date and a clock time in range -/

theorem absYear_decomp (d : Int) :
    ∃ a b c e : Int, ∃ yd : Nat, (0 ≤ b ∧ b ≤ 3) ∧ (0 ≤ c ∧ c ≤ 24) ∧ (0 ≤ e ∧ e ≤ 3)
      ∧ ((yd : Int) < 365 ∨ ((yd : Int) = 365 ∧ e = 3 ∧ (c ≠ 24 ∨ b = 3)))
      ∧ d = 146097 * a + 36524 * b + 1461 * c + 365 * e + yd := by
  have h1 : 0 ≤ d % 146097 ∧ d % 146097 < 146097 := by omega
  have hd : d = 146097 * (d / 146097) + d % 146097 := by omega
  generalize d % 146097 = d1 at h1 hd
  generalize d / 146097 = a at hd
  have h2 : 0 ≤ d1 - 36524 * (d1 / 36524 - d1 / 36524 / 4)
      ∧ d1 - 36524 * (d1 / 36524 - d1 / 36524 / 4) ≤ 36524
      ∧ 0 ≤ d1 / 36524 - d1 / 36524 / 4 ∧ d1 / 36524 - d1 / 36524 / 4 ≤ 3
      ∧ (d1 - 36524 * (d1 / 36524 - d1 / 36524 / 4) = 36524 → d1 / 36524 - d1 / 36524 / 4 = 3) := by
    omega
  generalize d1 / 36524 - d1 / 36524 / 4 = b at h2
  have hd1 : d1 = 36524 * b + (d1 - 36524 * b) := by ring
  generalize d1 - 36524 * b = d2 at h2 hd1
  have h3 : 0 ≤ d2 % 1461 ∧ d2 % 1461 < 1461 ∧ 0 ≤ d2 / 1461 ∧ d2 / 1461 ≤ 24 := by omega
  have hd2 : d2 = 1461 * (d2 / 1461) + d2 % 1461 := by omega
  generalize d2 / 1461 = c at h3 hd2
  generalize d2 % 1461 = d3 at h3 hd2
  have h4 : 0 ≤ d3 / 365 - d3 / 365 / 4 ∧ d3 / 365 - d3 / 365 / 4 ≤ 3
      ∧ 0 ≤ d3 - 365 * (d3 / 365 - d3 / 365 / 4) ∧ d3 - 365 * (d3 / 365 - d3 / 365 / 4) ≤ 365
      ∧ (d3 - 365 * (d3 / 365 - d3 / 365 / 4) = 365 → d3 / 365 - d3 / 365 / 4 = 3 ∧ d3 = 1460) := by
    omega
  generalize d3 / 365 - d3 / 365 / 4 = e at h4
  refine ⟨a, b, c, e, (d3 - 365 * e).toNat, ⟨h2.2.2.1, h2.2.2.2.1⟩, ⟨h3.2.2.1, h3.2.2.2⟩,
    ⟨h4.1, h4.2.1⟩, ?_, ?_⟩
  · have : ((d3 - 365 * e).toNat : Int) = d3 - 365 * e := Int.toNat_of_nonneg h4.2.2.1
    rw [this]
    omega
  · have : ((d3 - 365 * e).toNat : Int) = d3 - 365 * e := Int.toNat_of_nonneg h4.2.2.1
    rw [this]
    omega

theorem absYear_yday_lt (d : Int) : (absYear d).2 < yearLen (absYear d).1 := by
  obtain ⟨a, b, c, e, yd, hb, hc, he, hyd, rfl⟩ := absYear_decomp d
  rw [absYear_cycles a b c e yd hb hc he hyd]
  simp only [yearLen]
  have hl := isLeap_iff (1 + 400 * a + 100 * b + 4 * c + e)
  by_cases hh : isLeap (1 + 400 * a + 100 * b + 4 * c + e) = true
  · simp only [hh, if_true]; omega
  · simp only [hh]
    have hn : ¬ ((1 + 400 * a + 100 * b + 4 * c + e) % 4 = 0
        ∧ ((1 + 400 * a + 100 * b + 4 * c + e) % 100 ≠ 0
          ∨ (1 + 400 * a + 100 * b + 4 * c + e) % 400 = 0)) := fun x => hh (hl.2 x)
    simp only [Bool.false_eq_true, if_false]
    omega

set_option maxRecDepth 100000 in
theorem monthDay_range : ∀ leap : Bool, ∀ yd, yd < 366 → (leap = true ∨ yd < 365) →
    1 ≤ (monthDay leap yd).1 ∧ (monthDay leap yd).1 ≤ 12
      ∧ 1 ≤ (monthDay leap yd).2 ∧ (monthDay leap yd).2 ≤ 31 := by
  decide

theorem civil_range (t : Time) :
    1 ≤ t.civil.month ∧ t.civil.month ≤ 12 ∧ 1 ≤ t.civil.day ∧ t.civil.day ≤ 31
      ∧ t.civil.hour < 24 ∧ t.civil.min < 60 ∧ t.civil.sec < 60 := by
  have hy := absYear_yday_lt ((t.sec + t.offset) / 86400)
  have hm := monthDay_range (isLeap (absYear ((t.sec + t.offset) / 86400)).1)
    (absYear ((t.sec + t.offset) / 86400)).2
    (by unfold yearLen at hy; split at hy <;> omega)
    (by
      unfold yearLen at hy
      by_cases hh : isLeap (absYear ((t.sec + t.offset) / 86400)).1 = true
      · exact Or.inl hh
      · right; simp only [hh, Bool.false_eq_true, if_false] at hy; exact hy)
  have hs : 0 ≤ (t.sec + t.offset) % 86400 ∧ (t.sec + t.offset) % 86400 < 86400 := by omega
  have hs2 : ((t.sec + t.offset) % 86400).toNat < 86400 := by omega
  simp only [Time.civil]
  refine ⟨hm.1, hm.2.1, hm.2.2.1, hm.2.2.2, ?_, ?_, ?_⟩ <;> omega

/-- `Time.Format` of an instant in the years 0000 to 9999 spells its date and clock time. -/
theorem formatChars_eq_spell (t : Time) (h0 : 0 ≤ t.civil.year) (h1 : t.civil.year ≤ 9999) :
    formatChars t = spell t.civil := by
  obtain ⟨_, hm, _, hd, hh, hmi, hs⟩ := civil_range t
  have hy : appendInt t.civil.year 4 = fourDigits t.civil.year.toNat := by
    have := appendInt_four t.civil.year.toNat (by omega)
    rwa [Int.toNat_of_nonneg h0] at this
  simp only [formatChars, spell, spellBody, hy, appendInt_two _ (show t.civil.month < 100 by omega),
    appendInt_two _ (show t.civil.day < 100 by omega),
    appendInt_two _ (show t.civil.hour < 100 by omega),
    appendInt_two _ (show t.civil.min < 100 by omega),
    appendInt_two _ (show t.civil.sec < 100 by omega)]

theorem spell_length (c : Civil) : (spell c).length = 16 := by
  simp [spell, spellBody, fourDigits, twoDigits]

/-! ## `time.Parse` on well-formed text -/

theorem digitChar_facts : ∀ k, k < 10 →
    isDigitChar (digitChar k) = true ∧ digitVal (digitChar k) = k := by decide

theorem getnum_two (a b : Nat) (ha : a < 10) (hb : b < 10) (rest : List Char) (fixed : Bool) :
    getnum (digitChar a :: digitChar b :: rest) fixed = some (a * 10 + b, rest) := by
  obtain ⟨ha1, ha2⟩ := digitChar_facts a ha
  obtain ⟨hb1, hb2⟩ := digitChar_facts b hb
  simp [getnum, isDigit, ha1, ha2, hb1, hb2]

theorem atoi_four (a b c d : Nat) (ha : a < 10) (hb : b < 10) (hc : c < 10) (hd : d < 10) :
    atoi [digitChar a, digitChar b, digitChar c, digitChar d]
      = some (a * 1000 + b * 100 + c * 10 + d) := by
  obtain ⟨ha1, ha2⟩ := digitChar_facts a ha
  obtain ⟨hb1, hb2⟩ := digitChar_facts b hb
  obtain ⟨hc1, hc2⟩ := digitChar_facts c hc
  obtain ⟨hd1, hd2⟩ := digitChar_facts d hd
  simp [atoi, ha1, ha2, hb1, hb2, hc1, hc2, hd1, hd2]
  ring

theorem parseChars_spell (c : Civil) (hv : c.valid = true) :
    parseChars (spell c) = some (Date c.year c.month c.day c.hour c.min c.sec 0) := by
  simp only [Civil.valid, Bool.and_eq_true, decide_eq_true_eq] at hv
  obtain ⟨⟨⟨⟨⟨hy0, hy1⟩, hmd⟩, hh⟩, hmi⟩, hs⟩ := hv
  have hmd0 := hmd
  simp only [validMD, Bool.and_eq_true, decide_eq_true_eq] at hmd
  obtain ⟨⟨⟨hm1, hm2⟩, hd1⟩, hd2⟩ := hmd
  have hd31 : c.day ≤ 31 := by
    have : ∀ l : Bool, ∀ m, m < 13 → daysIn m l ≤ 31 := by decide
    have := this (isLeap c.year) c.month (by omega)
    omega
  obtain ⟨y, hy⟩ : ∃ y : Nat, c.year = (y : Int) := ⟨c.year.toNat, by omega⟩
  have hy9 : y < 10000 := by omega
  have hY : atoi (fourDigits y) = some y := by
    rw [fourDigits, atoi_four _ _ _ _ (by omega) (by omega) (by omega) (by omega)]
    congr 1; omega
  have hdig0 : isDigitChar (digitChar (y / 1000)) = true := (digitChar_facts _ (by omega)).1
  have g2 : ∀ n, n < 100 → ∀ rest fixed, getnum (twoDigits n ++ rest) fixed = some (n, rest) := by
    intro n hn rest fixed
    rw [twoDigits]
    simp only [List.cons_append, List.nil_append]
    rw [getnum_two _ _ (by omega) (by omega)]
    congr 2; omega
  simp only [spell, spellBody, hy, Int.toNat_ofNat, List.append_assoc]
  unfold parseChars
  have hlen : ¬ ((fourDigits y ++ (twoDigits c.month ++ (twoDigits c.day ++ (['T'] ++ (twoDigits c.hour ++ (twoDigits c.min ++ (twoDigits c.sec ++ ['Z']))))))).length < 4) := by
    simp [fourDigits]
  have hd0 : isDigit (fourDigits y ++ (twoDigits c.month ++ (twoDigits c.day ++ (['T'] ++ (twoDigits c.hour ++ (twoDigits c.min ++ (twoDigits c.sec ++ ['Z']))))))) 0 = true := by
    simp [fourDigits, isDigit, hdig0]
  have htake : ∀ rest, (fourDigits y ++ rest).take 4 = fourDigits y := by
    intro rest; simp [fourDigits]
  have hdrop : ∀ rest, (fourDigits y ++ rest).drop 4 = rest := by
    intro rest; simp [fourDigits]
  simp only [hlen, hd0, htake, hdrop, hY, g2 _ (show c.month < 100 by omega),
    g2 _ (show c.day < 100 by omega), g2 _ (show c.hour < 100 by omega),
    g2 _ (show c.min < 100 by omega), g2 _ (show c.sec < 100 by omega)]
  have hd2' : ¬ (daysIn c.month (isLeap (y : Int)) < c.day) := by rw [← hy]; omega
  simp [skip, parseFraction, commaOrPeriod, isDigit, hmd0, hh, hmi, hs,
    g2 _ (show c.hour < 100 by omega), g2 _ (show c.min < 100 by omega),
    g2 _ (show c.sec < 100 by omega), hd2']
  omega

/-! ## What `time.Parse` accepts -/

theorem isDigitChar_inv (c : Char) (h : isDigitChar c = true) :
    ∃ k, k < 10 ∧ c = digitChar k := by
  simp only [isDigitChar, Bool.and_eq_true, decide_eq_true_eq] at h
  obtain ⟨h1, h2⟩ := h
  have h1' : 48 ≤ c.toNat := by
    have := h1
    simp only [Char.le_def] at this
    exact this
  have h2' : c.toNat ≤ 57 := by
    have := h2
    simp only [Char.le_def] at this
    exact this
  have hc : c = Char.ofNat c.toNat := (Char.ofNat_toNat c).symm
  generalize c.toNat = n at h1' h2' hc
  subst hc
  interval_cases n
  · exact ⟨0, by decide, rfl⟩
  · exact ⟨1, by decide, rfl⟩
  · exact ⟨2, by decide, rfl⟩
  · exact ⟨3, by decide, rfl⟩
  · exact ⟨4, by decide, rfl⟩
  · exact ⟨5, by decide, rfl⟩
  · exact ⟨6, by decide, rfl⟩
  · exact ⟨7, by decide, rfl⟩
  · exact ⟨8, by decide, rfl⟩
  · exact ⟨9, by decide, rfl⟩

theorem getnum_inv (s : List Char) (fixed : Bool) (n : Nat) (rest : List Char)
    (h : getnum s fixed = some (n, rest)) :
    (∃ a b, a < 10 ∧ b < 10 ∧ s = digitChar a :: digitChar b :: rest ∧ n = a * 10 + b)
      ∨ (fixed = false ∧ ∃ a, a < 10 ∧ s = digitChar a :: rest ∧ n = a ∧ isDigit rest 0 = false) := by
  match s with
  | [] => simp [getnum, isDigit] at h
  | [c0] =>
    by_cases h0 : isDigitChar c0 = true
    · obtain ⟨a, ha, rfl⟩ := isDigitChar_inv c0 h0
      cases fixed
      · simp [getnum, isDigit, h0] at h
        obtain ⟨h1, h2⟩ := h
        subst h2
        right
        refine ⟨rfl, a, ha, rfl, ?_, by simp [isDigit]⟩
        rw [← h1]; exact (digitChar_facts a ha).2
      · simp [getnum, isDigit, h0] at h
    · simp [getnum, isDigit, h0] at h
  | c0 :: c1 :: tl =>
    by_cases h0 : isDigitChar c0 = true
    · obtain ⟨a, ha, rfl⟩ := isDigitChar_inv c0 h0
      by_cases h1 : isDigitChar c1 = true
      · obtain ⟨b, hb, rfl⟩ := isDigitChar_inv c1 h1
        simp [getnum, isDigit, h0, h1] at h
        obtain ⟨e1, e2⟩ := h
        left
        refine ⟨a, b, ha, hb, by rw [e2], ?_⟩
        rw [← e1, (digitChar_facts a ha).2, (digitChar_facts b hb).2]
      · cases fixed
        · simp [getnum, isDigit, h0, h1] at h
          obtain ⟨e1, e2⟩ := h
          right
          refine ⟨rfl, a, ha, by rw [e2], ?_, ?_⟩
          · rw [← e1]; exact (digitChar_facts a ha).2
          · rw [← e2]; simp [isDigit, h1]
        · simp [getnum, isDigit, h0, h1] at h
    · simp [getnum, isDigit, h0] at h

theorem getnum_fixed_inv (s : List Char) (n : Nat) (rest : List Char)
    (h : getnum s true = some (n, rest)) :
    ∃ a b, a < 10 ∧ b < 10 ∧ s = digitChar a :: digitChar b :: rest ∧ n = a * 10 + b := by
  rcases getnum_inv s true n rest h with h1 | ⟨h2, _⟩
  · exact h1
  · cases h2

theorem atoi_four_inv (s : List Char) (y : Nat) (hl : ¬ s.length < 4)
    (h : atoi (s.take 4) = some y) : y < 10000 ∧ s = fourDigits y ++ s.drop 4 := by
  match s, hl with
  | c0 :: c1 :: c2 :: c3 :: rest, _ =>
    simp only [atoi, List.take, List.all_cons, List.all_nil, Bool.and_true] at h
    split at h
    · rename_i hall
      simp only [Bool.and_eq_true] at hall
      obtain ⟨h0, h1, h2, h3⟩ := hall
      obtain ⟨a, ha, rfl⟩ := isDigitChar_inv c0 h0
      obtain ⟨b, hb, rfl⟩ := isDigitChar_inv c1 h1
      obtain ⟨c, hc, rfl⟩ := isDigitChar_inv c2 h2
      obtain ⟨d, hd, rfl⟩ := isDigitChar_inv c3 h3
      simp only [List.foldl, (digitChar_facts a ha).2, (digitChar_facts b hb).2,
        (digitChar_facts c hc).2, (digitChar_facts d hd).2, Option.some.injEq] at h
      subst h
      refine ⟨by omega, ?_⟩
      simp only [fourDigits, List.drop, List.cons_append, List.nil_append]
      have e1 : ((0 * 10 + a) * 10 + b) * 10 + c = a * 100 + b * 10 + c := by ring
      have e0 : (((0 * 10 + a) * 10 + b) * 10 + c) * 10 + d = a * 1000 + b * 100 + c * 10 + d := by ring
      rw [e0]
      have q1 : (a * 1000 + b * 100 + c * 10 + d) / 1000 = a := by omega
      have q2 : (a * 1000 + b * 100 + c * 10 + d) / 100 % 10 = b := by omega
      have q3 : (a * 1000 + b * 100 + c * 10 + d) / 10 % 10 = c := by omega
      have q4 : (a * 1000 + b * 100 + c * 10 + d) % 10 = d := by omega
      rw [q1, q2, q3, q4]
    · cases h
  | [], hl => simp at hl
  | [_], hl => simp at hl
  | [_, _], hl => simp at hl
  | [_, _, _], hl => simp at hl

theorem drop_takeWhile_length {α : Type} (p : α → Bool) (l : List α) :
    l = l.takeWhile p ++ l.drop (l.takeWhile p).length := by
  induction l with
  | nil => simp
  | cons x xs ih =>
    by_cases hx : p x = true
    · simp only [List.takeWhile_cons, hx, if_true, List.length_cons, List.drop_succ_cons,
        List.cons_append]
      rw [← ih]
    · simp [List.takeWhile_cons, hx]

theorem parseFraction_inv (v v1 : List Char) (ns : Nat) (h : parseFraction v = some (ns, v1)) :
    ∃ frac, isFraction frac = true ∧ v = frac ++ v1 ∧ (frac = [] → ns = 0) := by
  match v with
  | [] =>
    simp [parseFraction] at h
    exact ⟨[], rfl, by simp [h.2], fun _ => h.1.symm⟩
  | c :: tl =>
    simp only [parseFraction] at h
    split at h
    · rename_i hc
      simp only [Bool.and_eq_true, decide_eq_true_eq] at hc
      obtain ⟨⟨_, hsep⟩, hdig⟩ := hc
      split at h
      · rename_i ns0 hns
        simp only [Option.some.injEq, Prod.mk.injEq] at h
        obtain ⟨_, hv1⟩ := h
        refine ⟨c :: tl.takeWhile isDigitChar, ?_, ?_, by simp⟩
        · simp only [isFraction, hsep, Bool.true_and, Bool.and_eq_true, Bool.not_eq_true',
            List.all_eq_true]
          constructor
          · match tl, hdig with
            | d :: tl2, hdig =>
              simp only [isDigit, List.get?] at hdig
              simp [List.takeWhile_cons, hdig]
          · intro x hx
            exact (List.mem_takeWhile_imp hx)
        · rw [← hv1]
          simp only [List.drop_one, List.tail_cons, List.cons_append]
          have : 1 + (tl.takeWhile isDigitChar).length = (tl.takeWhile isDigitChar).length + 1 := by
            omega
          rw [this, List.drop_succ_cons]
          rw [← drop_takeWhile_length]
      · cases h
    · simp only [Option.some.injEq, Prod.mk.injEq] at h
      exact ⟨[], rfl, by simp [h.2], fun _ => h.1.symm⟩


theorem skip_inv (v : List Char) (lit : Char) (rest : List Char) (h : skip v lit = some rest) :
    v = lit :: rest := by
  match v with
  | [] => simp [skip] at h
  | c :: tl =>
    simp only [skip] at h
    split at h
    · rename_i hc
      simp only [beq_iff_eq] at hc
      simp only [Option.some.injEq] at h
      rw [hc, h]
    · cases h

/-- Everything `time.Parse` accepts under the layout: a real date and time spelled as
`YYYYMMDDThhmmss`, an optional fractional second, and `Z`. -/
theorem parseChars_some (s : List Char) (t : Time) (h : parseChars s = some t) :
    ∃ c : Civil, ∃ frac : List Char, ∃ ns : Nat, c.valid = true ∧ isFraction frac = true
      ∧ s = spellBody c ++ frac ++ ['Z']
      ∧ t = Date c.year c.month c.day c.hour c.min c.sec ns ∧ (frac = [] → ns = 0) := by
  unfold parseChars at h
  split at h
  · cases h
  rename_i hpre
  simp only [Bool.or_eq_true, Bool.not_eq_true', decide_eq_true_eq, not_or] at hpre
  obtain ⟨hlen, _⟩ := hpre
  split at h
  · cases h
  rename_i year hyear
  obtain ⟨hy, hs0⟩ := atoi_four_inv s year hlen hyear
  split at h
  · cases h
  rename_i month v1 hmonth
  obtain ⟨a1, b1, ha1, hb1, hv1, rfl⟩ := getnum_fixed_inv _ _ _ hmonth
  split at h
  · cases h
  rename_i hmr
  split at h
  · cases h
  rename_i day v2 hday
  obtain ⟨a2, b2, ha2, hb2, hv2, rfl⟩ := getnum_fixed_inv _ _ _ hday
  split at h
  · cases h
  rename_i v3 hT
  have hv3 := skip_inv _ _ _ hT
  split at h
  · cases h
  rename_i hour v4 hhour
  split at h
  · cases h
  rename_i hhr
  split at h
  · cases h
  rename_i min v5 hmin
  obtain ⟨a4, b4, ha4, hb4, hv5, rfl⟩ := getnum_fixed_inv _ _ _ hmin
  have hhour2 : ∃ a b, a < 10 ∧ b < 10 ∧ v3 = digitChar a :: digitChar b :: v4 ∧ hour = a * 10 + b := by
    rcases getnum_inv _ _ _ _ hhour with h1 | ⟨_, a, ha, _, _, hnd⟩
    · exact h1
    · rw [hv5] at hnd
      simp [isDigit, (digitChar_facts a4 ha4).1] at hnd
  obtain ⟨a3, b3, ha3, hb3, hv4, rfl⟩ := hhour2
  split at h
  · cases h
  rename_i hmir
  split at h
  · cases h
  rename_i sec v6 hsec
  obtain ⟨a5, b5, ha5, hb5, hv6, rfl⟩ := getnum_fixed_inv _ _ _ hsec
  split at h
  · cases h
  rename_i hsr
  split at h
  · cases h
  rename_i nsec v7 hfrac
  obtain ⟨frac, hfr, hv7, hns⟩ := parseFraction_inv _ _ _ hfrac
  split at h
  · cases h
  rename_i v8 hZ
  have hv8 := skip_inv _ _ _ hZ
  split at h
  · cases h
  rename_i hend
  split at h
  · cases h
  rename_i hdayr
  simp only [Option.some.injEq] at h
  have hv8nil : v8 = [] := by
    simpa using hend
  simp only [Bool.or_eq_true, decide_eq_true_eq, not_or, not_lt, beq_iff_eq] at hmr hdayr
  refine ⟨⟨year, a1 * 10 + b1, a2 * 10 + b2, a3 * 10 + b3, a4 * 10 + b4, a5 * 10 + b5⟩, frac,
    nsec, ?_, hfr, ?_, h.symm, hns⟩
  · simp only [Civil.valid, validMD, Bool.and_eq_true, decide_eq_true_eq]
    have : ((year : Nat) : Int) ≤ 9999 := by omega
    omega
  · simp only [spellBody, Int.toNat_ofNat, twoDigits]
    have e1 : ∀ a b, a < 10 → b < 10 → (a * 10 + b) / 10 = a ∧ (a * 10 + b) % 10 = b := by
      intro a b ha hb; omega
    rw [(e1 a1 b1 ha1 hb1).1, (e1 a1 b1 ha1 hb1).2, (e1 a2 b2 ha2 hb2).1, (e1 a2 b2 ha2 hb2).2,
      (e1 a3 b3 ha3 hb3).1, (e1 a3 b3 ha3 hb3).2, (e1 a4 b4 ha4 hb4).1, (e1 a4 b4 ha4 hb4).2,
      (e1 a5 b5 ha5 hb5).1, (e1 a5 b5 ha5 hb5).2]
    rw [hs0, hv1, hv2, hv3, hv4, hv5, hv6, hv7, hv8, hv8nil]
    simp


/-! ## The object written by `MarshalJSON` -/

theorem find_encPtr_ne (key k : String) (p : Option String) (B : List (String × Json))
    (h : key ≠ k) :
    (encPtr key p ++ B).find? (fun kv => kv.1 == k) = B.find? (fun kv => kv.1 == k) := by
  cases p <;> simp [encPtr, h]

theorem find_encPtr_eq (k : String) (p : Option String) (B : List (String × Json)) :
    (encPtr k p ++ B).find? (fun kv => kv.1 == k)
      = match p with
        | some s => some (k, Json.str s)
        | none => B.find? (fun kv => kv.1 == k) := by
  cases p <;> simp [encPtr]

theorem find_encStr_ne (key k : String) (v : String) (B : List (String × Json))
    (h : key ≠ k) :
    (encStr key v ++ B).find? (fun kv => kv.1 == k) = B.find? (fun kv => kv.1 == k) := by
  unfold encStr
  split <;> simp [h]

theorem find_encStr_eq (k : String) (v : String) (B : List (String × Json)) :
    (encStr k v ++ B).find? (fun kv => kv.1 == k)
      = if v.length == 0 then B.find? (fun kv => kv.1 == k) else some (k, Json.str v) := by
  unfold encStr
  split <;> simp

theorem find_encFloat_ne (key k : String) (f : Float64) (l : List (String × Json))
    (B : List (String × Json)) (hl : encFloat key f = some l) (h : key ≠ k) :
    (l ++ B).find? (fun kv => kv.1 == k) = B.find? (fun kv => kv.1 == k) := by
  unfold encFloat at hl
  split at hl
  · cases hl; simp
  · split at hl
    · cases hl; simp [h]
    · cases hl

theorem find_ite_ne (c : Prop) [Decidable c] (key k : String) (v : Json)
    (B : List (String × Json)) (h : key ≠ k) :
    ((if c then [] else [(key, v)]) ++ B).find? (fun kv => kv.1 == k)
      = B.find? (fun kv => kv.1 == k) := by
  split <;> simp [h]

theorem find_ite_eq (c : Prop) [Decidable c] (k : String) (v : Json)
    (B : List (String × Json)) :
    ((if c then [] else [(k, v)]) ++ B).find? (fun kv => kv.1 == k)
      = if c then B.find? (fun kv => kv.1 == k) else some (k, v) := by
  split <;> simp

theorem find_single_ne (key k : String) (v : Json) (B : List (String × Json)) (h : key ≠ k) :
    ([(key, v)] ++ B).find? (fun kv => kv.1 == k) = B.find? (fun kv => kv.1 == k) := by
  simp [h]

/-- The members of the object `MarshalJSON` writes, given the two float members. -/
theorem MarshalJSON_ok (t : Task) (out : Json) (h : MarshalJSON t = .ok out) :
    ∃ imask urgency, encFloat "imask" t.Imask = some imask
      ∧ encFloat "urgency" t.Urgency = some urgency
      ∧ out = .obj (
        encPtr "due" (formatTime t.Due) ++
        (encPtr "entry" (formatTime t.Entry) ++
        (encPtr "modified" (formatTime t.Modified) ++
        (encPtr "reviewed" (formatTime t.Reviewed) ++
        (encPtr "until" (formatTime t.Until) ++
        (encPtr "wait" (formatTime t.Wait) ++
        ((if (t.Annotations.map (fun a : Annotation => (⟨a.Entry.Format⟩ : AuxEntry))).length == 0 then []
          else [("annotations", .arr ((t.Annotations.map
            (fun a : Annotation => (⟨a.Entry.Format⟩ : AuxEntry))).map encAuxEntry))]) ++
        ((if t.ID == 0 then [] else [("id", .num (Number.ofInt t.ID))]) ++
        ([("description", .str t.Description)] ++
        (imask ++
        (encStr "parent" t.Parent ++
        (encStr "project" t.Project ++
        (encStr "recur" t.Recur ++
        (encStr "rtype" t.Rtype ++
        (encStr "status" t.Status ++
        (encStr "uuid" t.UUID ++
        ((if t.Tags.length == 0 then [] else [("tags", .arr (t.Tags.map Json.str))]) ++
        urgency))))))))))))))))) := by
  unfold MarshalJSON at h
  split at h
  · rename_i imask urgency h1 h2
    refine ⟨imask, urgency, h1, h2, ?_⟩
    cases h
    simp only [List.append_assoc]
  · cases h


theorem find_encFloat_last (key k : String) (f : Float64) (l : List (String × Json))
    (hl : encFloat key f = some l) (h : key ≠ k) :
    l.find? (fun kv => kv.1 == k) = none := by
  have := find_encFloat_ne key k f l [] hl h
  simpa using this

theorem mem_keys_iff (kvs : List (String × Json)) (k : String) :
    k ∈ (Json.obj kvs).keys ↔ ((Json.obj kvs).member? k).isSome = true := by
  simp only [Json.keys, Json.member?, Option.isSome_map']
  induction kvs with
  | nil => simp
  | cons kv rest ih =>
    by_cases hk : kv.1 = k
    · simp [List.find?_cons, hk]
    · have hk2 : ¬ (k = kv.1) := fun e => hk e.symm
      have hb : (kv.1 == k) = false := by simp [hk]
      rw [List.find?_cons, hb, List.map_cons, List.mem_cons]
      simp only [hk2, false_or]
      exact ih

theorem Format_ne_empty (t : Time) : t.Format ≠ "" := by
  intro h
  have : (t.Format).data = [] := by rw [h]
  simp [Time.Format, formatChars] at this

/-- The value `MarshalJSON` writes under each temporal key. -/
theorem MarshalJSON_member_time (t : Task) (out : Json) (h : MarshalJSON t = .ok out)
    (f : TimeField) :
    out.member? f.key = (formatTime (f.get t)).map Json.str := by
  obtain ⟨imask, urgency, h1, h2, rfl⟩ := MarshalJSON_ok t out h
  have u := fun k (hk : "urgency" ≠ k) => find_encFloat_last "urgency" k t.Urgency urgency h2 hk
  have i := fun k B (hk : "imask" ≠ k) => find_encFloat_ne "imask" k t.Imask imask B h1 hk
  cases f <;>
    simp only [Json.member?, TimeField.key, TimeField.get] <;>
    simp (disch := decide) only [find_encPtr_ne, find_encPtr_eq, find_encStr_ne, find_ite_ne,
      find_single_ne, u, i] <;>
    cases formatTime _ <;> simp (disch := decide) only [find_encPtr_ne, find_encPtr_eq, find_encStr_ne, find_ite_ne,
      find_single_ne, u, i, Option.map]


theorem find_encFloat_eq (k : String) (f : Float64) (l : List (String × Json))
    (B : List (String × Json)) (hl : encFloat k f = some l) :
    (l ++ B).find? (fun kv => kv.1 == k)
      = if f.isZero then B.find? (fun kv => kv.1 == k)
        else some (k, Json.num (Number.ofFloat f)) := by
  unfold encFloat at hl
  split at hl
  · rename_i hz
    cases hl; simp [hz]
  · rename_i hz
    split at hl
    · cases hl; simp [hz]
    · cases hl

theorem find_encFloat_eq_last (k : String) (f : Float64) (l : List (String × Json))
    (hl : encFloat k f = some l) :
    l.find? (fun kv => kv.1 == k)
      = if f.isZero then none else some (k, Json.num (Number.ofFloat f)) := by
  have := find_encFloat_eq k f l [] hl
  simpa using this

/-- The value `MarshalJSON` writes under each non-temporal key. -/
theorem MarshalJSON_member_other (t : Task) (out : Json) (h : MarshalJSON t = .ok out) :
    out.member? "id" = (if t.ID == 0 then none else some (.num (Number.ofInt t.ID)))
    ∧ out.member? "description" = some (.str t.Description)
    ∧ out.member? "imask" = (if t.Imask.isZero then none else some (.num (Number.ofFloat t.Imask)))
    ∧ out.member? "parent" = (if t.Parent.length == 0 then none else some (.str t.Parent))
    ∧ out.member? "project" = (if t.Project.length == 0 then none else some (.str t.Project))
    ∧ out.member? "recur" = (if t.Recur.length == 0 then none else some (.str t.Recur))
    ∧ out.member? "rtype" = (if t.Rtype.length == 0 then none else some (.str t.Rtype))
    ∧ out.member? "status" = (if t.Status.length == 0 then none else some (.str t.Status))
    ∧ out.member? "uuid" = (if t.UUID.length == 0 then none else some (.str t.UUID))
    ∧ out.member? "tags"
        = (if t.Tags.length == 0 then none else some (.arr (t.Tags.map Json.str)))
    ∧ out.member? "urgency"
        = (if t.Urgency.isZero then none else some (.num (Number.ofFloat t.Urgency))) := by
  obtain ⟨imask, urgency, h1, h2, rfl⟩ := MarshalJSON_ok t out h
  have u := fun k (hk : "urgency" ≠ k) => find_encFloat_last "urgency" k t.Urgency urgency h2 hk
  have i := fun k B (hk : "imask" ≠ k) => find_encFloat_ne "imask" k t.Imask imask B h1 hk
  have u2 := find_encFloat_eq_last "urgency" t.Urgency urgency h2
  have i2 := fun B => find_encFloat_eq "imask" t.Imask imask B h1
  refine ⟨?_, ?_, ?_, ?_, ?_, ?_, ?_, ?_, ?_, ?_, ?_⟩ <;>
    simp only [Json.member?] <;>
    simp (disch := decide) only [find_encPtr_ne, find_encStr_ne, find_ite_ne, find_single_ne,
      find_encStr_eq, find_ite_eq, u, i, u2, i2] <;>
    (try split) <;> simp (disch := decide) only [find_encPtr_ne, find_encStr_ne, find_ite_ne, find_single_ne,
      find_encStr_eq, find_ite_eq, u, i, u2, i2, Option.map, List.find?_cons, beq_self_eq_true, *] <;>
    simp_all

/-! ## Claims about `MarshalJSON` -/

/-- Presence and value of each temporal key in the object `MarshalJSON` writes. -/
theorem MarshalJSON_time_key (t : Task) (out : Json) (h : MarshalJSON t = .ok out)
    (f : TimeField) :
    (f.key ∈ out.keys ↔ (f.get t).IsZero = false)
    ∧ out.member? f.key
        = (if (f.get t).IsZero then none else some (.str (f.get t).Format)) := by
  have hm := MarshalJSON_member_time t out h f
  obtain ⟨_, _, _, _, hout⟩ := MarshalJSON_ok t out h
  constructor
  · rw [hout] at hm ⊢
    rw [mem_keys_iff, hm]
    unfold formatTime
    cases (f.get t).IsZero <;> simp
  · rw [hm]
    unfold formatTime
    cases (f.get t).IsZero <;> simp

/-- C3 (absence omission). In the object `MarshalJSON` writes for any Task, each of the keys
due, entry, modified, reviewed, until, wait is present exactly when the field is not the zero
instant; when present its value is the formatted, non-empty string (never null); and a Task
with all six fields unset has none of the six keys. -/
theorem marshal_absence_omission (t : Task) (out : Json) (h : MarshalJSON t = .ok out) :
    (∀ f : TimeField, (f.key ∈ out.keys ↔ (f.get t).IsZero = false)
      ∧ out.member? f.key
          = (if (f.get t).IsZero then none else some (.str (f.get t).Format))
      ∧ (f.get t).Format ≠ "")
    ∧ ((∀ f : TimeField, (f.get t).IsZero = true) → ∀ f : TimeField, f.key ∉ out.keys) := by
  refine ⟨fun f => ⟨(MarshalJSON_time_key t out h f).1, (MarshalJSON_time_key t out h f).2,
    Format_ne_empty _⟩, fun hall f hf => ?_⟩
  have := (MarshalJSON_time_key t out h f).1.1 hf
  rw [hall f] at this
  cases this

theorem marshal_absence_omission_witness :
    MarshalJSON sampleEntryOnly = .ok sampleEntryOnlyOut
    ∧ ("entry" ∈ sampleEntryOnlyOut.keys ↔ sampleEntryOnly.Entry.IsZero = false)
    ∧ ("due" ∈ sampleEntryOnlyOut.keys ↔ sampleEntryOnly.Due.IsZero = false) :=
  ⟨rfl, ((marshal_absence_omission sampleEntryOnly sampleEntryOnlyOut rfl).1 .Entry).1,
    ((marshal_absence_omission sampleEntryOnly sampleEntryOnlyOut rfl).1 .Due).1⟩


theorem not_mem_keys_of_member_none (out : Json) (kvs : List (String × Json)) (k : String)
    (ho : out = .obj kvs) (h : out.member? k = none) : k ∉ out.keys := by
  subst ho
  rw [mem_keys_iff, h]
  simp

/-- C8 as stated fails for `description`: the zero Task has an empty description, and the
object written for it still has the key. -/
theorem omit_empty_fails_for_description :
    ¬ (∀ (t : Task) (out : Json), MarshalJSON t = .ok out → t.Description = "" →
        "description" ∉ out.keys) := by
  intro H
  exact H Task.zero (.obj [("description", .str "")]) rfl rfl (by decide)

/-- C8 (amended). In the object `MarshalJSON` writes, each of id, imask, parent, project,
recur, rtype, status, uuid, tags and urgency is left out whenever the field holds its zero
value (0, the empty string, the empty list); `description` is always written, the empty
string included. -/
theorem marshal_omit_empty (t : Task) (out : Json) (h : MarshalJSON t = .ok out) :
    (t.ID = 0 → "id" ∉ out.keys)
    ∧ (t.Imask.isZero = true → "imask" ∉ out.keys)
    ∧ (t.Parent = "" → "parent" ∉ out.keys)
    ∧ (t.Project = "" → "project" ∉ out.keys)
    ∧ (t.Recur = "" → "recur" ∉ out.keys)
    ∧ (t.Rtype = "" → "rtype" ∉ out.keys)
    ∧ (t.Status = "" → "status" ∉ out.keys)
    ∧ (t.UUID = "" → "uuid" ∉ out.keys)
    ∧ (t.Tags = [] → "tags" ∉ out.keys)
    ∧ (t.Urgency.isZero = true → "urgency" ∉ out.keys)
    ∧ out.member? "description" = some (.str t.Description)
    ∧ "description" ∈ out.keys := by
  obtain ⟨m1, m2, m3, m4, m5, m6, m7, m8, m9, m10, m11⟩ := MarshalJSON_member_other t out h
  obtain ⟨_, _, _, _, hout⟩ := MarshalJSON_ok t out h
  refine ⟨?_, ?_, ?_, ?_, ?_, ?_, ?_, ?_, ?_, ?_, m2, ?_⟩
  · intro e; apply not_mem_keys_of_member_none out _ _ hout; rw [m1]; simp [e]
  · intro e; apply not_mem_keys_of_member_none out _ _ hout; rw [m3]; simp [e]
  · intro e; apply not_mem_keys_of_member_none out _ _ hout; rw [m4]; simp [e]
  · intro e; apply not_mem_keys_of_member_none out _ _ hout; rw [m5]; simp [e]
  · intro e; apply not_mem_keys_of_member_none out _ _ hout; rw [m6]; simp [e]
  · intro e; apply not_mem_keys_of_member_none out _ _ hout; rw [m7]; simp [e]
  · intro e; apply not_mem_keys_of_member_none out _ _ hout; rw [m8]; simp [e]
  · intro e; apply not_mem_keys_of_member_none out _ _ hout; rw [m9]; simp [e]
  · intro e; apply not_mem_keys_of_member_none out _ _ hout; rw [m10]; simp [e]
  · intro e; apply not_mem_keys_of_member_none out _ _ hout; rw [m11]; simp [e]
  · rw [hout] at m2 ⊢
    rw [mem_keys_iff, m2]
    rfl

theorem marshal_omit_empty_witness :
    MarshalJSON sampleModified = .ok sampleModifiedOut
    ∧ (sampleModified.ID = 0 → "id" ∉ sampleModifiedOut.keys)
    ∧ "description" ∈ sampleModifiedOut.keys :=
  ⟨rfl, (marshal_omit_empty sampleModified sampleModifiedOut rfl).1,
    (marshal_omit_empty sampleModified sampleModifiedOut rfl).2.2.2.2.2.2.2.2.2.2.2⟩

theorem fieldOfKey_key (fld : Field) (k : String) (h : foldName k = fld.key) :
    fieldOfKey k = some fld := by
  unfold fieldOfKey
  rw [h]
  cases fld with
  | time g => cases g <;> rfl
  | annotations => rfl
  | id => rfl
  | str g => cases g <;> rfl
  | float g => cases g <;> rfl
  | tags => rfl

theorem fieldOfKey_some (fld : Field) (k : String) (h : fieldOfKey k = some fld) :
    foldName k = fld.key := by
  unfold fieldOfKey at h
  have := List.find?_some h
  simp only [beq_iff_eq] at this
  exact this.symm

theorem fieldOfKey_iff (fld : Field) (k : String) :
    fieldOfKey k = some fld ↔ foldName k = fld.key :=
  ⟨fieldOfKey_some fld k, fieldOfKey_key fld k⟩

theorem decodeString_eq (old : String) (v : Json) (s : String) (h : decodeString old v = some s) :
    s = (readStr v).getD old := by
  cases v <;> simp [decodeString, readStr] at h ⊢ <;> exact h.symm

theorem TimeField.raw_setRaw (f g : TimeField) (a : Aux) (s : String) :
    g.raw (f.setRaw a s) = if f = g then s else g.raw a := by
  cases f <;> cases g <;> simp [TimeField.raw, TimeField.setRaw]

theorem decodeField_raw (a a1 : Aux) (fld : Field) (v : Json)
    (h : decodeField a fld v = some a1) (g : TimeField) :
    g.raw a1 = if fld = .time g then (readStr v).getD (g.raw a) else g.raw a := by
  cases fld with
  | time f =>
    simp only [decodeField, Option.map_eq_some'] at h
    obtain ⟨s, hs, rfl⟩ := h
    rw [TimeField.raw_setRaw]
    by_cases hfg : f = g
    · subst hfg; simp [decodeString_eq _ _ _ hs]
    · simp [hfg]
  | annotations =>
    simp only [decodeField, Option.map_eq_some'] at h
    obtain ⟨s, _, rfl⟩ := h
    cases g <;> simp [TimeField.raw]
  | id =>
    simp only [decodeField, Option.map_eq_some'] at h
    obtain ⟨s, _, rfl⟩ := h
    cases g <;> simp [TimeField.raw]
  | str f =>
    simp only [decodeField, Option.map_eq_some'] at h
    obtain ⟨s, _, rfl⟩ := h
    cases g <;> simp [TimeField.raw]
  | float f =>
    simp only [decodeField, Option.map_eq_some'] at h
    obtain ⟨s, _, rfl⟩ := h
    cases g <;> simp [TimeField.raw]
  | tags =>
    simp only [decodeField, Option.map_eq_some'] at h
    obtain ⟨s, _, rfl⟩ := h
    cases g <;> simp [TimeField.raw]

theorem decodeMember_raw (a a1 : Aux) (k : String) (v : Json) (h : decodeMember a k v = some a1)
    (g : TimeField) :
    g.raw a1 = if foldName k = g.key then (readStr v).getD (g.raw a) else g.raw a := by
  unfold decodeMember at h
  split at h
  · rename_i fld hf
    rw [decodeField_raw a a1 fld v h g]
    have hk := fieldOfKey_some fld k hf
    by_cases hg : fld = .time g
    · subst hg; simp [hk, Field.key]
    · have : ¬ foldName k = g.key := by
        intro e
        have := fieldOfKey_key (.time g) k e
        rw [hf] at this
        exact hg (Option.some.inj this)
      simp [hg, this]
  · rename_i hf
    simp only [Option.some.injEq] at h
    subst h
    have : ¬ foldName k = g.key := by
      intro e
      have := fieldOfKey_key (.time g) k e
      rw [hf] at this
      cases this
    simp [this]

theorem decodeMembers_raw (kvs : List (String × Json)) (a a1 : Aux)
    (h : decodeMembers a kvs = some a1) (g : TimeField) :
    g.raw a1 = pickLast g.key readStr (g.raw a) kvs := by
  induction kvs generalizing a with
  | nil =>
    simp only [decodeMembers, Option.some.injEq] at h
    subst h
    rfl
  | cons kv rest ih =>
    obtain ⟨k, v⟩ := kv
    simp only [decodeMembers] at h
    split at h
    · cases h
    · rename_i a2 h2
      rw [ih a2 h]
      simp only [pickLast, List.foldl_cons]
      rw [decodeMember_raw a a2 k v h2 g]


/-! ## The parsing phase of `UnmarshalJSON` -/

theorem parseTimes_some (aux : Aux) (t t1 : Task) (h : parseTimes aux t = some t1) :
    (∀ f : TimeField, parseInto (f.raw aux) (f.get t) = some (f.get t1))
    ∧ t1 = { t with Due := t1.Due, Entry := t1.Entry, Modified := t1.Modified,
                    Reviewed := t1.Reviewed, Until := t1.Until, Wait := t1.Wait } := by
  simp only [parseTimes, Option.bind_eq_bind, Option.bind_eq_some] at h
  obtain ⟨d1, h1, d2, h2, d3, h3, d4, h4, d5, h5, d6, h6, h7⟩ := h
  simp only [Option.some.injEq] at h7
  subst h7
  refine ⟨fun f => ?_, rfl⟩
  cases f <;> simp only [TimeField.raw, TimeField.get] <;> assumption

theorem parseTimes_none_of (aux : Aux) (t : Task) (f : TimeField)
    (h : parseInto (f.raw aux) (f.get t) = none) : parseTimes aux t = none := by
  cases hp : parseTimes aux t with
  | none => rfl
  | some t1 =>
    have := (parseTimes_some aux t t1 hp).1 f
    rw [h] at this
    cases this

theorem checkValid_iff (data : Json) :
    checkValid data = true ↔ data.depth ≤ maxNestingDepth := by
  simp only [checkValid, decide_eq_true_eq]

/-- A document nested beyond the limit is a syntax error, whatever it holds. -/
theorem UnmarshalJSON_invalid (t : Task) (data : Json) (h : checkValid data = false) :
    UnmarshalJSON t data = .error .jsonSyntax := by
  simp only [UnmarshalJSON, unmarshalAux, h, Bool.false_eq_true, if_false]

theorem UnmarshalJSON_ok_valid (t d : Task) (data : Json) (h : UnmarshalJSON t data = .ok d) :
    checkValid data = true := by
  cases hv : checkValid data with
  | true => rfl
  | false => rw [UnmarshalJSON_invalid t data hv] at h; cases h

/-- `UnmarshalJSON` on an object within the nesting limit. -/
theorem UnmarshalJSON_obj_valid (t : Task) (kvs : List (String × Json))
    (h : checkValid (.obj kvs) = true) :
    UnmarshalJSON t (.obj kvs)
      = match decodeMembers (Aux.init t) kvs with
        | none => .error .unmarshalType
        | some aux =>
          match parseTimes aux aux.Alias with
          | none => .error .timeParse
          | some t1 =>
            match appendAnnotations t1.Annotations aux.Annotations with
            | none => .error .timeParse
            | some anns => .ok { t1 with Annotations := anns } := by
  simp only [UnmarshalJSON, unmarshalAux, h, if_true, decodeAux]
  cases decodeMembers (Aux.init t) kvs <;> rfl

/-- `UnmarshalJSON` on a document within the nesting limit that is neither an object nor
`null`. -/
theorem UnmarshalJSON_not_obj_valid (t : Task) (x : Json) (h : checkValid x = true)
    (hobj : ∀ kvs, x ≠ .obj kvs) (hnull : x ≠ .null) :
    UnmarshalJSON t x = .error .unmarshalType := by
  cases x with
  | obj kvs => exact absurd rfl (hobj kvs)
  | null => exact absurd rfl hnull
  | bool b => simp only [UnmarshalJSON, unmarshalAux, h, if_true, decodeAux]
  | num n => simp only [UnmarshalJSON, unmarshalAux, h, if_true, decodeAux]
  | str s => simp only [UnmarshalJSON, unmarshalAux, h, if_true, decodeAux]
  | arr xs => simp only [UnmarshalJSON, unmarshalAux, h, if_true, decodeAux]

theorem UnmarshalJSON_null (t : Task) : UnmarshalJSON t .null = .panic := rfl

theorem UnmarshalJSON_obj_ok (t d : Task) (kvs : List (String × Json))
    (h : UnmarshalJSON t (.obj kvs) = .ok d) :
    ∃ aux t1 anns, decodeMembers (Aux.init t) kvs = some aux
      ∧ parseTimes aux aux.Alias = some t1
      ∧ appendAnnotations t1.Annotations aux.Annotations = some anns
      ∧ d = { t1 with Annotations := anns } := by
  rw [UnmarshalJSON_obj_valid t kvs (UnmarshalJSON_ok_valid t d _ h)] at h
  cases hm : decodeMembers (Aux.init t) kvs with
  | none => simp [hm] at h
  | some aux =>
    simp only [hm] at h
    cases hp : parseTimes aux aux.Alias with
    | none => simp [hp] at h
    | some t1 =>
      simp only [hp] at h
      cases ha : appendAnnotations t1.Annotations aux.Annotations with
      | none => simp [ha] at h
      | some anns =>
        simp only [ha, Outcome.ok.injEq] at h
        exact ⟨aux, t1, anns, rfl, hp, ha, h.symm⟩

/-- `UnmarshalJSON` on an object never panics. -/
theorem UnmarshalJSON_obj_cases (t : Task) (kvs : List (String × Json)) :
    (∃ d, UnmarshalJSON t (.obj kvs) = .ok d) ∨ (∃ e, UnmarshalJSON t (.obj kvs) = .error e) := by
  cases hv : checkValid (.obj kvs) with
  | false => right; exact ⟨_, UnmarshalJSON_invalid t _ hv⟩
  | true =>
  rw [UnmarshalJSON_obj_valid t kvs hv]
  cases hm : decodeMembers (Aux.init t) kvs with
  | none => right; exact ⟨_, rfl⟩
  | some aux =>
    simp only
    cases hp : parseTimes aux aux.Alias with
    | none => right; exact ⟨_, rfl⟩
    | some t1 =>
      simp only
      cases ha : appendAnnotations t1.Annotations aux.Annotations with
      | none => right; exact ⟨_, rfl⟩
      | some anns => left; exact ⟨_, rfl⟩

theorem decodeMembers_alias_times (kvs : List (String × Json)) (a a1 : Aux)
    (h : decodeMembers a kvs = some a1) (g : TimeField) :
    g.get a1.Alias = g.get a.Alias ∧ a1.Alias.Annotations = a.Alias.Annotations := by
  induction kvs generalizing a with
  | nil =>
    simp only [decodeMembers, Option.some.injEq] at h
    subst h
    exact ⟨rfl, rfl⟩
  | cons kv rest ih =>
    obtain ⟨k, v⟩ := kv
    simp only [decodeMembers] at h
    split at h
    · cases h
    · rename_i a2 h2
      have := ih a2 h
      rw [this.1, this.2]
      unfold decodeMember at h2
      split at h2
      · rename_i fld _
        cases fld with
        | time f =>
          simp only [decodeField, Option.map_eq_some'] at h2
          obtain ⟨s, _, rfl⟩ := h2
          cases f <;> cases g <;> exact ⟨rfl, rfl⟩
        | annotations =>
          simp only [decodeField, Option.map_eq_some'] at h2
          obtain ⟨s, _, rfl⟩ := h2
          exact ⟨rfl, rfl⟩
        | id =>
          simp only [decodeField, Option.map_eq_some'] at h2
          obtain ⟨s, _, rfl⟩ := h2
          cases g <;> exact ⟨rfl, rfl⟩
        | str f =>
          simp only [decodeField, Option.map_eq_some'] at h2
          obtain ⟨s, _, rfl⟩ := h2
          cases f <;> cases g <;> exact ⟨rfl, rfl⟩
        | float f =>
          simp only [decodeField, Option.map_eq_some'] at h2
          obtain ⟨s, _, rfl⟩ := h2
          cases f <;> cases g <;> exact ⟨rfl, rfl⟩
        | tags =>
          simp only [decodeField, Option.map_eq_some'] at h2
          obtain ⟨s, _, rfl⟩ := h2
          cases g <;> exact ⟨rfl, rfl⟩
      · simp only [Option.some.injEq] at h2
        subst h2
        exact ⟨rfl, rfl⟩


/-! ## Instants that `time.Parse` yields -/

theorem digitChar_isDigit (k : Nat) : isDigitChar (digitChar k) = true := by
  match k with
  | 0 | 1 | 2 | 3 | 4 | 5 | 6 | 7 | 8 | 9 => decide
  | n + 10 => rfl

theorem spellBody_length (c : Civil) : (spellBody c).length = 15 := by
  simp [spellBody, fourDigits, twoDigits]

theorem civil_Date_valid (c : Civil) (ns : Nat) (hv : c.valid = true) :
    (Date c.year c.month c.day c.hour c.min c.sec ns).civil = c := by
  simp only [Civil.valid, Bool.and_eq_true, decide_eq_true_eq] at hv
  obtain ⟨⟨⟨⟨⟨_, _⟩, hmd⟩, hh⟩, hmi⟩, hs⟩ := hv
  exact civil_Date c.year c.month c.day c.hour c.min c.sec ns hmd hh hmi hs

theorem matchesLenient_spell (c : Civil) (frac : List Char) (hf : isFraction frac = true) :
    matchesLenient (spellBody c ++ frac ++ ['Z']) = true := by
  have hl := spellBody_length c
  have h15 : (spellBody c ++ frac ++ ['Z']).drop 15 = frac ++ ['Z'] := by
    rw [List.append_assoc, List.drop_left' hl]
  have hlast : (spellBody c ++ frac ++ ['Z']).getLast? = some 'Z' := by
    simp
  have hdl : (frac ++ ['Z']).dropLast = frac := by simp
  simp only [matchesLenient, h15, hlast, hdl, hf, Bool.and_true, beq_self_eq_true]
  simp [spellBody, fourDigits, twoDigits, digitChar_isDigit]

theorem matchesGrammar_frac (c : Civil) (frac : List Char)
    (h : matchesGrammar (spellBody c ++ frac ++ ['Z']) = true) : frac = [] := by
  have hl := spellBody_length c
  simp only [matchesGrammar, Bool.and_eq_true, beq_iff_eq] at h
  have h16 := h.1.1.1.1
  simp only [List.length_append, hl, List.length_singleton] at h16
  have : frac.length = 0 := by omega
  exact List.length_eq_zero.mp this

/-- What holds of every instant `time.Parse` returns under the layout. -/
theorem timeParse_facts (s : String) (t : Time) (h : timeParse s = some t) :
    t.civil.valid = true
    ∧ t.Format = String.mk (s.data.take 15 ++ ['Z'])
    ∧ t.Format.data = spell t.civil
    ∧ t.Format.length = 16
    ∧ timeParse t.Format = some { t with nsec := 0 }
    ∧ matchesLenient s.data = true
    ∧ (matchesGrammar s.data = true → t.nsec = 0 ∧ t.Format = s)
    ∧ s.data.take 15 = spellBody t.civil := by
  obtain ⟨c, frac, ns, hv, hf, hs, ht, hns⟩ := parseChars_some s.data t h
  have hc : t.civil = c := by rw [ht]; exact civil_Date_valid c ns hv
  have hv2 := hv
  simp only [Civil.valid, Bool.and_eq_true, decide_eq_true_eq] at hv2
  have hfmt : formatChars t = spell c := by
    rw [← hc]
    apply formatChars_eq_spell
    · rw [hc]; exact hv2.1.1.1.1.1
    · rw [hc]; exact hv2.1.1.1.1.2
  have htake : s.data.take 15 = spellBody c := by
    rw [hs, List.append_assoc, List.take_left' (spellBody_length c)]
  have hF : t.Format = String.mk (s.data.take 15 ++ ['Z']) := by
    simp only [Time.Format, hfmt, htake, spell]
  refine ⟨by rw [hc]; exact hv, hF, ?_, ?_, ?_, ?_, ?_, by rw [hc]; exact htake⟩
  · simp only [Time.Format, hfmt, hc]
  · simp only [Time.Format, hfmt, String.length, spell_length]
  · simp only [timeParse, Time.Format, hfmt]
    rw [parseChars_spell c hv, ht]
    rfl
  · rw [hs]; exact matchesLenient_spell c frac hf
  · intro hg
    rw [hs] at hg
    have hnil := matchesGrammar_frac c frac hg
    refine ⟨by rw [ht]; exact hns hnil, ?_⟩
    simp only [Time.Format, hfmt, spell]
    have : s.data = spellBody c ++ ['Z'] := by rw [hs, hnil]; simp
    rw [← this]


/-! ## Temporal fields of a decoded Task -/

theorem Time.isZero_iff (t : Time) (h : t.offset = 0) : t.IsZero = true ↔ t = Time.zero := by
  cases t with
  | mk s n o =>
    simp only at h
    simp only [Time.IsZero, Time.zero, Bool.and_eq_true, beq_iff_eq, Time.mk.injEq, h, and_true]

/-- An instant returned by `time.Parse` under the layout is in UTC. -/
theorem timeParse_offset (s : String) (t : Time) (h : timeParse s = some t) : t.offset = 0 := by
  obtain ⟨c, frac, ns, hv, hf, hs, ht, hns⟩ := parseChars_some s.data t h
  rw [ht]
  rfl

theorem roundTrips_offset (t : Time) (h : roundTrips t) : t.offset = 0 := h.1

theorem parseInto_empty (old : Time) : parseInto "" old = some old := rfl

theorem parseInto_ne (s : String) (old : Time) (h : s ≠ "") : parseInto s old = timeParse s := by
  unfold parseInto
  have : s.length > 0 := by
    cases s with
    | mk l =>
      cases l with
      | nil => exact absurd rfl h
      | cons c tl => simp [String.length]
  simp [this]

/-- The temporal field of a Task decoded into a receiver `t`: the instant parsed from the
string the object holds under the key, or the receiver's value when that string is empty. -/
theorem UnmarshalJSON_time_field (t d : Task) (kvs : List (String × Json))
    (h : UnmarshalJSON t (.obj kvs) = .ok d) (f : TimeField) :
    parseInto (heldString f.key kvs) (f.get t) = some (f.get d) := by
  obtain ⟨aux, t1, anns, hm, hp, _, rfl⟩ := UnmarshalJSON_obj_ok t d kvs h
  have h1 := (parseTimes_some aux aux.Alias t1 hp).1 f
  have h2 := decodeMembers_raw kvs (Aux.init t) aux hm f
  have h3 := (decodeMembers_alias_times kvs (Aux.init t) aux hm f).1
  have h4 : f.raw (Aux.init t) = "" := by cases f <;> rfl
  have h5 : f.get ({ t1 with Annotations := anns } : Task) = f.get t1 := by cases f <;> rfl
  have h6 : f.get (Aux.init t).Alias = f.get t := rfl
  rw [h5, ← h1, h2, h3, h4, h6]
  rfl

theorem UnmarshalJSON_not_obj (t d : Task) (x : Json) (h : UnmarshalJSON t x = .ok d) :
    ∃ kvs, x = .obj kvs := by
  cases x with
  | obj kvs => exact ⟨kvs, rfl⟩
  | null => cases h
  | bool b =>
    rw [UnmarshalJSON_not_obj_valid t _ (UnmarshalJSON_ok_valid t d _ h)
      (fun _ e => by cases e) (fun e => by cases e)] at h
    cases h
  | num n =>
    rw [UnmarshalJSON_not_obj_valid t _ (UnmarshalJSON_ok_valid t d _ h)
      (fun _ e => by cases e) (fun e => by cases e)] at h
    cases h
  | str s =>
    rw [UnmarshalJSON_not_obj_valid t _ (UnmarshalJSON_ok_valid t d _ h)
      (fun _ e => by cases e) (fun e => by cases e)] at h
    cases h
  | arr xs =>
    rw [UnmarshalJSON_not_obj_valid t _ (UnmarshalJSON_ok_valid t d _ h)
      (fun _ e => by cases e) (fun e => by cases e)] at h
    cases h

/-- C4 as stated fails: a string with a fractional second is not in the 16-character
grammar, and the object holding it under `wait` decodes, with the fraction kept. -/
theorem grammar_strictness_fails_for_fraction :
    matchesGrammar ("20240102T120000.25Z" : String).data = false
    ∧ decode (.obj [("wait", .str "20240102T120000.25Z")])
        = .ok { Task.zero with Wait := ⟨63839793600, 250000000, 0⟩ } := by
  decide

/-- C4 (amended). For each temporal key and every JSON object: when the string the object
holds under the key (its last string-valued member, keys compared ignoring case) is not empty
and is not of the form `YYYYMMDDThhmmss`, optional fractional second, `Z`, decoding into a
fresh Task fails with an error; when that string is empty the member is passed over and a
successful decode leaves the field at the zero instant. -/
theorem decode_rejects_malformed (kvs : List (String × Json)) (f : TimeField) :
    (heldString f.key kvs ≠ "" → matchesLenient (heldString f.key kvs).data = false →
      ∃ e, decode (.obj kvs) = .error e)
    ∧ (heldString f.key kvs = "" → ∀ d, decode (.obj kvs) = .ok d → f.get d = Time.zero) := by
  constructor
  · intro hne hbad
    rcases UnmarshalJSON_obj_cases Task.zero kvs with ⟨d, hd⟩ | he
    · have h1 := UnmarshalJSON_time_field Task.zero d kvs hd f
      rw [parseInto_ne _ _ hne] at h1
      have := (timeParse_facts _ _ h1).2.2.2.2.2.1
      rw [hbad] at this
      cases this
    · exact he
  · intro he d hd
    have h1 := UnmarshalJSON_time_field Task.zero d kvs hd f
    rw [he, parseInto_empty] at h1
    have : f.get Task.zero = Time.zero := by cases f <;> rfl
    rw [this] at h1
    exact (Option.some.inj h1).symm

theorem decode_rejects_malformed_witness :
    heldString "due" [("due", .str "2024-01-02")] ≠ ""
    ∧ matchesLenient (heldString "due" [("due", .str "2024-01-02")]).data = false
    ∧ ∃ e, decode (.obj [("due", .str "2024-01-02")]) = .error e :=
  ⟨by decide, by decide,
    (decode_rejects_malformed [("due", .str "2024-01-02")] .Due).1 (by decide) (by decide)⟩


/-- C2 as stated fails: the object holds a well-formed `due`, it decodes, and the re-encoded
object has no `due` key (the instant is the zero instant). -/
theorem reencode_drops_zero_instant :
    matchesGrammar ("00010101T000000Z" : String).data = true
    ∧ decode (.obj [("due", .str "00010101T000000Z")]) = .ok Task.zero
    ∧ MarshalJSON Task.zero = .ok (.obj [("description", .str "")])
    ∧ "due" ∉ (Json.obj [("description", .str "")]).keys :=
  ⟨by decide, by decide, rfl, by decide⟩

/-- C2 (amended). Let `x` be a JSON object that decodes into a fresh Task `d`, and `s` the
string `x` holds under a temporal key (its last string-valued member, keys compared ignoring
case; empty when there is none). The key is present in `MarshalJSON(d)` exactly when `s` is
not empty and does not denote the zero instant 0001-01-01T00:00:00Z; when present it holds
the first 15 characters of `s` followed by `Z`, which is `s` itself when `s` is in the
16-character grammar (a fractional second in `s` is not written back). -/
theorem reencode_temporal (kvs : List (String × Json)) (d : Task) (out : Json)
    (hd : decode (.obj kvs) = .ok d) (ho : MarshalJSON d = .ok out) (f : TimeField) :
    (f.key ∈ out.keys ↔
      (heldString f.key kvs ≠ "" ∧ timeParse (heldString f.key kvs) ≠ some Time.zero))
    ∧ (f.key ∈ out.keys →
        out.member? f.key
          = some (.str (String.mk ((heldString f.key kvs).data.take 15 ++ ['Z']))))
    ∧ (f.key ∈ out.keys → matchesGrammar (heldString f.key kvs).data = true →
        out.member? f.key = some (.str (heldString f.key kvs))) := by
  have h1 := UnmarshalJSON_time_field Task.zero d kvs hd f
  have hz : f.get Task.zero = Time.zero := by cases f <;> rfl
  rw [hz] at h1
  obtain ⟨hkeys, hmem⟩ := MarshalJSON_time_key d out ho f
  by_cases hs : heldString f.key kvs = ""
  · rw [hs, parseInto_empty] at h1
    have hdz : f.get d = Time.zero := (Option.some.inj h1).symm
    have hnot : ¬ f.key ∈ out.keys := by
      rw [hkeys, hdz]; decide
    refine ⟨?_, fun h => absurd h hnot, fun h => absurd h hnot⟩
    constructor
    · intro h; exact absurd h hnot
    · intro h; exact absurd hs h.1
  · rw [parseInto_ne _ _ hs] at h1
    obtain ⟨_, hF, _, _, _, _, hG, _⟩ := timeParse_facts _ _ h1
    refine ⟨?_, ?_, ?_⟩
    · rw [hkeys]
      constructor
      · intro hnz
        refine ⟨hs, ?_⟩
        rw [h1]
        intro e
        have : f.get d = Time.zero := Option.some.inj e
        rw [this] at hnz
        cases hnz
      · intro h
        cases hz2 : (f.get d).IsZero with
        | false => rfl
        | true =>
          exfalso
          apply h.2
          rw [h1, (Time.isZero_iff _ (timeParse_offset _ _ h1)).1 hz2]
    · intro hk
      rw [hmem, (hkeys.1 hk), ← hF]
      rfl
    · intro hk hg
      rw [hmem, (hkeys.1 hk), (hG hg).2]
      rfl

theorem reencode_temporal_witness :
    decode (.obj [("Modified", .str "20240102T120000.5Z")])
      = .ok { Task.zero with Modified := ⟨63839793600, 500000000, 0⟩ }
    ∧ MarshalJSON { Task.zero with Modified := ⟨63839793600, 500000000, 0⟩ }
      = .ok (.obj [("modified", .str "20240102T120000Z"), ("description", .str "")])
    ∧ ("modified" ∈ (Json.obj [("modified", .str "20240102T120000Z"),
          ("description", .str "")]).keys ↔
        (heldString "modified" [("Modified", .str "20240102T120000.5Z")] ≠ ""
          ∧ timeParse (heldString "modified" [("Modified", .str "20240102T120000.5Z")])
              ≠ some Time.zero)) :=
  ⟨by decide, rfl,
    (reencode_temporal [("Modified", .str "20240102T120000.5Z")]
      { Task.zero with Modified := ⟨63839793600, 500000000, 0⟩ }
      (.obj [("modified", .str "20240102T120000Z"), ("description", .str "")])
      (by decide) rfl .Modified).1⟩


/-! ## Annotations of a decoded Task -/

theorem length_pos_iff_ne_empty (s : String) : s.length > 0 ↔ s ≠ "" := by
  cases s with
  | mk l =>
    cases l with
    | nil => simp [String.length]
    | cons c tl =>
      simp only [String.length, List.length_cons, gt_iff_lt, Nat.zero_lt_succ, true_iff]
      intro h
      have : (String.mk (c :: tl)).data = ("" : String).data := by rw [h]
      cases this

theorem appendAnnotations_some (xs : List AuxEntry) (acc anns : List Annotation)
    (h : appendAnnotations acc xs = some anns) :
    ∃ new, anns = acc ++ new
      ∧ List.Forall₂ (fun s (a : Annotation) => timeParse s = some a.Entry ∧ a.Description = "")
          ((xs.map (fun x => x.Entry)).filter (fun s => decide (s ≠ ""))) new := by
  induction xs generalizing acc with
  | nil =>
    simp only [appendAnnotations, Option.some.injEq] at h
    exact ⟨[], by simp [h], by simp⟩
  | cons x rest ih =>
    simp only [appendAnnotations] at h
    by_cases hx : x.Entry.length > 0
    · have hne : x.Entry ≠ "" := (length_pos_iff_ne_empty _).1 hx
      simp only [hx, if_true] at h
      split at h
      · cases h
      · rename_i entryTime hp
        obtain ⟨new, hnew, hall⟩ := ih _ h
        refine ⟨{ Entry := entryTime, Description := "" } :: new, ?_, ?_⟩
        · rw [hnew]; simp
        · simp only [List.map_cons, List.filter_cons, hne, ne_eq, not_false_eq_true,
            decide_True, if_true]
          exact List.Forall₂.cons ⟨hp, rfl⟩ hall
    · have he : x.Entry = "" := by
        by_contra hc
        exact hx ((length_pos_iff_ne_empty _).2 hc)
      simp only [hx, if_false] at h
      obtain ⟨new, hnew, hall⟩ := ih _ h
      refine ⟨new, hnew, ?_⟩
      simp only [List.map_cons, List.filter_cons, he, ne_eq, not_true_eq_false, decide_False]
      exact hall

/-- The annotations of a Task decoded into a fresh receiver: one per non-empty `Entry` of
`aux.Annotations`, in order, each with an empty description. -/
theorem decode_annotations_of_aux (kvs : List (String × Json)) (d : Task)
    (h : decode (.obj kvs) = .ok d) :
    ∃ aux, decodeMembers (Aux.init Task.zero) kvs = some aux
      ∧ List.Forall₂ (fun s (a : Annotation) => timeParse s = some a.Entry ∧ a.Description = "")
          ((aux.Annotations.map (fun x => x.Entry)).filter (fun s => decide (s ≠ "")))
          d.Annotations := by
  obtain ⟨aux, t1, anns, hm, hp, ha, rfl⟩ := UnmarshalJSON_obj_ok Task.zero d kvs h
  refine ⟨aux, hm, ?_⟩
  have h1 : t1.Annotations = aux.Alias.Annotations := by
    have := (parseTimes_some aux aux.Alias t1 hp).2
    rw [this]
  have h2 := (decodeMembers_alias_times kvs (Aux.init Task.zero) aux hm .Due).2
  have h3 : t1.Annotations = [] := by rw [h1, h2]; rfl
  rw [h3] at ha
  obtain ⟨new, hnew, hall⟩ := appendAnnotations_some _ _ _ ha
  simp only [List.nil_append] at hnew
  subst hnew
  exact hall

theorem roundTrips_of_parse (s : String) (t : Time) (h : timeParse s = some t) :
    roundTrips t := by
  obtain ⟨h1, _, h3, h4, h5, _⟩ := timeParse_facts s t h
  exact ⟨timeParse_offset s t h, h1, h4, h3, h5⟩

/-- C10 as stated fails: a `due` with a fractional second decodes into an instant that is not
zero, does not have whole seconds, and is not what its format parses back to. -/
theorem decoded_instant_keeps_fraction :
    ∃ d, decode (.obj [("due", .str "20240101T000000.5Z")]) = .ok d
      ∧ d.Due.IsZero = false ∧ d.Due.nsec = 500000000
      ∧ timeParse d.Due.Format ≠ some d.Due :=
  ⟨{ Task.zero with Due := ⟨63839664000, 500000000, 0⟩ }, by decide, by decide, by decide,
    by decide⟩

/-- Every instant of a Task decoded into a fresh receiver satisfies the temporal invariant. -/
theorem decoded_roundTrips (x : Json) (d : Task) (h : decode x = .ok d) :
    (∀ f : TimeField, roundTrips (f.get d)) ∧ (∀ a ∈ d.Annotations, roundTrips a.Entry) := by
  obtain ⟨kvs, rfl⟩ := UnmarshalJSON_not_obj Task.zero d x h
  constructor
  · intro f
    have h1 := UnmarshalJSON_time_field Task.zero d kvs h f
    by_cases hs : heldString f.key kvs = ""
    · rw [hs, parseInto_empty] at h1
      have hz : f.get Task.zero = Time.zero := by cases f <;> rfl
      rw [hz] at h1
      rw [← Option.some.inj h1]
      decide
    · rw [parseInto_ne _ _ hs] at h1
      exact roundTrips_of_parse _ _ h1
  · intro a ha
    obtain ⟨aux, _, hall⟩ := decode_annotations_of_aux kvs d h
    have : ∀ (l1 : List String) (l2 : List Annotation),
        List.Forall₂ (fun s (a : Annotation) => timeParse s = some a.Entry ∧ a.Description = "")
          l1 l2 → ∀ a ∈ l2, ∃ s, timeParse s = some a.Entry := by
      intro l1 l2 hf
      induction hf with
      | nil => intro a ha; cases ha
      | cons hab _ ih =>
        intro a ha
        rcases List.mem_cons.1 ha with rfl | ha2
        · exact ⟨_, hab.1⟩
        · exact ih a ha2
    obtain ⟨s, hs⟩ := this _ _ hall a ha
    exact roundTrips_of_parse _ _ hs

/-- C10 (amended). In every Task decoded into a fresh receiver, each of the six temporal
fields and every annotation entry is a UTC instant with a real date and time in the years
0000 to 9999 (the zero instant 0001-01-01T00:00:00Z when absent) that formats to the 16
characters `YYYYMMDDThhmmssZ` spelling it, and the format parses back to the same instant
with the sub-second part cleared; the instant itself keeps a fractional second the input
gave. -/
theorem decode_temporal_invariant (x : Json) (d : Task) (h : decode x = .ok d) :
    (∀ f : TimeField, roundTrips (f.get d)) ∧ (∀ a ∈ d.Annotations, roundTrips a.Entry) :=
  decoded_roundTrips x d h

theorem decode_temporal_invariant_witness :
    decode (.obj [("due", .str "20240101T000000.5Z")])
      = .ok { Task.zero with Due := ⟨63839664000, 500000000, 0⟩ }
    ∧ roundTrips (⟨63839664000, 500000000, 0⟩ : Time) :=
  ⟨by decide,
    (decode_temporal_invariant (.obj [("due", .str "20240101T000000.5Z")])
      { Task.zero with Due := ⟨63839664000, 500000000, 0⟩ } (by decide)).1 .Due⟩


/-! ## The `annotations` member -/

theorem decodeMembers_append (pre post : List (String × Json)) (a : Aux) :
    decodeMembers a (pre ++ post)
      = (decodeMembers a pre).bind (fun a2 => decodeMembers a2 post) := by
  induction pre generalizing a with
  | nil => rfl
  | cons kv rest ih =>
    obtain ⟨k, v⟩ := kv
    simp only [List.cons_append, decodeMembers]
    cases decodeMember a k v with
    | none => rfl
    | some a1 => exact ih a1

theorem decodeMember_keeps_annotations (a a1 : Aux) (k : String) (v : Json)
    (h : decodeMember a k v = some a1) (hk : foldName k ≠ "annotations") :
    a1.Annotations = a.Annotations ∧ a1.annSpare = a.annSpare := by
  unfold decodeMember at h
  split at h
  · rename_i fld hf
    have hkey := fieldOfKey_some fld k hf
    cases fld with
    | time f =>
      simp only [decodeField, Option.map_eq_some'] at h
      obtain ⟨s, _, rfl⟩ := h
      cases f <;> exact ⟨rfl, rfl⟩
    | annotations => exact absurd hkey hk
    | id =>
      simp only [decodeField, Option.map_eq_some'] at h
      obtain ⟨s, _, rfl⟩ := h
      exact ⟨rfl, rfl⟩
    | str f =>
      simp only [decodeField, Option.map_eq_some'] at h
      obtain ⟨s, _, rfl⟩ := h
      exact ⟨rfl, rfl⟩
    | float f =>
      simp only [decodeField, Option.map_eq_some'] at h
      obtain ⟨s, _, rfl⟩ := h
      exact ⟨rfl, rfl⟩
    | tags =>
      simp only [decodeField, Option.map_eq_some'] at h
      obtain ⟨s, _, rfl⟩ := h
      exact ⟨rfl, rfl⟩
  · simp only [Option.some.injEq] at h
    subst h
    exact ⟨rfl, rfl⟩

theorem decodeMembers_keeps_annotations (kvs : List (String × Json)) (a a1 : Aux)
    (h : decodeMembers a kvs = some a1) (hk : ∀ kv ∈ kvs, foldName kv.1 ≠ "annotations") :
    a1.Annotations = a.Annotations ∧ a1.annSpare = a.annSpare := by
  induction kvs generalizing a with
  | nil =>
    simp only [decodeMembers, Option.some.injEq] at h
    subst h
    exact ⟨rfl, rfl⟩
  | cons kv rest ih =>
    obtain ⟨k, v⟩ := kv
    simp only [decodeMembers] at h
    split at h
    · cases h
    · rename_i a2 h2
      have h3 := decodeMember_keeps_annotations a a2 k v h2 (hk (k, v) (List.mem_cons_self _ _))
      have h4 := ih a2 h (fun kv hkv => hk kv (List.mem_cons_of_mem _ hkv))
      exact ⟨h4.1.trans h3.1, h4.2.trans h3.2⟩

theorem decodeAnnMembers_entry (m : List (String × Json)) (old r : AuxEntry)
    (h : decodeAnnMembers old m = some r) :
    r.Entry = pickLast "entry" readStr old.Entry m := by
  induction m generalizing old with
  | nil =>
    simp only [decodeAnnMembers, Option.some.injEq] at h
    subst h
    rfl
  | cons kv rest ih =>
    obtain ⟨k, v⟩ := kv
    simp only [decodeAnnMembers] at h
    simp only [pickLast, List.foldl_cons]
    by_cases hk : foldName k = "entry"
    · simp only [hk, if_true] at h ⊢
      split at h
      · cases h
      · rename_i s hs
        have := ih _ h
        rw [this, decodeString_eq _ _ _ hs]
        rfl
    · simp only [hk, if_false] at h ⊢
      exact ih _ h

theorem decodeAuxEntry_fresh (e : Json) (r : AuxEntry)
    (h : decodeAuxEntry ⟨""⟩ e = some r) : r = ⟨entryOf e⟩ := by
  cases e with
  | obj m =>
    simp only [decodeAuxEntry] at h
    have := decodeAnnMembers_entry m _ r h
    cases r
    simp only [AuxEntry.mk.injEq]
    exact this
  | null =>
    simp only [decodeAuxEntry, Option.some.injEq] at h
    subst h
    rfl
  | bool b => simp [decodeAuxEntry] at h
  | num n => simp [decodeAuxEntry] at h
  | str s => simp [decodeAuxEntry] at h
  | arr xs => simp [decodeAuxEntry] at h

theorem decodeElems_fresh (elems : List Json) (ys : List AuxEntry)
    (h : decodeElems decodeAuxEntry ⟨""⟩ [] elems = some ys) :
    ys = elems.map (fun e => (⟨entryOf e⟩ : AuxEntry)) := by
  induction elems generalizing ys with
  | nil =>
    simp only [decodeElems, Option.some.injEq] at h
    subst h
    rfl
  | cons e rest ih =>
    simp only [decodeElems, List.headD_nil, List.tail_nil] at h
    split at h
    · cases h
    · rename_i y hy
      split at h
      · cases h
      · rename_i ys2 hys
        simp only [Option.some.injEq] at h
        subst h
        rw [ih ys2 hys, decodeAuxEntry_fresh e y hy]
        rfl

/-- What `aux.Annotations` holds after `json.Unmarshal` of an object whose `annotations`
key occurs once, with an array: one element per array element, holding its `entry`. -/
theorem decodeMembers_annotations_once (pre post : List (String × Json)) (k : String)
    (elems : List Json) (aux : Aux) (hk : foldName k = "annotations")
    (hone : ∀ kv ∈ pre ++ post, foldName kv.1 ≠ "annotations")
    (h : decodeMembers (Aux.init Task.zero) (pre ++ (k, .arr elems) :: post) = some aux) :
    aux.Annotations = elems.map (fun e => (⟨entryOf e⟩ : AuxEntry)) := by
  rw [decodeMembers_append] at h
  simp only [Option.bind_eq_some] at h
  obtain ⟨a2, h2, h3⟩ := h
  simp only [decodeMembers] at h3
  split at h3
  · cases h3
  rename_i a3 hm
  have hpre := decodeMembers_keeps_annotations pre _ a2 h2
    (fun kv hkv => hone kv (List.mem_append_left _ hkv))
  have hpost := decodeMembers_keeps_annotations post a3 aux h3
    (fun kv hkv => hone kv (List.mem_append_right _ hkv))
  rw [hpost.1]
  unfold decodeMember at hm
  rw [fieldOfKey_key .annotations k hk] at hm
  simp only [decodeField, Option.map_eq_some'] at hm
  obtain ⟨r, hr, rfl⟩ := hm
  simp only
  rw [hpre.1, hpre.2] at hr
  cases elems with
  | nil =>
    simp only [decodeSlice, Option.some.injEq] at hr
    subst hr
    rfl
  | cons e rest =>
    simp only [decodeSlice] at hr
    split at hr
    · cases hr
    · rename_i ys hys
      simp only [Option.some.injEq] at hr
      subst hr
      exact decodeElems_fresh _ _ hys


/-! ## Claims about annotations -/

/-- C7: on the specification's example the one retained annotation is the second, with entry
2024-01-01 00:00:00 UTC, and its description is empty, not "y". -/
theorem retained_annotation_loses_description :
    decode sampleAnnotationsDoc
      = .ok { Task.zero with
              Annotations := [{ Entry := Date 2024 1 1 0 0 0 0, Description := "" }] }
    ∧ (Date 2024 1 1 0 0 0 0).civil = ⟨2024, 1, 1, 0, 0, 0⟩
    ∧ ({ Entry := Date 2024 1 1 0 0 0 0, Description := "" } : Annotation)
        ≠ { Entry := Date 2024 1 1 0 0 0 0, Description := "y" } := by
  decide

/-- C1: a Task whose one annotation carries an entry and the description "y" is encoded
without the description and decodes back to a Task that differs from it in that field. -/
theorem round_trip_loses_annotation_description :
    MarshalJSON sampleAnnotated = .ok sampleAnnotatedOut
    ∧ decode sampleAnnotatedOut
        = .ok { sampleAnnotated with
                Annotations := [{ Entry := Date 2024 1 1 0 0 0 0, Description := "" }] }
    ∧ decode sampleAnnotatedOut ≠ .ok sampleAnnotated :=
  ⟨rfl, by decide, by decide⟩


/-! ## Timestamp strings -/

theorem list_length16 (s : List Char) (h : s.length = 16) :
    ∃ c0 c1 c2 c3 c4 c5 c6 c7 c8 c9 c10 c11 c12 c13 c14 c15,
      s = [c0, c1, c2, c3, c4, c5, c6, c7, c8, c9, c10, c11, c12, c13, c14, c15] := by
  match s, h with
  | [c0, c1, c2, c3, c4, c5, c6, c7, c8, c9, c10, c11, c12, c13, c14, c15], _ =>
    exact ⟨c0, c1, c2, c3, c4, c5, c6, c7, c8, c9, c10, c11, c12, c13, c14, c15, rfl⟩

theorem two_digits_eq (a b : Nat) (_ha : a < 10) (hb : b < 10) :
    twoDigits ((0 * 10 + a) * 10 + b) = [digitChar a, digitChar b] := by
  have e1 : ((0 * 10 + a) * 10 + b) / 10 = a := by omega
  have e2 : ((0 * 10 + a) * 10 + b) % 10 = b := by omega
  simp only [twoDigits, e1, e2]

theorem four_digits_eq (a b c d : Nat) (_ha : a < 10) (hb : b < 10) (hc : c < 10)
    (hd : d < 10) :
    fourDigits ((((0 * 10 + a) * 10 + b) * 10 + c) * 10 + d)
      = [digitChar a, digitChar b, digitChar c, digitChar d] := by
  have e1 : ((((0 * 10 + a) * 10 + b) * 10 + c) * 10 + d) / 1000 = a := by omega
  have e2 : ((((0 * 10 + a) * 10 + b) * 10 + c) * 10 + d) / 100 % 10 = b := by omega
  have e3 : ((((0 * 10 + a) * 10 + b) * 10 + c) * 10 + d) / 10 % 10 = c := by omega
  have e4 : ((((0 * 10 + a) * 10 + b) * 10 + c) * 10 + d) % 10 = d := by omega
  simp only [fourDigits, e1, e2, e3, e4]

/-- A string in the 16-character grammar is the spelling of what is written in it. -/
theorem matchesGrammar_spell (s : List Char) (h : matchesGrammar s = true) :
    s = spell (readCivil s) := by
  simp only [matchesGrammar, Bool.and_eq_true, beq_iff_eq] at h
  obtain ⟨⟨⟨⟨hl, h8⟩, hT⟩, h6⟩, hZ⟩ := h
  obtain ⟨c0, c1, c2, c3, c4, c5, c6, c7, c8, c9, c10, c11, c12, c13, c14, c15, rfl⟩ :=
    list_length16 s hl
  simp only [List.take, List.drop, List.all_cons, List.all_nil, Bool.and_true,
    Bool.and_eq_true] at h8 h6
  simp only [List.get?, Option.some.injEq] at hT hZ
  obtain ⟨g0, g1, g2, g3, g4, g5, g6, g7⟩ := h8
  obtain ⟨g9, g10, g11, g12, g13, g14⟩ := h6
  obtain ⟨a0, ha0, rfl⟩ := isDigitChar_inv _ g0
  obtain ⟨a1, ha1, rfl⟩ := isDigitChar_inv _ g1
  obtain ⟨a2, ha2, rfl⟩ := isDigitChar_inv _ g2
  obtain ⟨a3, ha3, rfl⟩ := isDigitChar_inv _ g3
  obtain ⟨a4, ha4, rfl⟩ := isDigitChar_inv _ g4
  obtain ⟨a5, ha5, rfl⟩ := isDigitChar_inv _ g5
  obtain ⟨a6, ha6, rfl⟩ := isDigitChar_inv _ g6
  obtain ⟨a7, ha7, rfl⟩ := isDigitChar_inv _ g7
  obtain ⟨a9, ha9, rfl⟩ := isDigitChar_inv _ g9
  obtain ⟨a10, ha10, rfl⟩ := isDigitChar_inv _ g10
  obtain ⟨a11, ha11, rfl⟩ := isDigitChar_inv _ g11
  obtain ⟨a12, ha12, rfl⟩ := isDigitChar_inv _ g12
  obtain ⟨a13, ha13, rfl⟩ := isDigitChar_inv _ g13
  obtain ⟨a14, ha14, rfl⟩ := isDigitChar_inv _ g14
  subst hT hZ
  simp only [spell, spellBody, readCivil, numOf, List.take, List.drop, List.foldl,
    (digitChar_facts _ ha0).2, (digitChar_facts _ ha1).2, (digitChar_facts _ ha2).2,
    (digitChar_facts _ ha3).2, (digitChar_facts _ ha4).2, (digitChar_facts _ ha5).2,
    (digitChar_facts _ ha6).2, (digitChar_facts _ ha7).2, (digitChar_facts _ ha9).2,
    (digitChar_facts _ ha10).2, (digitChar_facts _ ha11).2, (digitChar_facts _ ha12).2,
    (digitChar_facts _ ha13).2, (digitChar_facts _ ha14).2, Int.toNat_ofNat]
  rw [four_digits_eq _ _ _ _ ha0 ha1 ha2 ha3, two_digits_eq _ _ ha4 ha5,
    two_digits_eq _ _ ha6 ha7, two_digits_eq _ _ ha9 ha10, two_digits_eq _ _ ha11 ha12,
    two_digits_eq _ _ ha13 ha14]
  rfl

/-- A timestamp string parses to the instant written in it. -/
theorem timeParse_validStamp (s : String) (h : validStamp s = true) :
    timeParse s = some (writtenInstant s) ∧ s ≠ ""
      ∧ (writtenInstant s).civil = readCivil s.data := by
  simp only [validStamp, Bool.and_eq_true] at h
  obtain ⟨hg, hv⟩ := h
  have hs := matchesGrammar_spell s.data hg
  refine ⟨?_, ?_, ?_⟩
  · have := parseChars_spell _ hv
    rw [← hs] at this
    exact this
  · intro e
    rw [e] at hg
    revert hg
    decide
  · exact civil_Date_valid _ 0 hv


/-! ## Fields of `aux` after `json.Unmarshal`, member by member -/

/-- A projection of `aux` that only the members naming `fld` change follows a fold over
those members. -/
theorem decodeMembers_fold {β : Type} (π : Aux → β) (fld : Field) (upd : β → Json → β)
    (good : Json → Prop)
    (hself : ∀ a a1 v, good v → decodeField a fld v = some a1 → π a1 = upd (π a) v)
    (hother : ∀ a a1 fld2 v, fld2 ≠ fld → decodeField a fld2 v = some a1 → π a1 = π a)
    (kvs : List (String × Json))
    (hgood : ∀ kv ∈ kvs, foldName kv.1 = fld.key → good kv.2)
    (a a1 : Aux) (h : decodeMembers a kvs = some a1) :
    π a1 = kvs.foldl (fun acc kv => if foldName kv.1 = fld.key then upd acc kv.2 else acc)
      (π a) := by
  induction kvs generalizing a with
  | nil =>
    simp only [decodeMembers, Option.some.injEq] at h
    subst h
    rfl
  | cons kv rest ih =>
    obtain ⟨k, v⟩ := kv
    simp only [decodeMembers] at h
    split at h
    · cases h
    · rename_i a2 h2
      rw [ih (fun kv hkv => hgood kv (List.mem_cons_of_mem _ hkv)) a2 h, List.foldl_cons]
      congr 1
      unfold decodeMember at h2
      split at h2
      · rename_i fld2 hf
        have hkey := fieldOfKey_some fld2 k hf
        by_cases hfld : fld2 = fld
        · subst hfld
          simp only [hkey, if_true]
          exact hself a a2 v (hgood (k, v) (List.mem_cons_self _ _) hkey) h2
        · have : ¬ foldName k = fld.key := by
            intro e
            have := fieldOfKey_key fld k e
            rw [hf] at this
            exact hfld (Option.some.inj this)
          simp only [this, if_false]
          exact hother a a2 fld2 v hfld h2
      · rename_i hf
        simp only [Option.some.injEq] at h2
        subst h2
        have : ¬ foldName k = fld.key := by
          intro e
          have := fieldOfKey_key fld k e
          rw [hf] at this
          cases this
        simp only [this, if_false]

/-- When the update does not look at the old value, the fold is the value of the last member
naming the field. -/
theorem fold_eq_lastMember {β : Type} (name : String) (upd : β → Json → β) (val : Json → β)
    (good : Json → Prop) (hval : ∀ acc v, good v → upd acc v = val v)
    (kvs : List (String × Json)) (hgood : ∀ kv ∈ kvs, foldName kv.1 = name → good kv.2)
    (zero : β) :
    kvs.foldl (fun acc kv => if foldName kv.1 = name then upd acc kv.2 else acc) zero
      = ((lastMember name kvs).map val).getD zero := by
  have gen : ∀ (kvs : List (String × Json)),
      (∀ kv ∈ kvs, foldName kv.1 = name → good kv.2) → ∀ (acc : β) (accm : Option Json),
      acc = (accm.map val).getD zero →
      kvs.foldl (fun acc kv => if foldName kv.1 = name then upd acc kv.2 else acc) acc
        = ((pickLast name (fun v => some (some v)) accm kvs).map val).getD zero := by
    intro kvs
    induction kvs with
    | nil => intro _ acc accm h; exact h
    | cons kv rest ih =>
      intro hg acc accm h
      simp only [List.foldl_cons, pickLast]
      by_cases hk : foldName kv.1 = name
      · simp only [hk, if_true, Option.getD_some]
        apply ih (fun kv hkv => hg kv (List.mem_cons_of_mem _ hkv))
        simp only [Option.map_some', Option.getD_some]
        exact hval acc kv.2 (hg kv (List.mem_cons_self _ _) hk)
      · simp only [hk, if_false]
        exact ih (fun kv hkv => hg kv (List.mem_cons_of_mem _ hkv)) acc accm h
  exact gen kvs hgood zero none rfl

theorem lastMember_none (name : String) (kvs : List (String × Json))
    (h : ∀ kv ∈ kvs, foldName kv.1 ≠ name) : lastMember name kvs = none := by
  unfold lastMember pickLast
  induction kvs with
  | nil => rfl
  | cons kv rest ih =>
    simp only [List.foldl_cons, h kv (List.mem_cons_self _ _), if_false]
    exact ih (fun kv hkv => h kv (List.mem_cons_of_mem _ hkv))


theorem decodeInt_eq (old : Int) (v : Json) (i : Int) (h : decodeInt old v = some i) :
    i = (readInt v).getD old := by
  cases v with
  | num n =>
    simp only [decodeInt, readInt] at h ⊢
    rw [h]; rfl
  | null =>
    simp only [decodeInt, Option.some.injEq] at h
    simp [readInt, h]
  | bool b => simp [decodeInt] at h
  | str s => simp [decodeInt] at h
  | arr xs => simp [decodeInt] at h
  | obj m => simp [decodeInt] at h

theorem decodeFloat_eq (old : Float64) (v : Json) (x : Float64)
    (h : decodeFloat old v = some x) : x = (readFloat v).getD old := by
  cases v with
  | num n =>
    simp only [decodeFloat, readFloat] at h ⊢
    rw [h]; rfl
  | null =>
    simp only [decodeFloat, Option.some.injEq] at h
    simp [readFloat, h]
  | bool b => simp [decodeFloat] at h
  | str s => simp [decodeFloat] at h
  | arr xs => simp [decodeFloat] at h
  | obj m => simp [decodeFloat] at h

theorem strField_get_set (f g : StrField) (t : Task) (s : String) :
    g.get (f.set t s) = if f = g then s else g.get t := by
  cases f <;> cases g <;> simp [StrField.get, StrField.set]

theorem floatField_get_set (f g : FloatField) (t : Task) (x : Float64) :
    g.get (f.set t x) = if f = g then x else g.get t := by
  cases f <;> cases g <;> simp [FloatField.get, FloatField.set]

/-- What one field decode does to the Task behind `Alias`. -/
theorem decodeField_alias (a a1 : Aux) (fld : Field) (v : Json)
    (h : decodeField a fld v = some a1) :
    match fld with
    | .time _ => a1.Alias = a.Alias
    | .annotations => a1.Alias = a.Alias
    | .id => a1.Alias = { a.Alias with ID := (readInt v).getD a.Alias.ID }
    | .str f => a1.Alias = f.set a.Alias ((readStr v).getD (f.get a.Alias))
    | .float f => a1.Alias = f.set a.Alias ((readFloat v).getD (f.get a.Alias))
    | .tags => ∃ tags, a1.Alias = { a.Alias with Tags := tags } := by
  cases fld with
  | time f =>
    simp only [decodeField, Option.map_eq_some'] at h
    obtain ⟨s, _, rfl⟩ := h
    cases f <;> rfl
  | annotations =>
    simp only [decodeField, Option.map_eq_some'] at h
    obtain ⟨s, _, rfl⟩ := h
    rfl
  | id =>
    simp only [decodeField, Option.map_eq_some'] at h
    obtain ⟨i, hi, rfl⟩ := h
    simp only [decodeInt_eq _ _ _ hi]
  | str f =>
    simp only [decodeField, Option.map_eq_some'] at h
    obtain ⟨s, hs, rfl⟩ := h
    simp only [decodeString_eq _ _ _ hs]
  | float f =>
    simp only [decodeField, Option.map_eq_some'] at h
    obtain ⟨x, hx, rfl⟩ := h
    simp only [decodeFloat_eq _ _ _ hx]
  | tags =>
    simp only [decodeField, Option.map_eq_some'] at h
    obtain ⟨r, _, rfl⟩ := h
    exact ⟨r.1, rfl⟩

theorem decodeMembers_str (kvs : List (String × Json)) (a a1 : Aux)
    (h : decodeMembers a kvs = some a1) (f : StrField) :
    f.get a1.Alias = kvs.foldl
      (fun acc kv => if foldName kv.1 = f.key then (readStr kv.2).getD acc else acc)
      (f.get a.Alias) := by
  apply decodeMembers_fold (fun a => f.get a.Alias) (.str f)
    (fun acc v => (readStr v).getD acc) (fun _ => True) _ _ kvs (fun _ _ _ => trivial) a a1 h
  · intro a a1 v _ hd
    have := decodeField_alias a a1 _ v hd
    simp only at this ⊢
    rw [this, strField_get_set]
    simp
  · intro a a1 fld2 v hne hd
    have := decodeField_alias a a1 fld2 v hd
    cases fld2 with
    | time g => simp only at this ⊢; rw [this]
    | annotations => simp only at this ⊢; rw [this]
    | id => simp only at this ⊢; rw [this]; cases f <;> rfl
    | str g =>
      simp only at this ⊢
      rw [this, strField_get_set]
      have : g ≠ f := fun e => hne (by rw [e])
      simp [this]
    | float g => simp only at this ⊢; rw [this]; cases f <;> cases g <;> rfl
    | tags =>
      simp only at this ⊢
      obtain ⟨tags, ht⟩ := this
      rw [ht]; cases f <;> rfl

theorem decodeMembers_float (kvs : List (String × Json)) (a a1 : Aux)
    (h : decodeMembers a kvs = some a1) (f : FloatField) :
    f.get a1.Alias = kvs.foldl
      (fun acc kv => if foldName kv.1 = f.key then (readFloat kv.2).getD acc else acc)
      (f.get a.Alias) := by
  apply decodeMembers_fold (fun a => f.get a.Alias) (.float f)
    (fun acc v => (readFloat v).getD acc) (fun _ => True) _ _ kvs (fun _ _ _ => trivial) a a1 h
  · intro a a1 v _ hd
    have := decodeField_alias a a1 _ v hd
    simp only at this ⊢
    rw [this, floatField_get_set]
    simp
  · intro a a1 fld2 v hne hd
    have := decodeField_alias a a1 fld2 v hd
    cases fld2 with
    | time g => simp only at this ⊢; rw [this]
    | annotations => simp only at this ⊢; rw [this]
    | id => simp only at this ⊢; rw [this]; cases f <;> rfl
    | str g => simp only at this ⊢; rw [this]; cases f <;> cases g <;> rfl
    | float g =>
      simp only at this ⊢
      rw [this, floatField_get_set]
      have : g ≠ f := fun e => hne (by rw [e])
      simp [this]
    | tags =>
      simp only at this ⊢
      obtain ⟨tags, ht⟩ := this
      rw [ht]; cases f <;> rfl

theorem decodeMembers_id (kvs : List (String × Json)) (a a1 : Aux)
    (h : decodeMembers a kvs = some a1) :
    a1.Alias.ID = kvs.foldl
      (fun acc kv => if foldName kv.1 = "id" then (readInt kv.2).getD acc else acc)
      a.Alias.ID := by
  apply decodeMembers_fold (fun a => a.Alias.ID) .id
    (fun acc v => (readInt v).getD acc) (fun _ => True) _ _ kvs (fun _ _ _ => trivial) a a1 h
  · intro a a1 v _ hd
    have := decodeField_alias a a1 _ v hd
    simp only at this ⊢
    rw [this]
  · intro a a1 fld2 v hne hd
    have := decodeField_alias a a1 fld2 v hd
    cases fld2 with
    | time g => simp only at this ⊢; rw [this]
    | annotations => simp only at this ⊢; rw [this]
    | id => exact absurd rfl hne
    | str g => simp only at this ⊢; rw [this]; cases g <;> rfl
    | float g => simp only at this ⊢; rw [this]; cases g <;> rfl
    | tags =>
      simp only at this ⊢
      obtain ⟨tags, ht⟩ := this
      rw [ht]


/-! ## Decoding a well-formed object succeeds -/

theorem decodeElems_strings (xs : List Json) (slots : List String)
    (hall : xs.all (fun e => (readStr e).isSome) = true) :
    decodeElems decodeString "" slots xs = some (xs.map (fun e => (readStr e).getD "")) := by
  induction xs generalizing slots with
  | nil => rfl
  | cons e rest ih =>
    simp only [List.all_cons, Bool.and_eq_true] at hall
    obtain ⟨he, hrest⟩ := hall
    cases e with
    | str s =>
      simp only [decodeElems, decodeString, ih slots.tail hrest, List.map_cons, readStr,
        Option.getD_some]
    | null => simp [readStr] at he
    | bool b => simp [readStr] at he
    | num n => simp [readStr] at he
    | arr ys => simp [readStr] at he
    | obj m => simp [readStr] at he

theorem decodeSlice_tags (vis spare : List String) (v : Json) (h : (readTags v).isSome = true) :
    ∃ r, decodeSlice decodeString "" vis spare v = some r ∧ r.1 = (readTags v).getD vis := by
  cases v with
  | arr xs =>
    simp only [readTags] at h ⊢
    by_cases hall : xs.all (fun e => (readStr e).isSome) = true
    · simp only [hall, if_true, Option.getD_some]
      cases xs with
      | nil => exact ⟨([], []), rfl, rfl⟩
      | cons e rest =>
        simp only [decodeSlice, decodeElems_strings _ _ hall]
        exact ⟨_, rfl, rfl⟩
    · simp [hall] at h
  | null => simp [readTags] at h
  | bool b => simp [readTags] at h
  | num n => simp [readTags] at h
  | str s => simp [readTags] at h
  | obj m => simp [readTags] at h

theorem decodeAnnMembers_ok (m : List (String × Json)) (old : AuxEntry)
    (hm : m.all wellTypedAnnMember = true) (hold : okEntry old.Entry) :
    ∃ r, decodeAnnMembers old m = some r ∧ okEntry r.Entry := by
  induction m generalizing old with
  | nil => exact ⟨old, rfl, hold⟩
  | cons kv rest ih =>
    obtain ⟨k, v⟩ := kv
    simp only [List.all_cons, Bool.and_eq_true] at hm
    obtain ⟨hkv, hrest⟩ := hm
    simp only [decodeAnnMembers]
    by_cases hk : foldName k = "entry"
    · simp only [hk, if_true]
      simp only [wellTypedAnnMember, hk, if_true] at hkv
      cases v with
      | str s =>
        simp only at hkv
        simp only [decodeString]
        exact ih ⟨s⟩ hrest (Or.inr hkv)
      | null => simp at hkv
      | bool b => simp at hkv
      | num n => simp at hkv
      | arr ys => simp at hkv
      | obj m2 => simp at hkv
    · simp only [hk, if_false]
      exact ih old hrest hold

theorem decodeElems_entries_ok (elems : List Json) (slots : List AuxEntry)
    (he : elems.all (fun e =>
        match e with
        | .obj m => m.all wellTypedAnnMember
        | _ => false) = true)
    (hs : ∀ x ∈ slots, okEntry x.Entry) :
    ∃ ys, decodeElems decodeAuxEntry ⟨""⟩ slots elems = some ys ∧ ∀ y ∈ ys, okEntry y.Entry := by
  induction elems generalizing slots with
  | nil => exact ⟨[], rfl, fun y hy => by cases hy⟩
  | cons e rest ih =>
    simp only [List.all_cons, Bool.and_eq_true] at he
    obtain ⟨he1, hrest⟩ := he
    have hhead : okEntry (slots.headD ⟨""⟩).Entry := by
      cases slots with
      | nil => exact Or.inl rfl
      | cons x xs => exact hs x (List.mem_cons_self _ _)
    have htail : ∀ x ∈ slots.tail, okEntry x.Entry := fun x hx => hs x (List.mem_of_mem_tail hx)
    cases e with
    | obj m =>
      simp only at he1
      obtain ⟨r, hr, hrok⟩ := decodeAnnMembers_ok m _ he1 hhead
      obtain ⟨ys, hys, hysok⟩ := ih slots.tail hrest htail
      refine ⟨r :: ys, ?_, ?_⟩
      · simp only [decodeElems, decodeAuxEntry, hr, hys]
      · intro y hy
        rcases List.mem_cons.1 hy with rfl | hy2
        · exact hrok
        · exact hysok y hy2
    | null => simp at he1
    | bool b => simp at he1
    | num n => simp at he1
    | str s => simp at he1
    | arr ys => simp at he1

/-- Decoding a well-typed value into a field succeeds, and every slot of `aux.Annotations`
keeps an `Entry` that is empty or a timestamp string. -/
theorem decodeField_wellTyped (a : Aux) (fld : Field) (v : Json)
    (hw : wellTyped fld v = true)
    (hinv : ∀ x ∈ a.Annotations ++ a.annSpare, okEntry x.Entry) :
    ∃ a1, decodeField a fld v = some a1
      ∧ ∀ x ∈ a1.Annotations ++ a1.annSpare, okEntry x.Entry := by
  cases fld with
  | time f =>
    cases v with
    | str s =>
      refine ⟨f.setRaw a s, rfl, ?_⟩
      cases f <;> exact hinv
    | null => simp [wellTyped] at hw
    | bool b => simp [wellTyped] at hw
    | num n => simp [wellTyped] at hw
    | arr ys => simp [wellTyped] at hw
    | obj m => simp [wellTyped] at hw
  | annotations =>
    cases v with
    | arr elems =>
      simp only [wellTyped] at hw
      cases elems with
      | nil =>
        refine ⟨{ a with Annotations := [], annSpare := [] }, rfl, ?_⟩
        intro x hx
        simp at hx
      | cons e rest =>
        obtain ⟨ys, hys, hysok⟩ := decodeElems_entries_ok (e :: rest) _ hw hinv
        refine ⟨{ a with Annotations := ys,
                         annSpare := (a.Annotations ++ a.annSpare).drop (e :: rest).length },
          ?_, ?_⟩
        · simp only [decodeField, decodeSlice, hys, Option.map_some']
        · intro x hx
          rcases List.mem_append.1 hx with h1 | h2
          · exact hysok x h1
          · exact hinv x (List.mem_of_mem_drop h2)
    | null => simp [wellTyped] at hw
    | bool b => simp [wellTyped] at hw
    | num n => simp [wellTyped] at hw
    | str s => simp [wellTyped] at hw
    | obj m => simp [wellTyped] at hw
  | id =>
    simp only [wellTyped] at hw
    cases v with
    | num n =>
      simp only [readInt] at hw
      cases hn : n.asInt with
      | none => simp [hn] at hw
      | some i =>
        simp only [hn] at hw
        by_cases hi : inInt64 i = true
        · have h1 : decodeField a .id (.num n)
              = some { a with Alias := { a.Alias with ID := i } } := by
            simp only [decodeField, decodeInt, hn, hi, if_true, Option.map_some']
          exact ⟨_, h1, hinv⟩
        · simp [hi] at hw
    | null => simp [readInt] at hw
    | bool b => simp [readInt] at hw
    | str s => simp [readInt] at hw
    | arr ys => simp [readInt] at hw
    | obj m => simp [readInt] at hw
  | str f =>
    simp only [wellTyped] at hw
    cases v with
    | str s =>
      have h1 : decodeField a (.str f) (.str s) = some { a with Alias := f.set a.Alias s } := by
        simp only [decodeField, decodeString, Option.map_some']
      exact ⟨_, h1, hinv⟩
    | null => simp [readStr] at hw
    | bool b => simp [readStr] at hw
    | num n => simp [readStr] at hw
    | arr ys => simp [readStr] at hw
    | obj m => simp [readStr] at hw
  | float f =>
    simp only [wellTyped] at hw
    cases v with
    | num n =>
      simp only [readFloat] at hw
      cases hn : n.asFloat with
      | none => simp [hn] at hw
      | some x =>
        simp only [hn] at hw
        by_cases hi : x.isFinite = true
        · have h1 : decodeField a (.float f) (.num n)
              = some { a with Alias := f.set a.Alias x } := by
            simp only [decodeField, decodeFloat, hn, hi, if_true, Option.map_some']
          exact ⟨_, h1, hinv⟩
        · simp [hi] at hw
    | null => simp [readFloat] at hw
    | bool b => simp [readFloat] at hw
    | str s => simp [readFloat] at hw
    | arr ys => simp [readFloat] at hw
    | obj m => simp [readFloat] at hw
  | tags =>
    simp only [wellTyped] at hw
    obtain ⟨r, hr, _⟩ := decodeSlice_tags a.Alias.Tags a.tagsSpare v hw
    have h1 : decodeField a .tags v
        = some { a with Alias := { a.Alias with Tags := r.1 }, tagsSpare := r.2 } := by
      simp only [decodeField, hr, Option.map_some']
    exact ⟨_, h1, hinv⟩

theorem decodeMembers_wellFormed (kvs : List (String × Json)) (a : Aux)
    (hwf : wellFormed kvs = true)
    (hinv : ∀ x ∈ a.Annotations ++ a.annSpare, okEntry x.Entry) :
    ∃ a1, decodeMembers a kvs = some a1
      ∧ ∀ x ∈ a1.Annotations ++ a1.annSpare, okEntry x.Entry := by
  induction kvs generalizing a with
  | nil => exact ⟨a, rfl, hinv⟩
  | cons kv rest ih =>
    obtain ⟨k, v⟩ := kv
    simp only [wellFormed, List.all_cons, Bool.and_eq_true] at hwf
    obtain ⟨hkv, hrest⟩ := hwf
    have hstep : ∃ a2, decodeMember a k v = some a2
        ∧ ∀ x ∈ a2.Annotations ++ a2.annSpare, okEntry x.Entry := by
      unfold decodeMember
      cases hf : fieldOfKey k with
      | none => exact ⟨a, rfl, hinv⟩
      | some fld =>
        simp only [hf] at hkv
        exact decodeField_wellTyped a fld v hkv hinv
    obtain ⟨a2, h2, hinv2⟩ := hstep
    obtain ⟨a1, h1, hinv1⟩ := ih a2 hrest hinv2
    exact ⟨a1, by simp only [decodeMembers, h2, h1], hinv1⟩


/-! ## The decoded Task of a well-formed object -/

theorem decodeMembers_tags (kvs : List (String × Json)) (a a1 : Aux)
    (h : decodeMembers a kvs = some a1)
    (hgood : ∀ kv ∈ kvs, foldName kv.1 = "tags" → (readTags kv.2).isSome = true) :
    a1.Alias.Tags = kvs.foldl
      (fun acc kv => if foldName kv.1 = "tags" then (readTags kv.2).getD acc else acc)
      a.Alias.Tags := by
  apply decodeMembers_fold (fun a => a.Alias.Tags) .tags
    (fun acc v => (readTags v).getD acc) (fun v => (readTags v).isSome = true) _ _ kvs hgood a a1 h
  · intro a a1 v hg hd
    obtain ⟨r, hr, hr1⟩ := decodeSlice_tags a.Alias.Tags a.tagsSpare v hg
    simp only [decodeField, hr, Option.map_some', Option.some.injEq] at hd
    subst hd
    exact hr1
  · intro a a1 fld2 v hne hd
    have := decodeField_alias a a1 fld2 v hd
    cases fld2 with
    | time g => simp only at this ⊢; rw [this]
    | annotations => simp only at this ⊢; rw [this]
    | id => simp only at this ⊢; rw [this]
    | str g => simp only at this ⊢; rw [this]; cases g <;> rfl
    | float g => simp only at this ⊢; rw [this]; cases g <;> rfl
    | tags => exact absurd rfl hne

theorem pickLast_mem (name : String) (kvs : List (String × Json)) (accm : Option Json)
    (v : Json) (h : pickLast name (fun v => some (some v)) accm kvs = some v) :
    accm = some v ∨ ∃ k, (k, v) ∈ kvs ∧ foldName k = name := by
  induction kvs generalizing accm with
  | nil => exact Or.inl h
  | cons kv rest ih =>
    simp only [pickLast, List.foldl_cons] at h
    by_cases hk : foldName kv.1 = name
    · simp only [hk, if_true, Option.getD_some] at h
      rcases ih _ h with h1 | ⟨k, hk1, hk2⟩
      · right
        refine ⟨kv.1, ?_, hk⟩
        have : kv.2 = v := Option.some.inj h1
        rw [← this]
        exact List.mem_cons_self _ _
      · exact Or.inr ⟨k, List.mem_cons_of_mem _ hk1, hk2⟩
    · simp only [hk, if_false] at h
      rcases ih _ h with h1 | ⟨k, hk1, hk2⟩
      · exact Or.inl h1
      · exact Or.inr ⟨k, List.mem_cons_of_mem _ hk1, hk2⟩

theorem lastMember_mem (name : String) (kvs : List (String × Json)) (v : Json)
    (h : lastMember name kvs = some v) : ∃ k, (k, v) ∈ kvs ∧ foldName k = name := by
  rcases pickLast_mem name kvs none v h with h1 | h2
  · cases h1
  · exact h2

theorem wellFormed_member (kvs : List (String × Json)) (hwf : wellFormed kvs = true)
    (fld : Field) (k : String) (v : Json) (hm : (k, v) ∈ kvs) (hk : foldName k = fld.key) :
    wellTyped fld v = true := by
  simp only [wellFormed, List.all_eq_true] at hwf
  have := hwf (k, v) hm
  simp only [fieldOfKey_key fld k hk] at this
  exact this

theorem parseInto_okEntry (s : String) (old : Time) (h : okEntry s) :
    parseInto s old = some (if s = "" then old else writtenInstant s) := by
  rcases h with rfl | hv
  · rfl
  · obtain ⟨hp, hne, _⟩ := timeParse_validStamp s hv
    rw [parseInto_ne _ _ hne, hp]
    simp [hne]

theorem parseTimes_okEntry (aux : Aux) (t : Task) (h : ∀ f : TimeField, okEntry (f.raw aux)) :
    ∃ t1, parseTimes aux t = some t1 := by
  have h1 := fun old => parseInto_okEntry aux.Due old (h .Due)
  have h2 := fun old => parseInto_okEntry aux.Entry old (h .Entry)
  have h3 := fun old => parseInto_okEntry aux.Modified old (h .Modified)
  have h4 := fun old => parseInto_okEntry aux.Reviewed old (h .Reviewed)
  have h5 := fun old => parseInto_okEntry aux.Until old (h .Until)
  have h6 := fun old => parseInto_okEntry aux.Wait old (h .Wait)
  simp only [parseTimes, h1, h2, h3, h4, h5, h6, Option.bind_eq_bind, Option.some_bind]
  exact ⟨_, rfl⟩

theorem appendAnnotations_okEntry (xs : List AuxEntry) (acc : List Annotation)
    (h : ∀ x ∈ xs, okEntry x.Entry) : ∃ anns, appendAnnotations acc xs = some anns := by
  induction xs generalizing acc with
  | nil => exact ⟨acc, rfl⟩
  | cons x rest ih =>
    have hrest : ∀ y ∈ rest, okEntry y.Entry := fun y hy => h y (List.mem_cons_of_mem _ hy)
    simp only [appendAnnotations]
    by_cases hx : x.Entry.length > 0
    · simp only [hx, if_true]
      rcases h x (List.mem_cons_self _ _) with he | hv
      · rw [he] at hx; simp at hx
      · rw [(timeParse_validStamp _ hv).1]
        exact ih _ hrest
    · simp only [hx, if_false]
      exact ih _ hrest

/-- A well-formed object within the nesting limit decodes into a fresh Task. -/
theorem decode_wellFormed_ok (kvs : List (String × Json)) (hwf : wellFormed kvs = true)
    (hv : checkValid (.obj kvs) = true) :
    ∃ d, decode (.obj kvs) = .ok d := by
  obtain ⟨aux, hm, hinv⟩ := decodeMembers_wellFormed kvs (Aux.init Task.zero) hwf
    (fun x hx => by simp [Aux.init] at hx)
  have hraw : ∀ f : TimeField, okEntry (f.raw aux) := by
    intro f
    rw [decodeMembers_raw kvs _ aux hm f]
    have hz : f.raw (Aux.init Task.zero) = "" := by cases f <;> rfl
    rw [hz]
    have hfold := fold_eq_lastMember f.key (fun acc v => (readStr v).getD acc)
      (fun v => (readStr v).getD "") (fun v => (readStr v).isSome = true)
      (fun acc v hv => by
        obtain ⟨s, hs⟩ := Option.isSome_iff_exists.1 hv
        simp [hs])
      kvs (fun kv hkv hk => by
        have := wellFormed_member kvs hwf (.time f) kv.1 kv.2 hkv hk
        cases hv : kv.2 <;> simp [wellTyped, hv, readStr] at this ⊢) ""
    unfold pickLast
    rw [hfold]
    cases hl : lastMember f.key kvs with
    | none => exact Or.inl rfl
    | some v =>
      obtain ⟨k, hk1, hk2⟩ := lastMember_mem _ _ _ hl
      have := wellFormed_member kvs hwf (.time f) k v hk1 hk2
      cases v with
      | str s =>
        simp only [wellTyped] at this
        exact Or.inr this
      | null => simp [wellTyped] at this
      | bool b => simp [wellTyped] at this
      | num n => simp [wellTyped] at this
      | arr ys => simp [wellTyped] at this
      | obj m => simp [wellTyped] at this
  obtain ⟨t1, ht1⟩ := parseTimes_okEntry aux aux.Alias hraw
  obtain ⟨anns, hanns⟩ := appendAnnotations_okEntry aux.Annotations t1.Annotations
    (fun x hx => hinv x (List.mem_append_left _ hx))
  refine ⟨{ t1 with Annotations := anns }, ?_⟩
  simp only [decode, UnmarshalJSON_obj_valid _ kvs hv, hm, ht1, hanns]


theorem fold_read {β : Type} (name : String) (read : Json → Option β)
    (kvs : List (String × Json))
    (hgood : ∀ kv ∈ kvs, foldName kv.1 = name → (read kv.2).isSome = true) (zero : β) :
    kvs.foldl (fun acc kv => if foldName kv.1 = name then (read kv.2).getD acc else acc) zero
      = ((lastMember name kvs).bind read).getD zero := by
  rw [fold_eq_lastMember name (fun acc v => (read v).getD acc) (fun v => (read v).getD zero)
    (fun v => (read v).isSome = true) (fun acc v hv => by
      obtain ⟨s, hs⟩ := Option.isSome_iff_exists.1 hv
      simp [hs]) kvs hgood zero]
  cases hl : lastMember name kvs with
  | none => rfl
  | some v =>
    obtain ⟨k, hk1, hk2⟩ := lastMember_mem _ _ _ hl
    obtain ⟨s, hs⟩ := Option.isSome_iff_exists.1 (hgood (k, v) hk1 hk2)
    simp [hs]

/-- Under a temporal key a well-formed object has no member, or a last member that is a
timestamp string. -/
theorem lastMember_time (kvs : List (String × Json)) (hwf : wellFormed kvs = true)
    (f : TimeField) :
    lastMember f.key kvs = none
      ∨ ∃ s, lastMember f.key kvs = some (.str s) ∧ validStamp s = true := by
  cases hl : lastMember f.key kvs with
  | none => exact Or.inl rfl
  | some v =>
    obtain ⟨k, hk1, hk2⟩ := lastMember_mem _ _ _ hl
    have := wellFormed_member kvs hwf (.time f) k v hk1 hk2
    cases v with
    | str s =>
      simp only [wellTyped] at this
      exact Or.inr ⟨s, rfl, this⟩
    | null => simp [wellTyped] at this
    | bool b => simp [wellTyped] at this
    | num n => simp [wellTyped] at this
    | arr ys => simp [wellTyped] at this
    | obj m => simp [wellTyped] at this

theorem heldString_wellFormed (kvs : List (String × Json)) (hwf : wellFormed kvs = true)
    (f : TimeField) :
    heldString f.key kvs = ((lastMember f.key kvs).bind readStr).getD "" := by
  unfold heldString pickLast
  apply fold_read
  intro kv hkv hk
  have := wellFormed_member kvs hwf (.time f) kv.1 kv.2 hkv hk
  cases hv : kv.2 <;> simp [wellTyped, hv, readStr] at this ⊢

/-- C5 as stated fails: the object `{"DUE":"20240101T000000Z"}` has none of the six temporal
keys, and decoding it sets `Due`, because keys are matched ignoring case. -/
theorem absent_key_other_case_sets_field :
    (∀ kv ∈ sampleUpperDue,
        kv.1 ∉ ["due", "entry", "modified", "reviewed", "until", "wait"])
    ∧ ∃ d, decode (.obj sampleUpperDue) = .ok d ∧ d.Due ≠ Time.zero :=
  ⟨by decide, { Task.zero with Due := Date 2024 1 1 0 0 0 0 }, by decide, by decide⟩

/-- The Task a well-formed object decodes to, field by field. -/
theorem decode_wellFormed_values (kvs : List (String × Json)) (hwf : wellFormed kvs = true)
    (hv : checkValid (.obj kvs) = true) :
    ∃ d, decode (.obj kvs) = .ok d
      ∧ (∀ f : TimeField, f.get d = ((lastMember f.key kvs).map timeOf).getD Time.zero)
      ∧ (∀ f : TimeField, ∀ s, lastMember f.key kvs = some (.str s) →
          (f.get d).civil = readCivil s.data ∧ (f.get d).nsec = 0 ∧ (f.get d).offset = 0)
      ∧ (∀ f : StrField, f.get d = ((lastMember f.key kvs).bind readStr).getD "")
      ∧ d.ID = ((lastMember "id" kvs).bind readInt).getD 0
      ∧ (∀ f : FloatField, f.get d = ((lastMember f.key kvs).bind readFloat).getD Float64.zero)
      ∧ d.Tags = ((lastMember "tags" kvs).bind readTags).getD []
      ∧ (∀ name, (∀ kv ∈ kvs, foldName kv.1 ≠ name) → lastMember name kvs = none) := by
  obtain ⟨d, hd⟩ := decode_wellFormed_ok kvs hwf hv
  have htime : ∀ f : TimeField,
      f.get d = ((lastMember f.key kvs).map timeOf).getD Time.zero := by
    intro f
    have h1 := UnmarshalJSON_time_field Task.zero d kvs hd f
    rw [heldString_wellFormed kvs hwf f] at h1
    have hz : f.get Task.zero = Time.zero := by cases f <;> rfl
    rcases lastMember_time kvs hwf f with hn | ⟨s, hs, hv⟩
    · rw [hn] at h1 ⊢
      simp only [Option.none_bind, Option.getD_none, parseInto_empty, hz,
        Option.some.injEq] at h1
      simp only [Option.map_none', Option.getD_none]
      exact h1.symm
    · rw [hs] at h1 ⊢
      simp only [Option.some_bind, readStr, Option.getD_some] at h1
      rw [parseInto_okEntry _ _ (Or.inr hv)] at h1
      simp only [(timeParse_validStamp s hv).2.1, if_false, Option.some.injEq] at h1
      simp only [Option.map_some', Option.getD_some, timeOf]
      exact h1.symm
  obtain ⟨aux, t1, anns, hm, hp, _, hdeq⟩ := UnmarshalJSON_obj_ok Task.zero d kvs hd
  have ht1 := (parseTimes_some aux aux.Alias t1 hp).2
  refine ⟨d, hd, htime, ?_, ?_, ?_, ?_, ?_, fun name h => lastMember_none name kvs h⟩
  · intro f s hs
    rw [htime f, hs]
    simp only [Option.map_some', Option.getD_some, timeOf]
    rcases lastMember_time kvs hwf f with hn | ⟨s2, hs2, hv⟩
    · rw [hn] at hs; cases hs
    · rw [hs2] at hs
      have : s2 = s := by
        have := Option.some.inj hs
        injection this
      subst this
      exact ⟨(timeParse_validStamp s2 hv).2.2, rfl, rfl⟩
  · intro f
    have hf : f.get d = f.get aux.Alias := by
      rw [hdeq, ht1]; cases f <;> rfl
    rw [hf, decodeMembers_str kvs _ aux hm f]
    have hz : f.get (Aux.init Task.zero).Alias = "" := by cases f <;> rfl
    rw [hz]
    apply fold_read
    intro kv hkv hk
    exact wellFormed_member kvs hwf (.str f) kv.1 kv.2 hkv hk
  · have hf : d.ID = aux.Alias.ID := by rw [hdeq, ht1]
    rw [hf, decodeMembers_id kvs _ aux hm]
    apply fold_read
    intro kv hkv hk
    exact wellFormed_member kvs hwf .id kv.1 kv.2 hkv hk
  · intro f
    have hf : f.get d = f.get aux.Alias := by
      rw [hdeq, ht1]; cases f <;> rfl
    rw [hf, decodeMembers_float kvs _ aux hm f]
    have hz : f.get (Aux.init Task.zero).Alias = Float64.zero := by cases f <;> rfl
    rw [hz]
    apply fold_read
    intro kv hkv hk
    exact wellFormed_member kvs hwf (.float f) kv.1 kv.2 hkv hk
  · have hf : d.Tags = aux.Alias.Tags := by rw [hdeq, ht1]
    have hg : ∀ kv ∈ kvs, foldName kv.1 = "tags" → (readTags kv.2).isSome = true := by
      intro kv hkv hk
      exact wellFormed_member kvs hwf .tags kv.1 kv.2 hkv hk
    rw [hf, decodeMembers_tags kvs _ aux hm hg]
    exact fold_read "tags" readTags kvs hg []

/-- C5 (amended). For every JSON object nested no deeper than the decoder's limit of 10000
levels in which every member whose key names a field, ignoring case, is well typed for it (a string for a string field, an integer literal in range
for id, a number literal in range for imask and urgency, an array of strings for tags, an
array of objects with timestamp entries for annotations, and for a temporal key a string in
the grammar `YYYYMMDDThhmmssZ` denoting a real date and time), decoding into a fresh Task
succeeds, and each non-annotation field is the zero value when no member names it, ignoring
case, and otherwise the value of the last member naming it: for a temporal key the UTC
instant with exactly the written year, month, day, hour, minute and second. -/
theorem decode_wellFormed (kvs : List (String × Json)) (hwf : wellFormed kvs = true)
    (hv : checkValid (.obj kvs) = true) :
    ∃ d, decode (.obj kvs) = .ok d
      ∧ (∀ f : TimeField, f.get d = ((lastMember f.key kvs).map timeOf).getD Time.zero)
      ∧ (∀ f : TimeField, ∀ s, lastMember f.key kvs = some (.str s) →
          (f.get d).civil = readCivil s.data ∧ (f.get d).nsec = 0 ∧ (f.get d).offset = 0)
      ∧ (∀ f : StrField, f.get d = ((lastMember f.key kvs).bind readStr).getD "")
      ∧ d.ID = ((lastMember "id" kvs).bind readInt).getD 0
      ∧ (∀ f : FloatField, f.get d = ((lastMember f.key kvs).bind readFloat).getD Float64.zero)
      ∧ d.Tags = ((lastMember "tags" kvs).bind readTags).getD []
      ∧ (∀ name, (∀ kv ∈ kvs, foldName kv.1 ≠ name) → lastMember name kvs = none) :=
  decode_wellFormed_values kvs hwf hv

theorem decode_wellFormed_witness :
    wellFormed sampleWellFormed = true
    ∧ checkValid (.obj sampleWellFormed) = true
    ∧ ∃ d, decode (.obj sampleWellFormed) = .ok d
      ∧ (∀ f : TimeField, f.get d = ((lastMember f.key sampleWellFormed).map timeOf).getD Time.zero)
      ∧ (∀ f : StrField, f.get d = ((lastMember f.key sampleWellFormed).bind readStr).getD "") :=
  ⟨by decide, by decide,
    (decode_wellFormed sampleWellFormed (by decide) (by decide)).imp
      (fun _ h => ⟨h.1, h.2.1, h.2.2.2.1⟩)⟩


/-! ## When `MarshalJSON` succeeds -/

theorem Float64.isFinite_of_isZero (f : Float64) (h : f.isZero = true) : f.isFinite = true := by
  cases f <;> simp [Float64.isZero, Float64.isFinite] at h ⊢

theorem encFloat_isSome (key : String) (f : Float64) :
    (encFloat key f).isSome = f.isFinite := by
  unfold encFloat
  by_cases hz : f.isZero = true
  · simp [hz, Float64.isFinite_of_isZero f hz]
  · by_cases hf : f.isFinite = true
    · simp [hz, hf]
    · simp [hz, hf]

/-- `MarshalJSON` writes an object when both floats are finite, and returns the
`UnsupportedValueError` otherwise; it never panics. -/
theorem MarshalJSON_cases (t : Task) :
    (t.Imask.isFinite = true ∧ t.Urgency.isFinite = true ∧ ∃ kvs, MarshalJSON t = .ok (.obj kvs))
    ∨ ((t.Imask.isFinite = false ∨ t.Urgency.isFinite = false)
        ∧ MarshalJSON t = .error .unsupportedValue) := by
  have h1 := encFloat_isSome "imask" t.Imask
  have h2 := encFloat_isSome "urgency" t.Urgency
  unfold MarshalJSON
  cases hi : encFloat "imask" t.Imask with
  | none =>
    rw [hi] at h1
    right
    exact ⟨Or.inl (by simpa using h1.symm), rfl⟩
  | some imask =>
    rw [hi] at h1
    cases hu : encFloat "urgency" t.Urgency with
    | none =>
      rw [hu] at h2
      right
      exact ⟨Or.inr (by simpa using h2.symm), rfl⟩
    | some urgency =>
      rw [hu] at h2
      left
      exact ⟨by simpa using h1.symm, by simpa using h2.symm, _, rfl⟩

theorem fold_readFloat_finite (name : String) (kvs : List (String × Json)) (z : Float64)
    (hz : z.isFinite = true) :
    (kvs.foldl (fun acc kv => if foldName kv.1 = name then (readFloat kv.2).getD acc else acc)
      z).isFinite = true := by
  induction kvs generalizing z with
  | nil => exact hz
  | cons kv rest ih =>
    simp only [List.foldl_cons]
    apply ih
    split
    · cases hr : readFloat kv.2 with
      | none => exact hz
      | some x =>
        simp only [Option.getD_some]
        cases hv : kv.2 with
        | num n =>
          rw [hv] at hr
          simp only [readFloat] at hr
          split at hr
          · rename_i f hf
            split at hr
            · rename_i hfin
              cases hr
              exact hfin
            · cases hr
          · cases hr
        | null => rw [hv] at hr; simp [readFloat] at hr
        | bool b => rw [hv] at hr; simp [readFloat] at hr
        | str s => rw [hv] at hr; simp [readFloat] at hr
        | arr ys => rw [hv] at hr; simp [readFloat] at hr
        | obj m => rw [hv] at hr; simp [readFloat] at hr
    · exact hz

/-- The scalar fields of the Task a successful `UnmarshalJSON` leaves are those of the
Task behind `aux.Alias`. -/
theorem UnmarshalJSON_obj_alias (t d : Task) (kvs : List (String × Json))
    (h : UnmarshalJSON t (.obj kvs) = .ok d) :
    ∃ aux, decodeMembers (Aux.init t) kvs = some aux
      ∧ d.ID = aux.Alias.ID ∧ d.Tags = aux.Alias.Tags
      ∧ (∀ f : StrField, f.get d = f.get aux.Alias)
      ∧ (∀ f : FloatField, f.get d = f.get aux.Alias) := by
  obtain ⟨aux, t1, anns, hm, hp, _, hdeq⟩ := UnmarshalJSON_obj_ok t d kvs h
  have ht1 := (parseTimes_some aux aux.Alias t1 hp).2
  refine ⟨aux, hm, ?_, ?_, ?_, ?_⟩
  · rw [hdeq, ht1]
  · rw [hdeq, ht1]
  · intro f; rw [hdeq, ht1]; cases f <;> rfl
  · intro f; rw [hdeq, ht1]; cases f <;> rfl

/-- Decoding keeps the floats finite. -/
theorem UnmarshalJSON_finite (t d : Task) (x : Json) (h : UnmarshalJSON t x = .ok d)
    (f : FloatField) (ht : (f.get t).isFinite = true) : (f.get d).isFinite = true := by
  obtain ⟨kvs, rfl⟩ := UnmarshalJSON_not_obj t d x h
  obtain ⟨aux, hm, _, _, _, hf⟩ := UnmarshalJSON_obj_alias t d kvs h
  rw [hf f, decodeMembers_float kvs _ aux hm f]
  exact fold_readFloat_finite _ _ _ ht

theorem decode_marshal_ok (x : Json) (d : Task) (h : decode x = .ok d) :
    ∃ kvs, MarshalJSON d = .ok (.obj kvs) := by
  have h1 := UnmarshalJSON_finite Task.zero d x h .Imask rfl
  have h2 := UnmarshalJSON_finite Task.zero d x h .Urgency rfl
  simp only [FloatField.get] at h1 h2
  rcases MarshalJSON_cases d with ⟨_, _, hk⟩ | ⟨hbad, _⟩
  · exact hk
  · rcases hbad with hb | hb
    · rw [h1] at hb; cases hb
    · rw [h2] at hb; cases hb

/-- C14 (encode fails only on non-finite floats). For every Task whose imask and urgency are
finite, `MarshalJSON` succeeds and returns a single JSON object; it returns an error exactly
when imask or urgency is NaN or an infinity, and never panics; in particular it succeeds on
every Task produced by a successful decode into a fresh Task. -/
theorem marshal_fails_only_on_nonfinite :
    (∀ t : Task, t.Imask.isFinite = true → t.Urgency.isFinite = true →
      ∃ kvs, MarshalJSON t = .ok (.obj kvs))
    ∧ (∀ t : Task, (∃ e, MarshalJSON t = .error e)
        ↔ (t.Imask.isFinite = false ∨ t.Urgency.isFinite = false))
    ∧ (∀ t : Task, MarshalJSON t ≠ .panic)
    ∧ (∀ (x : Json) (d : Task), decode x = .ok d → ∃ kvs, MarshalJSON d = .ok (.obj kvs)) := by
  refine ⟨?_, ?_, ?_, decode_marshal_ok⟩
  · intro t h1 h2
    rcases MarshalJSON_cases t with ⟨_, _, hk⟩ | ⟨hbad, _⟩
    · exact hk
    · rcases hbad with hb | hb
      · rw [h1] at hb; cases hb
      · rw [h2] at hb; cases hb
  · intro t
    rcases MarshalJSON_cases t with ⟨h1, h2, kvs, hk⟩ | ⟨hbad, he⟩
    · constructor
      · rintro ⟨e, he⟩
        rw [hk] at he
        cases he
      · rintro (hb | hb)
        · rw [h1] at hb; cases hb
        · rw [h2] at hb; cases hb
    · exact ⟨fun _ => hbad, fun _ => ⟨_, he⟩⟩
  · intro t
    rcases MarshalJSON_cases t with ⟨_, _, kvs, hk⟩ | ⟨_, he⟩
    · rw [hk]; intro c; cases c
    · rw [he]; intro c; cases c

theorem marshal_fails_only_on_nonfinite_witness :
    (sampleModified.Imask.isFinite = true ∧ sampleModified.Urgency.isFinite = true
      ∧ ∃ kvs, MarshalJSON sampleModified = .ok (.obj kvs))
    ∧ (sampleNaN.Urgency.isFinite = false ∧ ∃ e, MarshalJSON sampleNaN = .error e) :=
  ⟨⟨by decide, by decide,
      marshal_fails_only_on_nonfinite.1 sampleModified (by decide) (by decide)⟩,
    by decide, (marshal_fails_only_on_nonfinite.2.1 sampleNaN).2 (Or.inr (by decide))⟩


/-! ## The program `main` -/

theorem jsonUnmarshalTask_ok (line : Line) (t : Task) (h : jsonUnmarshalTask line = .ok t) :
    ∃ x, line = some x ∧ decode x = .ok t := by
  cases line with
  | none => simp [jsonUnmarshalTask] at h
  | some x => exact ⟨x, rfl, h⟩

/-- The run of `main` when both lines decode. -/
theorem main_both_decoded (line1 line2 : Line) (rest : List Line)
    (originalTask modifiedTask : Task)
    (h1 : jsonUnmarshalTask line1 = .ok originalTask)
    (h2 : jsonUnmarshalTask line2 = .ok modifiedTask) :
    ∃ kvs, MarshalJSON modifiedTask = .ok (.obj kvs)
      ∧ main (line1 :: line2 :: rest)
        = ⟨[.document (.obj kvs)] ++
            (if archiveWorthy originalTask modifiedTask then
              [.archived originalTask.Status modifiedTask.Status]
            else []),
            .exit 0⟩ := by
  obtain ⟨x, _, hx⟩ := jsonUnmarshalTask_ok line2 modifiedTask h2
  obtain ⟨kvs, hk⟩ := decode_marshal_ok x modifiedTask hx
  refine ⟨kvs, hk, ?_⟩
  simp only [main, mustParseTask, h1, h2, hk]

theorem archiveWorthy_iff (originalTask modifiedTask : Task) :
    archiveWorthy originalTask modifiedTask = true
      ↔ (originalTask.Status = "pending"
          ∧ (modifiedTask.Status = "completed" ∨ modifiedTask.Status = "deleted")) := by
  simp [archiveWorthy]

theorem decode_any_status (s : String) :
    jsonUnmarshalTask (some (.obj [("status", .str s)])) = .ok { Task.zero with Status := s } := by
  have hk : fieldOfKey "status" = some (.str .Status) := by decide
  have h1 : decodeMembers (Aux.init Task.zero) [("status", .str s)]
      = some { Aux.init Task.zero with Alias := { Task.zero with Status := s } } := by
    simp only [decodeMembers, decodeMember, hk, decodeField, decodeString, Option.map_some']
    rfl
  simp only [jsonUnmarshalTask, UnmarshalJSON, unmarshalAux, h1, Option.map_some']
  rfl

/-- C13 (archive-worthy transition). For every pair of input lines that decode, the program
prints the `Task archived` notice if and only if the original's status is exactly "pending"
and the modified's status is exactly "completed" or "deleted"; the notice follows the encoded
document and the program exits with status 0; and every string decodes as a status, none is
validated or restricted. -/
theorem archive_notice_iff (line1 line2 : Line) (rest : List Line)
    (originalTask modifiedTask : Task)
    (h1 : jsonUnmarshalTask line1 = .ok originalTask)
    (h2 : jsonUnmarshalTask line2 = .ok modifiedTask) :
    ((main (line1 :: line2 :: rest)).printedArchived = true
      ↔ (originalTask.Status = "pending"
          ∧ (modifiedTask.Status = "completed" ∨ modifiedTask.Status = "deleted")))
    ∧ ((main (line1 :: line2 :: rest)).printedArchived = true →
        ∃ out, MarshalJSON modifiedTask = .ok out
          ∧ (main (line1 :: line2 :: rest)).stdout
              = [.document out, .archived originalTask.Status modifiedTask.Status])
    ∧ (main (line1 :: line2 :: rest)).term = .exit 0
    ∧ (∀ s : String,
        jsonUnmarshalTask (some (.obj [("status", .str s)]))
          = .ok { Task.zero with Status := s }) := by
  obtain ⟨kvs, hk, hmain⟩ := main_both_decoded line1 line2 rest originalTask modifiedTask h1 h2
  rw [hmain]
  refine ⟨?_, ?_, rfl, decode_any_status⟩
  · rw [← archiveWorthy_iff]
    cases archiveWorthy originalTask modifiedTask <;> simp [Run.printedArchived]
  · intro hp
    refine ⟨_, hk, ?_⟩
    cases ha : archiveWorthy originalTask modifiedTask with
    | true => simp
    | false => simp [Run.printedArchived, ha] at hp

theorem archive_notice_iff_witness :
    jsonUnmarshalTask samplePendingLine = .ok samplePending
    ∧ jsonUnmarshalTask sampleCompletedLine = .ok sampleCompleted
    ∧ ((main [samplePendingLine, sampleCompletedLine]).printedArchived = true
        ↔ (samplePending.Status = "pending"
            ∧ (sampleCompleted.Status = "completed" ∨ sampleCompleted.Status = "deleted")))
    ∧ (main [samplePendingLine, sampleCompletedLine]).printedArchived = true :=
  ⟨by decide, by decide,
    (archive_notice_iff samplePendingLine sampleCompletedLine [] samplePending sampleCompleted
      (by decide) (by decide)).1,
    by decide⟩

/-- The run of `main` when a line does not decode but `UnmarshalJSON` returns an error: the
error message alone, exit status 1. -/
theorem main_decode_error (stdin : List Line) :
    (∀ line1 rest e, stdin = line1 :: rest → jsonUnmarshalTask line1 = .error e →
      main stdin = ⟨[.errDecoding e], .exit 1⟩)
    ∧ (∀ line1 line2 rest t1 e, stdin = line1 :: line2 :: rest →
        jsonUnmarshalTask line1 = .ok t1 → jsonUnmarshalTask line2 = .error e →
        main stdin = ⟨[.errDecoding e], .exit 1⟩) := by
  constructor
  · rintro line1 rest e rfl h
    simp only [main, mustParseTask, h]
  · rintro line1 line2 rest t1 e rfl h1 h2
    simp only [main, mustParseTask, h1, h2]

/-- A document is printed only after both lines have decoded, and it is the encoding of the
second task. -/
theorem main_document_only_after_decoding (stdin : List Line)
    (h : (main stdin).printedDocument = true) :
    ∃ line1 line2 rest t1 t2 out, stdin = line1 :: line2 :: rest
      ∧ jsonUnmarshalTask line1 = .ok t1 ∧ jsonUnmarshalTask line2 = .ok t2
      ∧ MarshalJSON t2 = .ok out ∧ (main stdin).stdout.head? = some (.document out) := by
  match stdin with
  | [] => simp [main, Run.printedDocument] at h
  | [line1] =>
    cases h1 : jsonUnmarshalTask line1 <;>
      simp [main, mustParseTask, h1, Run.printedDocument] at h
  | line1 :: line2 :: rest =>
    cases h1 : jsonUnmarshalTask line1 with
    | error e => simp [main, mustParseTask, h1, Run.printedDocument] at h
    | panic => simp [main, mustParseTask, h1, Run.printedDocument] at h
    | ok t1 =>
      cases h2 : jsonUnmarshalTask line2 with
      | error e => simp [main, mustParseTask, h1, h2, Run.printedDocument] at h
      | panic => simp [main, mustParseTask, h1, h2, Run.printedDocument] at h
      | ok t2 =>
        obtain ⟨kvs, hk, hmain⟩ := main_both_decoded line1 line2 rest t1 t2 h1 h2
        refine ⟨line1, line2, rest, t1, t2, _, rfl, h1, h2, hk, ?_⟩
        rw [hmain]
        rfl

/-- C17: when a line fails to decode with an error, the program prints the error message
alone and exits with status 1, and a document is printed only after both lines have decoded
(the encoding of the second); but the line `null` makes `UnmarshalJSON` dereference the nil
`aux`, and the program panics instead of exiting with status 1, as first line and as second
line. -/
theorem failure_on_null_line_panics :
    (∀ (line1 : Line) (rest : List Line) (e : Err), jsonUnmarshalTask line1 = .error e →
      (main (line1 :: rest)).term = .exit 1
        ∧ (main (line1 :: rest)).printedDocument = false
        ∧ (main (line1 :: rest)).printedArchived = false)
    ∧ (∀ (line1 line2 : Line) (rest : List Line) (t1 : Task) (e : Err),
        jsonUnmarshalTask line1 = .ok t1 → jsonUnmarshalTask line2 = .error e →
        (main (line1 :: line2 :: rest)).term = .exit 1
          ∧ (main (line1 :: line2 :: rest)).printedDocument = false
          ∧ (main (line1 :: line2 :: rest)).printedArchived = false)
    ∧ jsonUnmarshalTask (some .null) = .panic
    ∧ (main [some .null, sampleCompletedLine]).term = .panic
    ∧ (main [some .null, sampleCompletedLine]).stdout.length = 0
    ∧ (main [samplePendingLine, some .null]).term = .panic
    ∧ (main [samplePendingLine, some .null]).stdout.length = 0 := by
  refine ⟨?_, ?_, by decide, by decide, by decide, by decide, by decide⟩
  · intro line1 rest e h
    rw [(main_decode_error (line1 :: rest)).1 line1 rest e rfl h]
    exact ⟨rfl, rfl, rfl⟩
  · intro line1 line2 rest t1 e h1 h2
    rw [(main_decode_error (line1 :: line2 :: rest)).2 line1 line2 rest t1 e rfl h1 h2]
    exact ⟨rfl, rfl, rfl⟩


/-! ## Keys that name no field -/

theorem fieldOfKey_none_iff (k : String) :
    fieldOfKey k = none ↔ foldName k ∉ keyOrder := by
  unfold fieldOfKey keyOrder
  rw [List.find?_eq_none]
  simp only [beq_iff_eq, List.mem_map, not_exists, not_and]

theorem decodeMembers_skip (pre post : List (String × Json)) (k : String) (v : Json) (a : Aux)
    (hk : fieldOfKey k = none) :
    decodeMembers a (pre ++ (k, v) :: post) = decodeMembers a (pre ++ post) := by
  rw [decodeMembers_append, decodeMembers_append]
  cases decodeMembers a pre with
  | none => rfl
  | some a2 =>
    simp only [Option.some_bind, decodeMembers, decodeMember, hk]

theorem depthMembers_append (a b : List (String × Json)) :
    depthMembers (a ++ b) = max (depthMembers a) (depthMembers b) := by
  induction a with
  | nil => simp [depthMembers]
  | cons kv rest ih =>
    obtain ⟨k, v⟩ := kv
    show max v.depth (depthMembers (rest ++ b)) = max (max v.depth (depthMembers rest)) _
    rw [ih, Nat.max_assoc]

theorem depthMembers_insert (pre post : List (String × Json)) (k : String) (v : Json) :
    depthMembers (pre ++ (k, v) :: post) = max v.depth (depthMembers (pre ++ post)) := by
  simp only [depthMembers_append, depthMembers]
  omega

theorem depth_obj_single (k : String) (v : Json) :
    (Json.obj [(k, v)]).depth = 1 + v.depth := by
  show 1 + max v.depth 0 = 1 + v.depth
  rw [Nat.max_zero]

theorem depth_nestedArrays (n : Nat) : (nestedArrays n).depth = n := by
  induction n with
  | zero => rfl
  | succ n ih =>
    simp only [nestedArrays, Json.depth, depthElems, ih]
    omega

/-- C12 as stated fails. `STATUS` is not one of the field names, yet adding it changes the
decoded Task, and adding `DUE` with a number makes the decode fail. And a key that matches no
field name is not ignored with every value: the empty object decodes, but with `zzz` bound to
10000 nested arrays, a value within the nesting limit by itself, the document exceeds the
limit and the decode fails. -/
theorem unknown_key_other_case_not_ignored :
    "STATUS" ∉ keyOrder ∧ "DUE" ∉ keyOrder
    ∧ decode (.obj []) = .ok Task.zero
    ∧ decode (.obj [("STATUS", .str "done")]) = .ok { Task.zero with Status := "done" }
    ∧ ({ Task.zero with Status := "done" } : Task) ≠ Task.zero
    ∧ decode (.obj [("DUE", .num (Number.ofInt 5))]) = .error .unmarshalType
    ∧ foldName "zzz" ∉ keyOrder
    ∧ checkValid (nestedArrays 10000) = true
    ∧ decode (.obj [("zzz", nestedArrays 10000)]) = .error .jsonSyntax := by
  refine ⟨by decide, by decide, by decide, by decide, by decide, by decide, by decide, ?_, ?_⟩
  · rw [checkValid_iff, depth_nestedArrays]
    decide
  · apply UnmarshalJSON_invalid
    cases hv : checkValid (.obj [("zzz", nestedArrays 10000)]) with
    | false => rfl
    | true =>
      rw [checkValid_iff] at hv
      rw [depth_obj_single, depth_nestedArrays] at hv
      simp only [maxNestingDepth] at hv
      omega

/-- C12 (amended). For every JSON object, every receiver and every key that equals none of
the Task's field names when compared ignoring case, `UnmarshalJSON` on the object extended
with that key at any place, bound to a JSON value nested less than 10000 levels deep, does
exactly what it does on the object itself: it fails when that fails and otherwise returns the
same Task. Bound to a value nested deeper, the document exceeds the decoder's nesting limit
and `UnmarshalJSON` fails with a syntax error. -/
theorem unknown_key_ignored (t : Task) (pre post : List (String × Json)) (k : String)
    (v : Json) (hk : foldName k ∉ keyOrder) :
    UnmarshalJSON t (.obj (pre ++ (k, v) :: post))
      = if v.depth < maxNestingDepth then UnmarshalJSON t (.obj (pre ++ post))
        else .error .jsonSyntax := by
  have h := decodeMembers_skip pre post k v (Aux.init t) ((fieldOfKey_none_iff k).2 hk)
  have hd : (Json.obj (pre ++ (k, v) :: post)).depth
      = 1 + max v.depth (depthMembers (pre ++ post)) := by
    simp only [Json.depth, depthMembers_insert]
  by_cases hv : v.depth < maxNestingDepth
  · rw [if_pos hv]
    cases hp : checkValid (.obj (pre ++ post)) with
    | false =>
      have hp2 : checkValid (.obj (pre ++ (k, v) :: post)) = false := by
        cases hq : checkValid (.obj (pre ++ (k, v) :: post)) with
        | false => rfl
        | true =>
          exfalso
          rw [checkValid_iff, hd] at hq
          have : checkValid (.obj (pre ++ post)) = true := by
            rw [checkValid_iff]
            simp only [Json.depth]
            omega
          rw [hp] at this
          cases this
      rw [UnmarshalJSON_invalid t _ hp, UnmarshalJSON_invalid t _ hp2]
    | true =>
      have hp2 : checkValid (.obj (pre ++ (k, v) :: post)) = true := by
        rw [checkValid_iff] at hp ⊢
        rw [hd]
        simp only [Json.depth] at hp
        omega
      rw [UnmarshalJSON_obj_valid t _ hp, UnmarshalJSON_obj_valid t _ hp2, h]
  · rw [if_neg hv]
    apply UnmarshalJSON_invalid
    cases hq : checkValid (.obj (pre ++ (k, v) :: post)) with
    | false => rfl
    | true =>
      exfalso
      rw [checkValid_iff, hd] at hq
      omega

theorem unknown_key_ignored_witness :
    foldName "Priority" ∉ keyOrder
    ∧ (Json.str "H").depth < maxNestingDepth
    ∧ UnmarshalJSON Task.zero
        (.obj ([("status", .str "pending")] ++ ("Priority", .str "H") :: [("uuid", .str "abc")]))
      = (if (Json.str "H").depth < maxNestingDepth then
          UnmarshalJSON Task.zero (.obj ([("status", .str "pending")] ++ [("uuid", .str "abc")]))
        else .error .jsonSyntax) :=
  ⟨by decide, by decide,
    unknown_key_ignored Task.zero [("status", .str "pending")] [("uuid", .str "abc")]
      "Priority" (.str "H") (by decide)⟩

/-! ## The `annotations` member written by `MarshalJSON` -/

theorem encAuxEntry_format (t : Time) :
    encAuxEntry ⟨t.Format⟩ = .obj [("entry", .str t.Format)] := by
  have hne := Format_ne_empty t
  have hl : t.Format.length > 0 := (length_pos_iff_ne_empty _).2 hne
  have : (t.Format.length == 0) = false := by
    simp only [beq_eq_false_iff_ne, ne_eq]
    omega
  simp only [encAuxEntry, encStr, this]
  rfl

/-- The `annotations` member of the object `MarshalJSON` writes. -/
theorem MarshalJSON_member_annotations (t : Task) (out : Json) (h : MarshalJSON t = .ok out) :
    out.member? "annotations"
      = if t.Annotations.length = 0 then none
        else some (.arr (t.Annotations.map
          (fun a : Annotation => Json.obj [("entry", .str a.Entry.Format)]))) := by
  obtain ⟨imask, urgency, h1, h2, rfl⟩ := MarshalJSON_ok t out h
  have u := fun k (hk : "urgency" ≠ k) => find_encFloat_last "urgency" k t.Urgency urgency h2 hk
  have i := fun k B (hk : "imask" ≠ k) => find_encFloat_ne "imask" k t.Imask imask B h1 hk
  simp only [Json.member?]
  simp (disch := decide) only [find_encPtr_ne, find_ite_eq]
  by_cases hn : t.Annotations.length = 0
  · simp (disch := decide) only [hn, List.length_map, beq_self_eq_true, if_true, find_encStr_ne,
      find_ite_ne, find_single_ne, u, i, Option.map]
  · simp only [List.length_map, beq_iff_eq, hn, if_false, Option.map_some', List.map_map]
    congr 2
    apply List.map_congr_left
    intro a _
    exact encAuxEntry_format a.Entry

theorem keys_encPtr (key : String) (p : Option String) :
    ((encPtr key p).map (fun kv => kv.1)).Sublist [key] := by
  cases p <;> simp [encPtr]

theorem keys_encStr (key : String) (v : String) :
    ((encStr key v).map (fun kv => kv.1)).Sublist [key] := by
  unfold encStr
  split <;> simp

theorem keys_encFloat (key : String) (f : Float64) (l : List (String × Json))
    (h : encFloat key f = some l) : (l.map (fun kv => kv.1)).Sublist [key] := by
  unfold encFloat at h
  split at h
  · cases h; simp
  · split at h
    · cases h; simp
    · cases h

theorem keys_ite (c : Prop) [Decidable c] (key : String) (v : Json) :
    ((if c then [] else [(key, v)] : List (String × Json)).map (fun kv => kv.1)).Sublist
      [key] := by
  split <;> simp

/-- The keys of the object `MarshalJSON` writes are taken, in order and without repetition,
from the fixed list of field names. -/
theorem MarshalJSON_keys (t : Task) (out : Json) (h : MarshalJSON t = .ok out) :
    out.keys.Sublist keyOrder ∧ out.keys.Nodup ∧ ∀ k ∈ out.keys, foldName k = k := by
  obtain ⟨imask, urgency, h1, h2, hout⟩ := MarshalJSON_ok t out h
  have hs : out.keys.Sublist keyOrder := by
    rw [hout]
    simp only [Json.keys, List.map_append]
    have e : keyOrder = ["due"] ++ (["entry"] ++ (["modified"] ++ (["reviewed"] ++ (["until"]
        ++ (["wait"] ++ (["annotations"] ++ (["id"] ++ (["description"] ++ (["imask"]
        ++ (["parent"] ++ (["project"] ++ (["recur"] ++ (["rtype"] ++ (["status"] ++ (["uuid"]
        ++ (["tags"] ++ ["urgency"])))))))))))))))) := by decide
    rw [e]
    refine List.Sublist.append (keys_encPtr _ _) (List.Sublist.append (keys_encPtr _ _)
      (List.Sublist.append (keys_encPtr _ _) (List.Sublist.append (keys_encPtr _ _)
      (List.Sublist.append (keys_encPtr _ _) (List.Sublist.append (keys_encPtr _ _)
      (List.Sublist.append (keys_ite _ _ _) (List.Sublist.append (keys_ite _ _ _)
      (List.Sublist.append (List.Sublist.refl _) (List.Sublist.append (keys_encFloat _ _ _ h1)
      (List.Sublist.append (keys_encStr _ _) (List.Sublist.append (keys_encStr _ _)
      (List.Sublist.append (keys_encStr _ _) (List.Sublist.append (keys_encStr _ _)
      (List.Sublist.append (keys_encStr _ _) (List.Sublist.append (keys_encStr _ _)
      (List.Sublist.append (keys_ite _ _ _) (keys_encFloat _ _ _ h2)))))))))))))))))
  have hnd : keyOrder.Nodup := by decide
  have hfold : ∀ k ∈ keyOrder, foldName k = k := by decide
  exact ⟨hs, hs.nodup hnd, fun k hk => hfold k (hs.subset hk)⟩

/-! ## Decoding into a receiver that already holds values -/

theorem decodeString_isSome (o1 o2 : String) (v : Json) :
    (decodeString o1 v).isSome = (decodeString o2 v).isSome := by
  cases v <;> rfl

theorem decodeInt_isSome (o1 o2 : Int) (v : Json) :
    (decodeInt o1 v).isSome = (decodeInt o2 v).isSome := by
  cases v <;> rfl

theorem decodeFloat_isSome (o1 o2 : Float64) (v : Json) :
    (decodeFloat o1 v).isSome = (decodeFloat o2 v).isSome := by
  cases v <;> rfl

theorem decodeElems_isSome (xs : List Json) (s1 s2 : List String) :
    (decodeElems decodeString "" s1 xs).isSome = (decodeElems decodeString "" s2 xs).isSome := by
  induction xs generalizing s1 s2 with
  | nil => rfl
  | cons x rest ih =>
    simp only [decodeElems]
    have h1 := decodeString_isSome (s1.headD "") (s2.headD "") x
    have h2 := ih s1.tail s2.tail
    cases hx1 : decodeString (s1.headD "") x <;> cases hx2 : decodeString (s2.headD "") x <;>
      simp only [hx1, hx2, Option.isSome_none, Option.isSome_some] at h1 ⊢
    · cases h1
    · cases h1
    · cases hr1 : decodeElems decodeString "" s1.tail rest <;>
        cases hr2 : decodeElems decodeString "" s2.tail rest <;>
        simp only [hr1, hr2, Option.isSome_none, Option.isSome_some] at h2 ⊢
      · cases h2
      · cases h2

theorem decodeSlice_isSome (v : Json) (v1 s1 v2 s2 : List String) :
    (decodeSlice decodeString "" v1 s1 v).isSome = (decodeSlice decodeString "" v2 s2 v).isSome := by
  cases v with
  | arr xs =>
    cases xs with
    | nil => rfl
    | cons x rest =>
      simp only [decodeSlice]
      have := decodeElems_isSome (x :: rest) (v1 ++ s1) (v2 ++ s2)
      cases h1 : decodeElems decodeString "" (v1 ++ s1) (x :: rest) <;>
        cases h2 : decodeElems decodeString "" (v2 ++ s2) (x :: rest) <;>
        simp only [h1, h2, Option.isSome_none, Option.isSome_some] at this ⊢
      · cases this
      · cases this
  | null => rfl
  | bool b => rfl
  | num n => rfl
  | str s => rfl
  | obj m => rfl

theorem TimeField.setRaw_annotations (f : TimeField) (a : Aux) (s : String) :
    (f.setRaw a s).Annotations = a.Annotations ∧ (f.setRaw a s).annSpare = a.annSpare := by
  cases f <;> exact ⟨rfl, rfl⟩

/-- One field decode succeeds or fails alike on two values of `aux` that agree outside the
Task, and leaves them agreeing. -/
theorem decodeField_sameRaw (a b : Aux) (fld : Field) (v : Json) (h : sameRaw a b) :
    (decodeField a fld v = none ∧ decodeField b fld v = none)
    ∨ ∃ a1 b1, decodeField a fld v = some a1 ∧ decodeField b fld v = some b1 ∧ sameRaw a1 b1 := by
  obtain ⟨hraw, hann, hsp⟩ := h
  cases fld with
  | time f =>
    simp only [decodeField]
    rw [← hraw f]
    cases hd : decodeString (f.raw a) v with
    | none => exact Or.inl ⟨rfl, rfl⟩
    | some s =>
      right
      refine ⟨_, _, rfl, rfl, ?_, ?_, ?_⟩
      · intro g
        rw [TimeField.raw_setRaw, TimeField.raw_setRaw, hraw g]
      · rw [(TimeField.setRaw_annotations f a s).1, (TimeField.setRaw_annotations f b s).1, hann]
      · rw [(TimeField.setRaw_annotations f a s).2, (TimeField.setRaw_annotations f b s).2, hsp]
  | annotations =>
    simp only [decodeField]
    rw [← hann, ← hsp]
    cases hd : decodeSlice decodeAuxEntry ⟨""⟩ a.Annotations a.annSpare v with
    | none => exact Or.inl ⟨rfl, rfl⟩
    | some r =>
      right
      refine ⟨_, _, rfl, rfl, ?_, rfl, rfl⟩
      intro g
      have := hraw g
      cases g <;> exact this
  | id =>
    simp only [decodeField]
    have := decodeInt_isSome a.Alias.ID b.Alias.ID v
    cases h1 : decodeInt a.Alias.ID v <;> cases h2 : decodeInt b.Alias.ID v <;>
      simp only [h1, h2, Option.isSome_none, Option.isSome_some] at this
    · exact Or.inl ⟨rfl, rfl⟩
    · cases this
    · cases this
    · right
      refine ⟨_, _, rfl, rfl, ?_, hann, hsp⟩
      intro g
      have := hraw g
      cases g <;> exact this
  | str f =>
    simp only [decodeField]
    have := decodeString_isSome (f.get a.Alias) (f.get b.Alias) v
    cases h1 : decodeString (f.get a.Alias) v <;> cases h2 : decodeString (f.get b.Alias) v <;>
      simp only [h1, h2, Option.isSome_none, Option.isSome_some] at this
    · exact Or.inl ⟨rfl, rfl⟩
    · cases this
    · cases this
    · right
      refine ⟨_, _, rfl, rfl, ?_, hann, hsp⟩
      intro g
      have := hraw g
      cases g <;> exact this
  | float f =>
    simp only [decodeField]
    have := decodeFloat_isSome (f.get a.Alias) (f.get b.Alias) v
    cases h1 : decodeFloat (f.get a.Alias) v <;> cases h2 : decodeFloat (f.get b.Alias) v <;>
      simp only [h1, h2, Option.isSome_none, Option.isSome_some] at this
    · exact Or.inl ⟨rfl, rfl⟩
    · cases this
    · cases this
    · right
      refine ⟨_, _, rfl, rfl, ?_, hann, hsp⟩
      intro g
      have := hraw g
      cases g <;> exact this
  | tags =>
    simp only [decodeField]
    have := decodeSlice_isSome v a.Alias.Tags a.tagsSpare b.Alias.Tags b.tagsSpare
    cases h1 : decodeSlice decodeString "" a.Alias.Tags a.tagsSpare v <;>
      cases h2 : decodeSlice decodeString "" b.Alias.Tags b.tagsSpare v <;>
      simp only [h1, h2, Option.isSome_none, Option.isSome_some] at this
    · exact Or.inl ⟨rfl, rfl⟩
    · cases this
    · cases this
    · right
      refine ⟨_, _, rfl, rfl, ?_, hann, hsp⟩
      intro g
      have := hraw g
      cases g <;> exact this

theorem decodeMembers_sameRaw (kvs : List (String × Json)) (a b : Aux) (h : sameRaw a b) :
    (decodeMembers a kvs = none ∧ decodeMembers b kvs = none)
    ∨ ∃ a1 b1, decodeMembers a kvs = some a1 ∧ decodeMembers b kvs = some b1 ∧ sameRaw a1 b1 := by
  induction kvs generalizing a b with
  | nil => exact Or.inr ⟨a, b, rfl, rfl, h⟩
  | cons kv rest ih =>
    obtain ⟨k, v⟩ := kv
    simp only [decodeMembers, decodeMember]
    cases hf : fieldOfKey k with
    | none => exact ih a b h
    | some fld =>
      simp only
      rcases decodeField_sameRaw a b fld v h with ⟨h1, h2⟩ | ⟨a1, b1, h1, h2, hr⟩
      · left
        simp only [h1, h2, and_self]
      · simp only [h1, h2]
        exact ih a1 b1 hr


theorem parseInto_none_indep (s : String) (o1 o2 : Time) (h : parseInto s o1 = none) :
    parseInto s o2 = none := by
  unfold parseInto at h ⊢
  split at h
  · rename_i hs
    simp only [hs, if_true]
    exact h
  · cases h

theorem parseTimes_none (aux : Aux) (t : Task) (h : parseTimes aux t = none) :
    ∃ f : TimeField, ∀ old, parseInto (f.raw aux) old = none := by
  cases h1 : parseInto aux.Due t.Due with
  | none => exact ⟨.Due, fun old => parseInto_none_indep _ _ old h1⟩
  | some d1 =>
  cases h2 : parseInto aux.Entry t.Entry with
  | none => exact ⟨.Entry, fun old => parseInto_none_indep _ _ old h2⟩
  | some d2 =>
  cases h3 : parseInto aux.Modified t.Modified with
  | none => exact ⟨.Modified, fun old => parseInto_none_indep _ _ old h3⟩
  | some d3 =>
  cases h4 : parseInto aux.Reviewed t.Reviewed with
  | none => exact ⟨.Reviewed, fun old => parseInto_none_indep _ _ old h4⟩
  | some d4 =>
  cases h5 : parseInto aux.Until t.Until with
  | none => exact ⟨.Until, fun old => parseInto_none_indep _ _ old h5⟩
  | some d5 =>
  cases h6 : parseInto aux.Wait t.Wait with
  | none => exact ⟨.Wait, fun old => parseInto_none_indep _ _ old h6⟩
  | some d6 =>
    simp [parseTimes, h1, h2, h3, h4, h5, h6] at h

/-- The parsing phase succeeds or fails alike for two values of `aux` with the same strings,
whatever the Tasks. -/
theorem parseTimes_sameRaw (a b : Aux) (ta tb : Task) (h : sameRaw a b)
    (hn : parseTimes a ta = none) : parseTimes b tb = none := by
  obtain ⟨f, hf⟩ := parseTimes_none a ta hn
  apply parseTimes_none_of b tb f
  rw [← h.1 f]
  exact hf _

theorem appendAnnotations_acc (xs : List AuxEntry) (acc : List Annotation) :
    appendAnnotations acc xs = (appendAnnotations [] xs).map (fun new => acc ++ new) := by
  induction xs generalizing acc with
  | nil => simp [appendAnnotations]
  | cons x rest ih =>
    simp only [appendAnnotations]
    split
    · cases timeParse x.Entry with
      | none => rfl
      | some e =>
        simp only
        rw [ih (acc ++ [_]), ih ([] ++ [_])]
        cases appendAnnotations [] rest with
        | none => rfl
        | some new => simp
    · exact ih acc

theorem sameRaw_symm (a b : Aux) (h : sameRaw a b) : sameRaw b a :=
  ⟨fun f => (h.1 f).symm, h.2.1.symm, h.2.2.symm⟩

theorem sameRaw_init (t1 t2 : Task) : sameRaw (Aux.init t1) (Aux.init t2) :=
  ⟨fun f => by cases f <;> rfl, rfl, rfl⟩

/-- `UnmarshalJSON` into any receiver fails, panics or succeeds as into any other, and on
success the annotations are the receiver's followed by the same decoded ones. -/
theorem UnmarshalJSON_receivers (t1 t2 : Task) (x : Json) :
    (∀ e, UnmarshalJSON t1 x = .error e → UnmarshalJSON t2 x = .error e)
    ∧ (UnmarshalJSON t1 x = .panic → UnmarshalJSON t2 x = .panic)
    ∧ (∀ d1, UnmarshalJSON t1 x = .ok d1 →
        ∃ d2 new, UnmarshalJSON t2 x = .ok d2 ∧ d1.Annotations = t1.Annotations ++ new
          ∧ d2.Annotations = t2.Annotations ++ new) := by
  cases hv : checkValid x with
  | false =>
    rw [UnmarshalJSON_invalid t1 x hv, UnmarshalJSON_invalid t2 x hv]
    exact ⟨fun e he => he, fun hp => hp, fun d1 hd => by cases hd⟩
  | true =>
  cases x with
  | obj kvs =>
    rw [UnmarshalJSON_obj_valid t1 kvs hv, UnmarshalJSON_obj_valid t2 kvs hv]
    rcases decodeMembers_sameRaw kvs _ _ (sameRaw_init t1 t2) with
      ⟨h1, h2⟩ | ⟨a1, a2, h1, h2, hr⟩
    · simp only [h1, h2]
      exact ⟨fun e he => he, fun hp => hp, fun d1 hd => by cases hd⟩
    · simp only [h1, h2]
      have hal1 := (decodeMembers_alias_times kvs _ a1 h1 .Due).2
      have hal2 := (decodeMembers_alias_times kvs _ a2 h2 .Due).2
      cases hp1 : parseTimes a1 a1.Alias with
      | none =>
        have hp2 := parseTimes_sameRaw a1 a2 a1.Alias a2.Alias hr hp1
        simp only [hp2]
        exact ⟨fun e he => he, fun hp => hp, fun d1 hd => by cases hd⟩
      | some s1 =>
        cases hp2 : parseTimes a2 a2.Alias with
        | none =>
          have := parseTimes_sameRaw a2 a1 a2.Alias a1.Alias (sameRaw_symm _ _ hr) hp2
          rw [hp1] at this
          cases this
        | some s2 =>
          simp only
          have hs1 : s1.Annotations = t1.Annotations := by
            have := (parseTimes_some a1 a1.Alias s1 hp1).2
            rw [this]
            exact hal1
          have hs2 : s2.Annotations = t2.Annotations := by
            have := (parseTimes_some a2 a2.Alias s2 hp2).2
            rw [this]
            exact hal2
          rw [appendAnnotations_acc a1.Annotations s1.Annotations,
            appendAnnotations_acc a2.Annotations s2.Annotations, ← hr.2.1]
          cases appendAnnotations [] a1.Annotations with
          | none =>
            simp only [Option.map_none']
            exact ⟨fun e he => he, fun hp => hp, fun d1 hd => (by cases hd)⟩
          | some new =>
            simp only [Option.map_some']
            refine ⟨fun e he => (by cases he), fun hp => (by cases hp), fun d1 hd => ?_⟩
            refine ⟨_, new, rfl, ?_, ?_⟩
            · rw [← Outcome.ok.inj hd, hs1]
            · rw [hs2]
  | null =>
    rw [UnmarshalJSON_null, UnmarshalJSON_null]
    exact ⟨fun e he => he, fun hp => hp, fun d hd => by cases hd⟩
  | bool b =>
    rw [UnmarshalJSON_not_obj_valid t1 _ hv (fun _ e => by cases e) (fun e => by cases e),
      UnmarshalJSON_not_obj_valid t2 _ hv (fun _ e => by cases e) (fun e => by cases e)]
    exact ⟨fun e he => he, fun hp => hp, fun d hd => by cases hd⟩
  | num n =>
    rw [UnmarshalJSON_not_obj_valid t1 _ hv (fun _ e => by cases e) (fun e => by cases e),
      UnmarshalJSON_not_obj_valid t2 _ hv (fun _ e => by cases e) (fun e => by cases e)]
    exact ⟨fun e he => he, fun hp => hp, fun d hd => by cases hd⟩
  | str s =>
    rw [UnmarshalJSON_not_obj_valid t1 _ hv (fun _ e => by cases e) (fun e => by cases e),
      UnmarshalJSON_not_obj_valid t2 _ hv (fun _ e => by cases e) (fun e => by cases e)]
    exact ⟨fun e he => he, fun hp => hp, fun d hd => by cases hd⟩
  | arr xs =>
    rw [UnmarshalJSON_not_obj_valid t1 _ hv (fun _ e => by cases e) (fun e => by cases e),
      UnmarshalJSON_not_obj_valid t2 _ hv (fun _ e => by cases e) (fun e => by cases e)]
    exact ⟨fun e he => he, fun hp => hp, fun d hd => by cases hd⟩


/-- C16 as stated fails: the empty object leaves each receiver as it was, so two receivers
give two results; and decoding the annotation example into the Task an earlier decode of it
left appends a second annotation. -/
theorem decode_result_depends_on_receiver :
    UnmarshalJSON Task.zero (.obj []) = .ok Task.zero
    ∧ UnmarshalJSON samplePending (.obj []) = .ok samplePending
    ∧ samplePending ≠ Task.zero
    ∧ UnmarshalJSON Task.zero sampleAnnotationsDoc = .ok sampleDecodedOnce
    ∧ ∃ d, UnmarshalJSON sampleDecodedOnce sampleAnnotationsDoc = .ok d
        ∧ d.Annotations.length = 2 :=
  ⟨by decide, by decide, by decide, by decide,
    { sampleDecodedOnce with
      Annotations := [{ Entry := Date 2024 1 1 0 0 0 0, Description := "" },
                      { Entry := Date 2024 1 1 0 0 0 0, Description := "" }] },
    by decide, by decide⟩

/-- C16 (amended). The Task left by `UnmarshalJSON` depends on the input and on what the
receiver held, and on nothing else. Into a receiver that already holds values it fails, or
panics, for exactly the inputs for which it does into a fresh Task, and when it succeeds:
the annotations are the receiver's followed by those decoded into a fresh Task; a temporal
field is the one decoded into a fresh Task when the input holds a non-empty string for it and
the receiver's otherwise; id, each string and each float is the value of the last non-null
member naming it and the receiver's when there is none, and so are the tags when every tags
member is an array of strings. Into a fresh Task, as `mustParseTask` decodes, the result
depends on the input alone. -/
theorem decode_into_receiver (t : Task) (x : Json) :
    (∀ e, UnmarshalJSON t x = .error e ↔ decode x = .error e)
    ∧ (UnmarshalJSON t x = .panic ↔ decode x = .panic)
    ∧ (∀ d, decode x = .ok d → ∃ d2, UnmarshalJSON t x = .ok d2
        ∧ d2.Annotations = t.Annotations ++ d.Annotations
        ∧ ∀ kvs, x = .obj kvs →
            (∀ f : TimeField,
              f.get d2 = if heldString f.key kvs = "" then f.get t else f.get d)
            ∧ (∀ f : StrField, f.get d2 = pickLast f.key readStr (f.get t) kvs)
            ∧ d2.ID = pickLast "id" readInt t.ID kvs
            ∧ (∀ f : FloatField, f.get d2 = pickLast f.key readFloat (f.get t) kvs)
            ∧ ((∀ kv ∈ kvs, foldName kv.1 = "tags" → (readTags kv.2).isSome = true) →
                d2.Tags = pickLast "tags" readTags t.Tags kvs))
    ∧ UnmarshalJSON Task.zero x = decode x := by
  have hzt := UnmarshalJSON_receivers Task.zero t x
  have htz := UnmarshalJSON_receivers t Task.zero x
  refine ⟨fun e => ⟨htz.1 e, hzt.1 e⟩, ⟨htz.2.1, hzt.2.1⟩, ?_, rfl⟩
  intro d hd
  obtain ⟨d2, new, hd2, hnew1, hnew2⟩ := hzt.2.2 d hd
  have hnew : d.Annotations = new := by
    rw [hnew1]; rfl
  refine ⟨d2, hd2, by rw [hnew2, hnew], ?_⟩
  rintro kvs rfl
  obtain ⟨aux, hm, hid, htags, hstr, hfl⟩ := UnmarshalJSON_obj_alias t d2 kvs hd2
  refine ⟨?_, ?_, ?_, ?_, ?_⟩
  · intro f
    have h1 := UnmarshalJSON_time_field t d2 kvs hd2 f
    have h0 := UnmarshalJSON_time_field Task.zero d kvs hd f
    by_cases hs : heldString f.key kvs = ""
    · simp only [hs, if_true]
      rw [hs, parseInto_empty] at h1
      exact (Option.some.inj h1).symm
    · simp only [hs, if_false]
      rw [parseInto_ne _ _ hs] at h1 h0
      rw [h1] at h0
      exact Option.some.inj h0
  · intro f
    rw [hstr f, decodeMembers_str kvs _ aux hm f]
    rfl
  · rw [hid, decodeMembers_id kvs _ aux hm]
    rfl
  · intro f
    rw [hfl f, decodeMembers_float kvs _ aux hm f]
    rfl
  · intro hg
    rw [htags, decodeMembers_tags kvs _ aux hm hg]
    rfl

theorem decode_into_receiver_witness :
    decode sampleAnnotationsDoc = .ok sampleDecodedOnce
    ∧ ∃ d2, UnmarshalJSON samplePending sampleAnnotationsDoc = .ok d2
        ∧ d2.Annotations = samplePending.Annotations ++ sampleDecodedOnce.Annotations
        ∧ d2.Status = "pending" :=
  ⟨by decide,
    ((decode_into_receiver samplePending sampleAnnotationsDoc).2.2.1 sampleDecodedOnce
      (by decide)).imp
      (fun d2 h => ⟨h.1, h.2.1, by
        have := ((h.2.2 _ rfl).2.1 .Status)
        simp only [StrField.get] at this
        rw [this]
        decide⟩)⟩


/-! ## Reading back what `MarshalJSON` wrote -/

theorem numOf_two (a b : Nat) (ha : a < 10) (hb : b < 10) :
    numOf [digitChar a, digitChar b] = a * 10 + b := by
  simp only [numOf, List.foldl, (digitChar_facts a ha).2, (digitChar_facts b hb).2]
  omega

theorem numOf_twoDigits (n : Nat) (h : n < 100) : numOf (twoDigits n) = n := by
  rw [twoDigits, numOf_two _ _ (by omega) (by omega)]
  omega

theorem numOf_fourDigits (n : Nat) (h : n < 10000) : numOf (fourDigits n) = n := by
  simp only [fourDigits, numOf, List.foldl, (digitChar_facts (n / 1000) (by omega)).2,
    (digitChar_facts (n / 100 % 10) (by omega)).2, (digitChar_facts (n / 10 % 10) (by omega)).2,
    (digitChar_facts (n % 10) (by omega)).2]
  omega

theorem readCivil_spell (c : Civil) (hv : c.valid = true) : readCivil (spell c) = c := by
  have hv0 := hv
  simp only [Civil.valid, validMD, Bool.and_eq_true, decide_eq_true_eq] at hv
  obtain ⟨⟨⟨⟨⟨hy0, hy1⟩, ⟨⟨⟨hm1, hm2⟩, hd1⟩, hd2⟩⟩, hh⟩, hmi⟩, hs⟩ := hv
  have hd31 : c.day ≤ 31 := by
    have : ∀ l : Bool, ∀ m, m < 13 → daysIn m l ≤ 31 := by decide
    have := this (isLeap c.year) c.month (by omega)
    omega
  have e4 : ∀ rest, (fourDigits c.year.toNat ++ rest).take 4 = fourDigits c.year.toNat := by
    intro rest; simp [fourDigits]
  have d4 : ∀ rest, (fourDigits c.year.toNat ++ rest).drop 4 = rest := by
    intro rest; simp [fourDigits]
  have t2 : ∀ n rest, (twoDigits n ++ rest).take 2 = twoDigits n := by
    intro n rest; simp [twoDigits]
  have hsp : spell c = fourDigits c.year.toNat ++ (twoDigits c.month ++ (twoDigits c.day
      ++ ('T' :: (twoDigits c.hour ++ (twoDigits c.min ++ (twoDigits c.sec ++ ['Z'])))))) := by
    simp [spell, spellBody]
  have k6 : (spell c).drop 6 = twoDigits c.day
      ++ ('T' :: (twoDigits c.hour ++ (twoDigits c.min ++ (twoDigits c.sec ++ ['Z'])))) := by
    rw [hsp]; simp [fourDigits, twoDigits]
  have k9 : (spell c).drop 9 = twoDigits c.hour ++ (twoDigits c.min ++ (twoDigits c.sec ++ ['Z'])) := by
    rw [hsp]; simp [fourDigits, twoDigits]
  have k11 : (spell c).drop 11 = twoDigits c.min ++ (twoDigits c.sec ++ ['Z']) := by
    rw [hsp]; simp [fourDigits, twoDigits]
  have k13 : (spell c).drop 13 = twoDigits c.sec ++ ['Z'] := by
    rw [hsp]; simp [fourDigits, twoDigits]
  have k4 : (spell c).drop 4 = twoDigits c.month ++ (twoDigits c.day
      ++ ('T' :: (twoDigits c.hour ++ (twoDigits c.min ++ (twoDigits c.sec ++ ['Z']))))) := by
    rw [hsp]; exact d4 _
  have k0 : (spell c).take 4 = fourDigits c.year.toNat := by
    rw [hsp]; exact e4 _
  simp only [readCivil, k0, k4, k6, k9, k11, k13, t2,
    numOf_fourDigits _ (show c.year.toNat < 10000 by omega),
    numOf_twoDigits _ (show c.month < 100 by omega), numOf_twoDigits _ (show c.day < 100 by omega),
    numOf_twoDigits _ (show c.hour < 100 by omega), numOf_twoDigits _ (show c.min < 100 by omega),
    numOf_twoDigits _ (show c.sec < 100 by omega)]
  cases c with
  | mk year month day hour min sec =>
    simp only [Civil.mk.injEq, and_true]
    simp only at hy0
    omega

theorem matchesGrammar_of_spell (c : Civil) : matchesGrammar (spell c) = true := by
  simp [matchesGrammar, spell, spellBody, fourDigits, twoDigits, digitChar_isDigit]

/-- The format of an instant that satisfies the temporal invariant is a timestamp string,
and it writes the instant with its sub-second part cleared. -/
theorem validStamp_of_roundTrips (t : Time) (h : roundTrips t) :
    validStamp t.Format = true ∧ writtenInstant t.Format = t.truncate
      ∧ timeParse t.Format = some t.truncate := by
  obtain ⟨_, hv, _, hd, hp⟩ := h
  have hvs : validStamp t.Format = true := by
    simp only [validStamp, hd, matchesGrammar_of_spell, readCivil_spell _ hv, hv, Bool.and_self]
  refine ⟨hvs, ?_, hp⟩
  have := (timeParse_validStamp _ hvs).1
  rw [hp] at this
  exact (Option.some.inj this).symm


theorem mem_encPtr (key : String) (p : Option String) (kv : String × Json)
    (h : kv ∈ encPtr key p) : ∃ s, p = some s ∧ kv = (key, .str s) := by
  cases p with
  | none => simp [encPtr] at h
  | some s =>
    simp only [encPtr, List.mem_singleton] at h
    exact ⟨s, rfl, h⟩

theorem mem_encStr (key : String) (v : String) (kv : String × Json)
    (h : kv ∈ encStr key v) : kv = (key, .str v) := by
  unfold encStr at h
  split at h
  · simp at h
  · simpa using h

theorem mem_encFloat (key : String) (f : Float64) (l : List (String × Json))
    (hl : encFloat key f = some l) (kv : String × Json) (h : kv ∈ l) :
    kv = (key, .num (Number.ofFloat f)) ∧ f.isFinite = true := by
  unfold encFloat at hl
  split at hl
  · cases hl; simp at h
  · split at hl
    · rename_i hf
      cases hl
      simp only [List.mem_singleton] at h
      exact ⟨h, hf⟩
    · cases hl

theorem mem_ite (c : Prop) [Decidable c] (key : String) (v : Json) (kv : String × Json)
    (h : kv ∈ (if c then [] else [(key, v)] : List (String × Json))) :
    ¬ c ∧ kv = (key, v) := by
  split at h
  · simp at h
  · rename_i hc
    simp only [List.mem_singleton] at h
    exact ⟨hc, h⟩

theorem formatTime_some (t : Time) (s : String) (h : formatTime t = some s) : s = t.Format := by
  unfold formatTime at h
  split at h
  · cases h
  · exact (Option.some.inj h).symm

theorem readTags_strings (tags : List String) :
    readTags (.arr (tags.map Json.str)) = some tags := by
  have h1 : (tags.map Json.str).all (fun e => (readStr e).isSome) = true := by
    simp [List.all_eq_true, readStr]
  have h2 : (tags.map Json.str).map (fun e => (readStr e).getD "") = tags := by
    simp [List.map_map, Function.comp_def, readStr]
  simp only [readTags, h1, if_true, h2]

theorem readInt_ofInt (i : Int) (h : inInt64 i = true) :
    readInt (.num (Number.ofInt i)) = some i := by
  simp only [readInt, Number.ofInt, h, if_true]

theorem readFloat_ofFloat (f : Float64) (h : f.isFinite = true) :
    readFloat (.num (Number.ofFloat f)) = some f := by
  simp only [readFloat, Number.ofFloat, h, if_true]

/-- The object `MarshalJSON` writes for a Task whose instants satisfy the temporal invariant
and whose id is in range is well formed. -/
theorem MarshalJSON_wellFormed (t : Task) (kvs : List (String × Json))
    (h : MarshalJSON t = .ok (.obj kvs))
    (htime : ∀ f : TimeField, roundTrips (f.get t))
    (hann : ∀ a ∈ t.Annotations, roundTrips a.Entry) (hid : inInt64 t.ID = true) :
    wellFormed kvs = true := by
  obtain ⟨imask, urgency, h1, h2, hout⟩ := MarshalJSON_ok t _ h
  have hkvs := Json.obj.inj hout
  simp only [wellFormed, List.all_eq_true]
  intro kv hkv
  rw [hkvs] at hkv
  have ptr : ∀ (f : TimeField), kv ∈ encPtr f.key (formatTime (f.get t)) →
      (match fieldOfKey kv.1 with
        | some fld => wellTyped fld kv.2
        | none => true) = true := by
    intro f hm
    obtain ⟨s, hs, rfl⟩ := mem_encPtr _ _ _ hm
    have hk : fieldOfKey f.key = some (.time f) := fieldOfKey_key (.time f) f.key (by
      cases f <;> decide)
    simp only [hk, wellTyped]
    rw [formatTime_some _ _ hs]
    exact (validStamp_of_roundTrips _ (htime f)).1
  have str : ∀ (f : StrField), kv = (f.key, .str (f.get t)) →
      (match fieldOfKey kv.1 with
        | some fld => wellTyped fld kv.2
        | none => true) = true := by
    intro f hm
    subst hm
    have hk : fieldOfKey f.key = some (.str f) := fieldOfKey_key (.str f) f.key (by
      cases f <;> decide)
    simp only [hk, wellTyped, readStr, Option.isSome_some]
  have flt : ∀ (f : FloatField), kv = (f.key, .num (Number.ofFloat (f.get t))) →
      (f.get t).isFinite = true →
      (match fieldOfKey kv.1 with
        | some fld => wellTyped fld kv.2
        | none => true) = true := by
    intro f hm hfin
    subst hm
    have hk : fieldOfKey f.key = some (.float f) := fieldOfKey_key (.float f) f.key (by
      cases f <;> decide)
    simp only [hk, wellTyped, readFloat_ofFloat _ hfin, Option.isSome_some]
  simp only [List.mem_append] at hkv
  rcases hkv with hm | hm | hm | hm | hm | hm | hm | hm | hm | hm | hm | hm | hm | hm | hm | hm
    | hm | hm
  · exact ptr .Due hm
  · exact ptr .Entry hm
  · exact ptr .Modified hm
  · exact ptr .Reviewed hm
  · exact ptr .Until hm
  · exact ptr .Wait hm
  · obtain ⟨_, rfl⟩ := mem_ite _ _ _ _ hm
    have hk : fieldOfKey "annotations" = some .annotations := by decide
    simp only [hk, wellTyped, List.all_eq_true, List.mem_map, forall_exists_index, and_imp,
      forall_apply_eq_imp_iff₂]
    intro a ha
    rw [encAuxEntry_format]
    simp only [List.all_cons, List.all_nil, Bool.and_true]
    have : foldName "entry" = "entry" := by decide
    simp only [wellTypedAnnMember, this, if_true]
    exact (validStamp_of_roundTrips _ (hann a ha)).1
  · obtain ⟨_, rfl⟩ := mem_ite _ _ _ _ hm
    have hk : fieldOfKey "id" = some .id := by decide
    simp only [hk, wellTyped, readInt_ofInt _ hid, Option.isSome_some]
  · simp only [List.mem_singleton] at hm
    exact str .Description hm
  · obtain ⟨hkv, hfin⟩ := mem_encFloat _ _ _ h1 kv hm
    exact flt .Imask hkv hfin
  · exact str .Parent (mem_encStr _ _ _ hm)
  · exact str .Project (mem_encStr _ _ _ hm)
  · exact str .Recur (mem_encStr _ _ _ hm)
  · exact str .Rtype (mem_encStr _ _ _ hm)
  · exact str .Status (mem_encStr _ _ _ hm)
  · exact str .UUID (mem_encStr _ _ _ hm)
  · obtain ⟨_, rfl⟩ := mem_ite _ _ _ _ hm
    have hk : fieldOfKey "tags" = some .tags := by decide
    simp only [hk, wellTyped, readTags_strings, Option.isSome_some]
  · obtain ⟨hkv, hfin⟩ := mem_encFloat _ _ _ h2 kv hm
    exact flt .Urgency hkv hfin

theorem depthMembers_le (kvs : List (String × Json)) (n : Nat)
    (h : ∀ kv ∈ kvs, kv.2.depth ≤ n) : depthMembers kvs ≤ n := by
  induction kvs with
  | nil => exact Nat.zero_le _
  | cons kv rest ih =>
    obtain ⟨k, v⟩ := kv
    show max v.depth (depthMembers rest) ≤ n
    exact Nat.max_le.2 ⟨h (k, v) (List.mem_cons_self _ _),
      ih (fun x hx => h x (List.mem_cons_of_mem _ hx))⟩

theorem depthElems_le (xs : List Json) (n : Nat)
    (h : ∀ x ∈ xs, x.depth ≤ n) : depthElems xs ≤ n := by
  induction xs with
  | nil => exact Nat.zero_le _
  | cons x rest ih =>
    show max x.depth (depthElems rest) ≤ n
    exact Nat.max_le.2 ⟨h x (List.mem_cons_self _ _),
      ih (fun y hy => h y (List.mem_cons_of_mem _ hy))⟩

theorem encAuxEntry_depth (a : AuxEntry) : (encAuxEntry a).depth ≤ 1 := by
  show 1 + depthMembers (encStr "entry" a.Entry) ≤ 1
  have : depthMembers (encStr "entry" a.Entry) ≤ 0 := by
    apply depthMembers_le
    intro kv hkv
    rw [mem_encStr _ _ _ hkv]
    exact Nat.le_refl _
  omega

/-- The document `MarshalJSON` writes nests at most three levels: the object, the
`annotations` array, its objects. -/
theorem MarshalJSON_depth (t : Task) (kvs : List (String × Json))
    (h : MarshalJSON t = .ok (.obj kvs)) : (Json.obj kvs).depth ≤ 3 := by
  obtain ⟨imask, urgency, h1, h2, hout⟩ := MarshalJSON_ok t _ h
  have hkvs := Json.obj.inj hout
  show 1 + depthMembers kvs ≤ 3
  have : depthMembers kvs ≤ 2 := by
    apply depthMembers_le
    intro kv hkv
    rw [hkvs] at hkv
    simp only [List.mem_append] at hkv
    have ptr : ∀ (key : String) (p : Option String), kv ∈ encPtr key p → kv.2.depth ≤ 2 := by
      intro key p hm
      obtain ⟨s, _, rfl⟩ := mem_encPtr _ _ _ hm
      exact Nat.zero_le _
    have str : ∀ (key : String) (v : String), kv ∈ encStr key v → kv.2.depth ≤ 2 := by
      intro key v hm
      rw [mem_encStr _ _ _ hm]
      exact Nat.zero_le _
    rcases hkv with hm | hm | hm | hm | hm | hm | hm | hm | hm | hm | hm | hm | hm | hm | hm
      | hm | hm | hm
    · exact ptr _ _ hm
    · exact ptr _ _ hm
    · exact ptr _ _ hm
    · exact ptr _ _ hm
    · exact ptr _ _ hm
    · exact ptr _ _ hm
    · obtain ⟨_, rfl⟩ := mem_ite _ _ _ _ hm
      show 1 + depthElems _ ≤ 2
      have : depthElems ((t.Annotations.map
          (fun a : Annotation => (⟨a.Entry.Format⟩ : AuxEntry))).map encAuxEntry) ≤ 1 := by
        apply depthElems_le
        intro x hx
        obtain ⟨a, _, rfl⟩ := List.mem_map.1 hx
        exact encAuxEntry_depth a
      omega
    · obtain ⟨_, rfl⟩ := mem_ite _ _ _ _ hm
      exact Nat.zero_le _
    · simp only [List.mem_singleton] at hm
      rw [hm]
      exact Nat.zero_le _
    · rw [(mem_encFloat _ _ _ h1 kv hm).1]
      exact Nat.zero_le _
    · exact str _ _ hm
    · exact str _ _ hm
    · exact str _ _ hm
    · exact str _ _ hm
    · exact str _ _ hm
    · exact str _ _ hm
    · obtain ⟨_, rfl⟩ := mem_ite _ _ _ _ hm
      show 1 + depthElems _ ≤ 2
      have : depthElems (t.Tags.map Json.str) ≤ 0 := by
        apply depthElems_le
        intro x hx
        obtain ⟨a, _, rfl⟩ := List.mem_map.1 hx
        exact Nat.le_refl _
      omega
    · rw [(mem_encFloat _ _ _ h2 kv hm).1]
      exact Nat.zero_le _
  omega

theorem MarshalJSON_checkValid (t : Task) (kvs : List (String × Json))
    (h : MarshalJSON t = .ok (.obj kvs)) : checkValid (.obj kvs) = true := by
  rw [checkValid_iff]
  have := MarshalJSON_depth t kvs h
  unfold maxNestingDepth
  omega


theorem pickLast_unique (name : String) (kvs : List (String × Json)) (accm : Option Json)
    (hfold : ∀ kv ∈ kvs, foldName kv.1 = kv.1) (hnd : (kvs.map (fun kv => kv.1)).Nodup) :
    pickLast name (fun v => some (some v)) accm kvs
      = match kvs.find? (fun kv => kv.1 == name) with
        | some kv => some kv.2
        | none => accm := by
  induction kvs generalizing accm with
  | nil => rfl
  | cons kv rest ih =>
    have hrest : ∀ kv ∈ rest, foldName kv.1 = kv.1 := fun x hx => hfold x (List.mem_cons_of_mem _ hx)
    simp only [List.map_cons, List.nodup_cons] at hnd
    obtain ⟨hnot, hnd2⟩ := hnd
    have hkv := hfold kv (List.mem_cons_self _ _)
    simp only [pickLast, List.foldl_cons, hkv]
    by_cases hk : kv.1 = name
    · simp only [hk, if_true, Option.getD_some, List.find?_cons, beq_self_eq_true]
      have := ih (some kv.2) hrest hnd2
      simp only [pickLast, Option.getD_some] at this
      have hnone : rest.find? (fun x => x.1 == name) = none := by
        rw [List.find?_eq_none]
        intro x hx
        simp only [beq_iff_eq]
        intro e
        apply hnot
        rw [hk, ← e]
        exact List.mem_map_of_mem _ hx
      rw [hnone] at this
      exact this
    · have hb : (kv.1 == name) = false := by simp [hk]
      simp only [hk, if_false, List.find?_cons, hb]
      have := ih accm hrest hnd2
      simp only [pickLast, Option.getD_some] at this
      exact this

/-- In an object with distinct keys that are field names as written, the last member naming
a field ignoring case is the member of that name. -/
theorem lastMember_eq_member (name : String) (kvs : List (String × Json))
    (hfold : ∀ kv ∈ kvs, foldName kv.1 = kv.1) (hnd : (kvs.map (fun kv => kv.1)).Nodup) :
    lastMember name kvs = (Json.obj kvs).member? name := by
  unfold lastMember
  rw [pickLast_unique name kvs none hfold hnd]
  simp only [Json.member?]
  cases kvs.find? (fun kv => kv.1 == name) <;> rfl

theorem fold_readInt_inInt64 (name : String) (kvs : List (String × Json)) (z : Int)
    (hz : inInt64 z = true) :
    inInt64 (kvs.foldl
      (fun acc kv => if foldName kv.1 = name then (readInt kv.2).getD acc else acc) z) = true := by
  induction kvs generalizing z with
  | nil => exact hz
  | cons kv rest ih =>
    simp only [List.foldl_cons]
    apply ih
    split
    · cases hr : readInt kv.2 with
      | none => exact hz
      | some x =>
        simp only [Option.getD_some]
        cases hv : kv.2 with
        | num n =>
          rw [hv] at hr
          simp only [readInt] at hr
          split at hr
          · split at hr
            · rename_i hin
              cases hr
              exact hin
            · cases hr
          · cases hr
        | null => rw [hv] at hr; simp [readInt] at hr
        | bool b => rw [hv] at hr; simp [readInt] at hr
        | str s => rw [hv] at hr; simp [readInt] at hr
        | arr ys => rw [hv] at hr; simp [readInt] at hr
        | obj m => rw [hv] at hr; simp [readInt] at hr
    · exact hz

/-- The id of a Task decoded into a fresh receiver is in the range of `int`. -/
theorem decode_id_inInt64 (x : Json) (d : Task) (h : decode x = .ok d) :
    inInt64 d.ID = true := by
  obtain ⟨kvs, rfl⟩ := UnmarshalJSON_not_obj Task.zero d x h
  obtain ⟨aux, hm, hid, _, _, _⟩ := UnmarshalJSON_obj_alias Task.zero d kvs h
  rw [hid, decodeMembers_id kvs _ aux hm]
  exact fold_readInt_inInt64 _ _ _ (by decide)

/-- The annotations of a Task decoded into a fresh receiver have empty descriptions. -/
theorem decode_annotations_description (x : Json) (d : Task) (h : decode x = .ok d) :
    ∀ a ∈ d.Annotations, a.Description = "" := by
  obtain ⟨kvs, rfl⟩ := UnmarshalJSON_not_obj Task.zero d x h
  obtain ⟨aux, _, hall⟩ := decode_annotations_of_aux kvs d h
  have : ∀ (l1 : List String) (l2 : List Annotation),
      List.Forall₂ (fun s (a : Annotation) => timeParse s = some a.Entry ∧ a.Description = "")
        l1 l2 → ∀ a ∈ l2, a.Description = "" := by
    intro l1 l2 hf
    induction hf with
    | nil => intro a ha; cases ha
    | cons hab _ ih =>
      intro a ha
      rcases List.mem_cons.1 ha with rfl | ha2
      · exact hab.2
      · exact ih a ha2
  exact this _ _ hall


theorem entryOf_encAuxEntry (t : Time) : entryOf (encAuxEntry ⟨t.Format⟩) = t.Format := by
  rw [encAuxEntry_format]
  have : foldName "entry" = "entry" := by decide
  simp only [entryOf, heldString, pickLast, List.foldl, this, if_true, readStr, Option.getD_some]

theorem forall2_parse_eq (l : List Annotation) (l2 : List Annotation)
    (hann : ∀ a ∈ l, roundTrips a.Entry)
    (h : List.Forall₂ (fun s (a : Annotation) => timeParse s = some a.Entry ∧ a.Description = "")
      (l.map (fun a => a.Entry.Format)) l2) :
    l2 = l.map (fun a => ({ Entry := a.Entry.truncate, Description := "" } : Annotation)) := by
  induction l generalizing l2 with
  | nil =>
    simp only [List.map_nil, List.forall₂_nil_left_iff] at h
    rw [h]; rfl
  | cons a rest ih =>
    simp only [List.map_cons] at h
    cases l2 with
    | nil => cases h
    | cons b rest2 =>
      simp only [List.forall₂_cons] at h
      obtain ⟨⟨hp, hd⟩, hrest⟩ := h
      have hr := (validStamp_of_roundTrips _ (hann a (List.mem_cons_self _ _))).2.2
      rw [hr] at hp
      have hb : b = { Entry := a.Entry.truncate, Description := "" } := by
        cases b with
        | mk e dsc =>
          simp only at hp hd
          rw [hd, ← Option.some.inj hp]
      rw [hb, ih rest2 (fun x hx => hann x (List.mem_cons_of_mem _ hx)) hrest]
      rfl

/-- The annotations read back from the object `MarshalJSON` wrote: those of the Task, each
with the sub-second part of its entry cleared and an empty description. -/
theorem reread_annotations (t d2 : Task) (kvs : List (String × Json))
    (h : MarshalJSON t = .ok (.obj kvs)) (hann : ∀ a ∈ t.Annotations, roundTrips a.Entry)
    (hd2 : decode (.obj kvs) = .ok d2) :
    d2.Annotations
      = t.Annotations.map
          (fun a => ({ Entry := a.Entry.truncate, Description := "" } : Annotation)) := by
  obtain ⟨aux, hm, hall⟩ := decode_annotations_of_aux kvs d2 hd2
  obtain ⟨hsub, hnd, hfold⟩ := MarshalJSON_keys t _ h
  have hfold2 : ∀ kv ∈ kvs, foldName kv.1 = kv.1 := by
    intro kv hkv
    apply hfold
    simp only [Json.keys]
    exact List.mem_map_of_mem _ hkv
  have hentries : (aux.Annotations.map (fun x => x.Entry))
      = t.Annotations.map (fun a => a.Entry.Format) := by
    by_cases hn : t.Annotations.length = 0
    · have hnil : t.Annotations = [] := List.length_eq_zero.mp hn
      have hmem := MarshalJSON_member_annotations t _ h
      simp only [hn, if_true] at hmem
      have hnot : "annotations" ∉ (Json.obj kvs).keys := by
        rw [mem_keys_iff, hmem]; simp
      have hk : ∀ kv ∈ kvs, foldName kv.1 ≠ "annotations" := by
        intro kv hkv e
        apply hnot
        rw [← e, hfold2 kv hkv]
        simp only [Json.keys]
        exact List.mem_map_of_mem _ hkv
      have := (decodeMembers_keeps_annotations kvs _ aux hm hk).1
      rw [this, hnil]
      rfl
    · obtain ⟨imask, urgency, h1, h2, hout⟩ := MarshalJSON_ok t _ h
      have hkvs := Json.obj.inj hout
      have hlen : ¬ ((t.Annotations.map
          (fun a : Annotation => (⟨a.Entry.Format⟩ : AuxEntry))).length == 0) = true := by
        simp only [List.length_map, beq_iff_eq]
        exact hn
      simp only [hlen, if_false] at hkvs
      have hsplit : kvs = (encPtr "due" (formatTime t.Due) ++ (encPtr "entry" (formatTime t.Entry)
          ++ (encPtr "modified" (formatTime t.Modified) ++ (encPtr "reviewed" (formatTime t.Reviewed)
          ++ (encPtr "until" (formatTime t.Until) ++ encPtr "wait" (formatTime t.Wait))))))
          ++ ("annotations", Json.arr ((t.Annotations.map
              (fun a : Annotation => (⟨a.Entry.Format⟩ : AuxEntry))).map encAuxEntry))
            :: ((if (t.ID == 0) = true then [] else [("id", Json.num (Number.ofInt t.ID))])
          ++ ([("description", Json.str t.Description)] ++ (imask ++ (encStr "parent" t.Parent
          ++ (encStr "project" t.Project ++ (encStr "recur" t.Recur ++ (encStr "rtype" t.Rtype
          ++ (encStr "status" t.Status ++ (encStr "uuid" t.UUID
          ++ ((if (t.Tags.length == 0) = true then [] else
                [("tags", Json.arr (List.map Json.str t.Tags))]) ++ urgency)))))))))) := by
        rw [hkvs]
        simp only [List.append_assoc, List.singleton_append, Bool.false_eq_true, if_false,
          List.cons_append, List.nil_append]
      generalize hpre : (encPtr "due" (formatTime t.Due) ++ (encPtr "entry" (formatTime t.Entry)
          ++ (encPtr "modified" (formatTime t.Modified) ++ (encPtr "reviewed" (formatTime t.Reviewed)
          ++ (encPtr "until" (formatTime t.Until) ++ encPtr "wait" (formatTime t.Wait)))))) = pre
        at hsplit
      generalize hpost : ((if (t.ID == 0) = true then [] else [("id", Json.num (Number.ofInt t.ID))])
          ++ ([("description", Json.str t.Description)] ++ (imask ++ (encStr "parent" t.Parent
          ++ (encStr "project" t.Project ++ (encStr "recur" t.Recur ++ (encStr "rtype" t.Rtype
          ++ (encStr "status" t.Status ++ (encStr "uuid" t.UUID
          ++ ((if (t.Tags.length == 0) = true then [] else
                [("tags", Json.arr (List.map Json.str t.Tags))]) ++ urgency)))))))))) = post
        at hsplit
      have hnd2 : ((pre ++ ("annotations", Json.arr ((t.Annotations.map
          (fun a : Annotation => (⟨a.Entry.Format⟩ : AuxEntry))).map encAuxEntry)) :: post).map
          (fun kv => kv.1)).Nodup := by
        rw [← hsplit]; exact hnd
      have hone : ∀ kv ∈ pre ++ post, foldName kv.1 ≠ "annotations" := by
        intro kv hkv e
        have hkv2 : kv ∈ kvs := by
          rw [hsplit]
          rcases List.mem_append.1 hkv with hp | hp
          · exact List.mem_append_left _ hp
          · exact List.mem_append_right _ (List.mem_cons_of_mem _ hp)
        rw [hfold2 kv hkv2] at e
        simp only [List.map_append, List.map_cons] at hnd2
        have hmid := List.nodup_middle.1 hnd2
        simp only [List.nodup_cons, List.mem_append, List.mem_map] at hmid
        apply hmid.1
        rcases List.mem_append.1 hkv with hp | hp
        · exact Or.inl ⟨kv, hp, e⟩
        · exact Or.inr ⟨kv, hp, e⟩
      rw [hsplit] at hm
      have hk : foldName "annotations" = "annotations" := by decide
      have := decodeMembers_annotations_once pre post "annotations" _ aux hk hone hm
      rw [this]
      simp only [List.map_map]
      apply List.map_congr_left
      intro a _
      simp only [Function.comp]
      rw [entryOf_encAuxEntry a.Entry]
  rw [hentries] at hall
  have hfilter : (t.Annotations.map (fun a => a.Entry.Format)).filter (fun s => decide (s ≠ ""))
      = t.Annotations.map (fun a => a.Entry.Format) := by
    rw [List.filter_eq_self]
    intro s hs
    obtain ⟨a, _, rfl⟩ := List.mem_map.1 hs
    simp only [ne_eq, decide_not, Bool.not_eq_true', decide_eq_false_iff_not]
    exact Format_ne_empty _
  rw [hfilter] at hall
  exact forall2_parse_eq _ _ hann hall


theorem Task.eq_of_fields (a b : Task)
    (h1 : a.ID = b.ID) (h2 : ∀ f : StrField, f.get a = f.get b)
    (h3 : ∀ f : TimeField, f.get a = f.get b) (h4 : ∀ f : FloatField, f.get a = f.get b)
    (h5 : a.Annotations = b.Annotations) (h6 : a.Tags = b.Tags) : a = b := by
  have s1 := h2 .Description
  have s2 := h2 .Parent
  have s3 := h2 .Project
  have s4 := h2 .Recur
  have s5 := h2 .Rtype
  have s6 := h2 .Status
  have s7 := h2 .UUID
  have t1 := h3 .Due
  have t2 := h3 .Entry
  have t3 := h3 .Modified
  have t4 := h3 .Reviewed
  have t5 := h3 .Until
  have t6 := h3 .Wait
  have f1 := h4 .Imask
  have f2 := h4 .Urgency
  cases a
  cases b
  simp only [StrField.get, TimeField.get, FloatField.get] at *
  simp only [Task.mk.injEq]
  exact ⟨h1, s1, t1, t2, f1, t3, s2, s3, s4, t4, s5, s6, t5, s7, t6, h5, h6, f2⟩

/-- The instant read back from what `formatTime` wrote for an instant that round-trips. -/
theorem timeOf_formatTime (t : Time) (h : roundTrips t) :
    (((formatTime t).map Json.str).map timeOf).getD Time.zero = t.truncate := by
  unfold formatTime
  by_cases hz : t.IsZero = true
  · rw [if_pos hz]
    rw [(Time.isZero_iff t (roundTrips_offset t h)).1 hz]
    rfl
  · rw [if_neg hz]
    simp only [Option.map_some', Option.getD_some, timeOf]
    exact (validStamp_of_roundTrips t h).2.1

theorem readStr_omitempty (s : String) :
    ((if s.length == 0 then none else some (Json.str s)).bind readStr).getD "" = s := by
  by_cases h : s.length = 0
  · have : s = "" := by
      cases s with
      | mk l =>
        simp only [String.length] at h
        rw [List.length_eq_zero.1 h]
    subst this
    rfl
  · have hb : ¬ ((s.length == 0) = true) := by simpa using h
    rw [if_neg hb]
    rfl

theorem readFloat_omitempty (f : Float64) (h : f.isFinite = true) :
    ((if f.isZero then none else some (Json.num (Number.ofFloat f))).bind readFloat).getD
      Float64.zero = f.normZero := by
  unfold Float64.normZero
  by_cases hz : f.isZero = true
  · simp only [hz, if_true, Option.none_bind, Option.getD_none]
  · rw [if_neg hz, if_neg hz, Option.some_bind, readFloat_ofFloat f h, Option.getD_some]

/-- Decoding the object `MarshalJSON` wrote for a Task whose instants all round-trip, whose
`ID` is an int64 and whose annotations have empty descriptions gives the Task back, with the
sub-second parts cleared and zero floats as `+0`. -/
theorem marshal_decode_reread (t : Task) (kvs : List (String × Json))
    (h : MarshalJSON t = .ok (.obj kvs))
    (htime : ∀ f : TimeField, roundTrips (f.get t))
    (hann : ∀ a ∈ t.Annotations, roundTrips a.Entry) (hid : inInt64 t.ID = true)
    (hdesc : ∀ a ∈ t.Annotations, a.Description = "") :
    decode (.obj kvs) = .ok t.reread := by
  have hwf := MarshalJSON_wellFormed t kvs h htime hann hid
  obtain ⟨d2, hd2, ht, _, hs, hi, hf, htg, _⟩ :=
    decode_wellFormed_values kvs hwf (MarshalJSON_checkValid t kvs h)
  obtain ⟨_, hnd, hfold⟩ := MarshalJSON_keys t _ h
  have hfold2 : ∀ kv ∈ kvs, foldName kv.1 = kv.1 := by
    intro kv hkv
    apply hfold
    simp only [Json.keys]
    exact List.mem_map_of_mem _ hkv
  have hlm : ∀ name, lastMember name kvs = (Json.obj kvs).member? name :=
    fun name => lastMember_eq_member name kvs hfold2 hnd
  have hfin : t.Imask.isFinite = true ∧ t.Urgency.isFinite = true := by
    rcases MarshalJSON_cases t with ⟨a, b, _⟩ | ⟨_, e⟩
    · exact ⟨a, b⟩
    · rw [e] at h; cases h
  obtain ⟨m1, m2, m3, m4, m5, m6, m7, m8, m9, m10, m11⟩ := MarshalJSON_member_other t _ h
  rw [hd2]
  congr 1
  apply Task.eq_of_fields
  · rw [hi, hlm, m1]
    by_cases hz : t.ID = 0
    · simp only [hz, beq_self_eq_true, if_true, Option.none_bind, Option.getD_none]
      exact hz.symm
    · have hb : ¬ ((t.ID == 0) = true) := by simpa using hz
      rw [if_neg hb, Option.some_bind, readInt_ofInt t.ID hid, Option.getD_some]
      rfl
  · intro f
    rw [hs f, hlm]
    cases f
    · rw [show StrField.Description.key = "description" from rfl, m2]; rfl
    · rw [show StrField.Parent.key = "parent" from rfl, m4]; exact readStr_omitempty _
    · rw [show StrField.Project.key = "project" from rfl, m5]; exact readStr_omitempty _
    · rw [show StrField.Recur.key = "recur" from rfl, m6]; exact readStr_omitempty _
    · rw [show StrField.Rtype.key = "rtype" from rfl, m7]; exact readStr_omitempty _
    · rw [show StrField.Status.key = "status" from rfl, m8]; exact readStr_omitempty _
    · rw [show StrField.UUID.key = "uuid" from rfl, m9]; exact readStr_omitempty _
  · intro f
    rw [ht f, hlm, MarshalJSON_member_time t _ h f, timeOf_formatTime _ (htime f)]
    cases f <;> rfl
  · intro f
    rw [hf f, hlm]
    cases f
    · rw [show FloatField.Imask.key = "imask" from rfl, m3, readFloat_omitempty _ hfin.1]; rfl
    · rw [show FloatField.Urgency.key = "urgency" from rfl, m11, readFloat_omitempty _ hfin.2]
      rfl
  · rw [reread_annotations t d2 kvs h hann hd2]
    show _ = t.Annotations.map
      (fun a => ({ Entry := a.Entry.truncate, Description := a.Description } : Annotation))
    apply List.map_congr_left
    intro a ha
    rw [hdesc a ha]
  · rw [htg, hlm, m10]
    by_cases hz : t.Tags.length = 0
    · have : t.Tags = [] := List.length_eq_zero.1 hz
      simp only [hz, beq_self_eq_true, if_true, Option.none_bind, Option.getD_none]
      exact this.symm
    · have hb : ¬ ((t.Tags.length == 0) = true) := by simpa using hz
      rw [if_neg hb, Option.some_bind, readTags_strings, Option.getD_some]
      rfl


theorem Time.truncate_eq_iff (t : Time) : t.truncate = t ↔ t.nsec = 0 := by
  cases t with
  | mk s n o =>
    simp only [Time.truncate, Time.mk.injEq, true_and, and_true]
    exact eq_comm

theorem Float64.normZero_eq_iff (f : Float64) :
    f.normZero = f ↔ (f.isZero = true → f = Float64.zero) := by
  unfold Float64.normZero
  by_cases hz : f.isZero = true
  · rw [if_pos hz]
    exact ⟨fun h _ => h.symm, fun h => (h hz).symm⟩
  · rw [if_neg hz]
    exact ⟨fun _ h => absurd h hz, fun _ => rfl⟩

theorem map_truncate_eq_iff (l : List Annotation) :
    l.map (fun a => ({ a with Entry := a.Entry.truncate } : Annotation)) = l
      ↔ ∀ a ∈ l, a.Entry.nsec = 0 := by
  induction l with
  | nil => simp
  | cons a rest ih =>
    simp only [List.map_cons, List.cons.injEq, ih, List.mem_cons, forall_eq_or_imp]
    apply and_congr_left
    intro _
    cases a with
    | mk e dsc =>
      simp only [ Annotation.mk.injEq, and_true]
      exact Time.truncate_eq_iff e

/-- A Task reads back from its own encoding unchanged exactly when its instants have whole
seconds and its zero floats are `+0`. -/
theorem Task.reread_eq_iff (t : Task) :
    t.reread = t ↔ (∀ f : TimeField, (f.get t).nsec = 0)
      ∧ (∀ a ∈ t.Annotations, a.Entry.nsec = 0)
      ∧ (∀ f : FloatField, (f.get t).isZero = true → f.get t = Float64.zero) := by
  have ht : (∀ f : TimeField, (f.get t).nsec = 0)
      ↔ (t.Due.nsec = 0 ∧ t.Entry.nsec = 0 ∧ t.Modified.nsec = 0 ∧ t.Reviewed.nsec = 0
          ∧ t.Until.nsec = 0 ∧ t.Wait.nsec = 0) := by
    constructor
    · intro h
      exact ⟨h .Due, h .Entry, h .Modified, h .Reviewed, h .Until, h .Wait⟩
    · intro h f
      cases f
      · exact h.1
      · exact h.2.1
      · exact h.2.2.1
      · exact h.2.2.2.1
      · exact h.2.2.2.2.1
      · exact h.2.2.2.2.2
  have hf : (∀ f : FloatField, (f.get t).isZero = true → f.get t = Float64.zero)
      ↔ ((t.Imask.isZero = true → t.Imask = Float64.zero)
          ∧ (t.Urgency.isZero = true → t.Urgency = Float64.zero)) := by
    constructor
    · intro h
      exact ⟨h .Imask, h .Urgency⟩
    · intro h f
      cases f
      · exact h.1
      · exact h.2
  rw [ht, hf]
  cases t with
  | mk ID Description Due Entry Imask Modified Parent Project Recur Reviewed Rtype Status Until
      UUID Wait Annotations Tags Urgency =>
    simp only [Task.reread, Task.mk.injEq, true_and, and_true, Time.truncate_eq_iff,
      Float64.normZero_eq_iff, map_truncate_eq_iff]
    tauto


/-! ## C18: decoding, encoding and decoding again -/

/-- C18 as stated fails: an `entry` with a fractional second decodes into a Task holding the
half second; `MarshalJSON` writes whole seconds only, so the Task decoded from its encoding
differs from the first one in `Entry`. -/
theorem fixed_point_fails_for_fraction :
    decode sampleFractionDoc = .ok sampleFraction
      ∧ MarshalJSON sampleFraction = .ok sampleEntryOnlyOut
      ∧ decode sampleEntryOnlyOut = .ok sampleEntryOnly
      ∧ sampleEntryOnly ≠ sampleFraction
      ∧ sampleFraction.Entry.nsec = 500000000 ∧ sampleEntryOnly.Entry.nsec = 0 :=
  ⟨by decide, rfl, by decide, by decide, by decide, by decide⟩

/-- C18 (amended). For every input that decodes into a fresh Task `d`, `MarshalJSON d`
succeeds and its output decodes into a fresh Task, which is `d` with the sub-second part of
every instant cleared (and a zero float read back as `+0`, the same number); that Task is `d`
itself exactly when the instants of `d` have whole seconds (and its zero floats are `+0`). -/
theorem decode_encode_decode (x : Json) (d : Task) (h : decode x = .ok d) :
    ∃ out, MarshalJSON d = .ok out ∧ decode out = .ok d.reread
      ∧ (d.reread = d ↔ (∀ f : TimeField, (f.get d).nsec = 0)
          ∧ (∀ a ∈ d.Annotations, a.Entry.nsec = 0)
          ∧ (∀ f : FloatField, (f.get d).isZero = true → f.get d = Float64.zero)) := by
  obtain ⟨kvs, hm⟩ := decode_marshal_ok x d h
  obtain ⟨htime, hann⟩ := decoded_roundTrips x d h
  exact ⟨.obj kvs, hm,
    marshal_decode_reread d kvs hm htime hann (decode_id_inInt64 x d h)
      (decode_annotations_description x d h),
    Task.reread_eq_iff d⟩

theorem decode_encode_decode_witness :
    decode sampleAnnotationsDoc = .ok sampleDecodedOnce
      ∧ ∃ out, MarshalJSON sampleDecodedOnce = .ok out
        ∧ decode out = .ok sampleDecodedOnce.reread
        ∧ (sampleDecodedOnce.reread = sampleDecodedOnce
            ↔ (∀ f : TimeField, (f.get sampleDecodedOnce).nsec = 0)
              ∧ (∀ a ∈ sampleDecodedOnce.Annotations, a.Entry.nsec = 0)
              ∧ (∀ f : FloatField, (f.get sampleDecodedOnce).isZero = true
                  → f.get sampleDecodedOnce = Float64.zero)) :=
  ⟨by decide, decode_encode_decode sampleAnnotationsDoc sampleDecodedOnce (by decide)⟩


end TaskArchive
